import Mathlib

/-!
# devops_tools: the workflow execution engine

A shallow embedding of `backend/internal/services/workflow_executor.go`,
`template_parser.go`, `variable_service.go` and the data types of
`backend/internal/models/workflow.go`, followed by the properties proved about them.

Conventions of the embedding

* A Go `map[string]string` is an association list `GoMap` whose keys are pairwise
  distinct (`WellFormed`); `lookup` is `m[k]`, `assign` is `m[k] = v`, and a
  `for k, v := range m` loop is a left fold over the entries in the order the runtime
  happens to pick (the list order).
* Go `string`s are Lean `String`s, `int` is `Int`.
* The collaborators the executor consumes (shell subprocesses, the cancellation
  signal, the workflow repository, the clock, the regular-expression engine) are
  the fields of `Env`.
* A goroutine is a state machine of its own (`LoopState` for the interpreter); what
  several goroutines do to one channel is an interleaving of their events
  (`channelHistory`), and a mutex is explicit state (`RWMutex`), a blocked acquisition
  being an outcome of the call (`CallOutcome.blocked`).
-/

namespace DevopsTools

/-! ## Go maps -/

/-- A Go `map[string]string`, as the list of its entries. -/
abbrev GoMap := List (String × String)

/-- The map has one entry per key. -/
def WellFormed (m : GoMap) : Prop := (m.map Prod.fst).Nodup

instance (m : GoMap) : Decidable (WellFormed m) := by
  unfold WellFormed; infer_instance

/-- The value `m[k]` together with the `ok` flag of the two-valued index expression. -/
def lookup : GoMap → String → Option String
  | [], _ => none
  | (k, v) :: rest, n => if k = n then some v else lookup rest n

/-- The assignment `m[k] = v`. -/
def assign : GoMap → String → String → GoMap
  | [], k, v => [(k, v)]
  | (k', v') :: rest, k, v =>
    if k' = k then (k', v) :: rest else (k', v') :: assign rest k v

/-- The loop `for k, v := range src { dst[k] = v }`. -/
def assignAll (dst src : GoMap) : GoMap :=
  src.foldl (fun acc kv => assign acc kv.1 kv.2) dst

/-! ## models/workflow.go -/

/-- Go type `models.Variable`. -/
structure Variable where
  Name : String
  Description : String := ""
  Type_ : String := "string"
  DefaultValue : String := ""
  Options : List String := []
  IsGlobal : Bool := false
  Required : Bool := false
  deriving DecidableEq, Repr

/-- Go type `models.StepAction`. -/
structure StepAction where
  Type_ : String
  Target : String := ""
  deriving DecidableEq, Repr

/-- Go type `models.Condition`. -/
structure Condition where
  Type_ : String
  Value : String
  Operator : String := ""
  Action : StepAction
  deriving DecidableEq, Repr

/-- Go type `models.Step`; the pointers `OnSuccess` and `OnFailure` are options. -/
structure Step where
  ID : String
  Name : String := ""
  Type_ : String := "command"
  Order : Int := 0
  Content : String := ""
  Variables : GoMap := []
  Conditions : List Condition := []
  OnSuccess : Option StepAction := none
  OnFailure : Option StepAction := none
  deriving DecidableEq, Repr

/-- Go type `models.Workflow`; a `time.Time` is a number of seconds, 0 being the zero
time (the two time stamps are not read by the executor). -/
structure Workflow where
  ID : String := ""
  Name : String := ""
  Description : String := ""
  Category : String := ""
  Variables : List Variable := []
  Steps : List Step := []
  CreatedAt : Nat := 0
  UpdatedAt : Nat := 0
  deriving DecidableEq, Repr

/-- Go type `models.ExecutionLog`. -/
structure ExecutionLog where
  Timestamp : String
  StepID : String
  Level : String
  Message : String
  Output : String := ""
  deriving DecidableEq, Repr

/-- Go type `models.WorkflowExecution`. -/
structure WorkflowExecution where
  ID : String
  WorkflowID : String
  Status : String
  Variables : GoMap
  Logs : List ExecutionLog
  StartTime : String
  EndTime : String := ""
  deriving DecidableEq, Repr

/-! ## Variable scope merging (`Execute`, lines 45-61) -/

/-- The second loop of the merge: a declared default fills a name that is not set yet,
and only when the default is not the empty string. -/
def mergeDefaults (vars : GoMap) (declared : List Variable) : GoMap :=
  declared.foldl
    (fun acc v =>
      if (lookup acc v.Name).isNone ∧ v.DefaultValue ≠ "" then
        assign acc v.Name v.DefaultValue
      else acc)
    vars

/-- The three loops that fill `execution.Variables`: globals, then declared defaults,
then caller inputs. -/
def mergeVariables (globalVars : GoMap) (declared : List Variable) (inputs : GoMap) : GoMap :=
  assignAll (mergeDefaults (assignAll [] globalVars) declared) inputs

/-- The name has a usable declared default: some declared variable of that name has a
non-empty default value. -/
def hasDefault (declared : List Variable) (n : String) : Prop :=
  ∃ v ∈ declared, v.Name = n ∧ v.DefaultValue ≠ ""

instance (declared : List Variable) (n : String) : Decidable (hasDefault declared n) := by
  unfold hasDefault; infer_instance

/-- The default of the first declared variable named `n` whose default is non-empty. -/
def firstDefault (declared : List Variable) (n : String) : Option String :=
  (declared.find? (fun v => decide (v.Name = n ∧ v.DefaultValue ≠ ""))).map (·.DefaultValue)

/-- Reference definition of the merged scope, following the wording of the
specification: inputs first, else globals, else the first non-empty declared default. -/
def mergedValueSpec (globalVars : GoMap) (declared : List Variable) (inputs : GoMap)
    (n : String) : Option String :=
  match lookup inputs n with
  | some v => some v
  | none =>
    match lookup globalVars n with
    | some v => some v
    | none => firstDefault declared n

/-! ## Library functions of the Go runtime used by the executor -/

/-- Scanner of `strings.ReplaceAll` for a non-empty `old`: the leftmost occurrence is
replaced and the scan resumes right after it (`skip` characters of the occurrence are
still to be passed over). -/
def replaceAllAux (old new : List Char) : Nat → List Char → List Char
  | _, [] => []
  | skip + 1, _ :: cs => replaceAllAux old new skip cs
  | 0, c :: cs =>
    if old.isPrefixOf (c :: cs) then new ++ replaceAllAux old new (old.length - 1) cs
    else c :: replaceAllAux old new 0 cs

/-- Go `strings.ReplaceAll(s, old, new)`: every non-overlapping occurrence of `old`,
found left to right, is replaced by `new`; an empty `old` matches before every
character and at the end. -/
def ReplaceAll (s old new : String) : String :=
  if old.data = [] then ⟨new.data ++ s.data.flatMap (fun c => c :: new.data)⟩
  else ⟨replaceAllAux old.data new.data 0 s.data⟩

/-- Go `strings.Contains` on the characters of the two strings. -/
def containsChars (sub : List Char) : List Char → Bool
  | [] => sub.isEmpty
  | c :: cs => sub.isPrefixOf (c :: cs) || containsChars sub cs

/-- Go `strings.Contains(s, substr)`. -/
def Contains (s substr : String) : Bool := containsChars substr.data s.data

/-- Go `unicode.IsSpace`: the characters `strings.TrimSpace` removes. -/
def isSpace (c : Char) : Bool :=
  c = '\t' || c = '\n' || c.val = 0x0B || c.val = 0x0C || c = '\r' || c = ' ' ||
  c.val = 0x85 || c.val = 0xA0 || c.val = 0x1680 ||
  (0x2000 ≤ c.val && c.val ≤ 0x200A) ||
  c.val = 0x2028 || c.val = 0x2029 || c.val = 0x202F || c.val = 0x205F || c.val = 0x3000

/-- Go `strings.TrimSpace`. -/
def TrimSpace (s : String) : String :=
  ⟨((s.data.dropWhile isSpace).reverse.dropWhile isSpace).reverse⟩

/-- Go `strings.HasPrefix`. -/
def HasPrefix (s pre : String) : Bool := pre.data.isPrefixOf s.data

/-- Go `strings.HasSuffix`. -/
def HasSuffix (s suf : String) : Bool := suf.data.isSuffixOf s.data

/-! ## template_parser.go -/

/-- Method `TemplateParser.SubstituteVariables`: one `strings.ReplaceAll` of the
placeholder (the key between braces) per entry of the map, applied one after the
other in the iteration order of the map. -/
def SubstituteVariables (command : String) (vars : GoMap) : String :=
  vars.foldl (fun result kv => ReplaceAll result ("\x7b" ++ kv.1 ++ "\x7d") kv.2) command

/-! ## The collaborators of the executor -/

/-- How `cmd.Wait()` ended. -/
inductive WaitResult where
  /-- `err == nil`: the process exited with status 0. -/
  | success
  /-- `err` is an `*exec.ExitError` with this `ExitCode()` and this message. -/
  | exitError (code : Int) (msg : String)
  /-- Any other error of `cmd.Wait()`. -/
  | otherError (msg : String)
  deriving DecidableEq, Repr

/-- One run of `sh -c command`: the error of `cmd.Start()` if any, the lines the two
scanner goroutines have handled (appended to `output` and sent) when `cmd.Wait()`
returns, in the order they were handled (the flag is true for a stderr line), and the
result of `cmd.Wait()`. The source does not wait for the scanner goroutines: a line
they handle after `cmd.Wait()` has returned is not in the captured output and is not in
this list; its send is not part of the history kept in `sink`. -/
structure Subprocess where
  startErr : Option String := none
  lines : List (Bool × String) := []
  wait : WaitResult := WaitResult.success
  deriving DecidableEq, Repr

/-- Everything the interpreter consumes from outside.

* `shell k command` is the `k`-th subprocess the run starts (counting from 0);
* `cancelled k` tells whether `ctx.Done()` is ready at the `k`-th poll of the loop;
* `storeGet` is `WorkflowStore.Get`, `globalVars` the snapshot `VariableService.GetAll()`;
* `now k` is the text of the `k`-th `time.Now().Format(time.RFC3339)`;
* `regexMatch pattern text` is `none` when `regexp.Compile` fails and otherwise the
  result of `MatchString`;
* `uuid` is the identifier drawn for the execution record. -/
structure Env where
  shell : Nat → String → Subprocess
  cancelled : Nat → Bool
  storeGet : String → Except String Workflow
  globalVars : GoMap
  now : Nat → String
  regexMatch : String → String → Option Bool
  uuid : String

/-! ## workflow_executor.go -/

/-- What the consumer of `outputChan` observes. -/
inductive SinkEvent where
  | send (message : String)
  | close
  deriving DecidableEq, Repr

/-- A sub-run started by `executeWorkflowStep`: the step that started it, the id and the
definition of the workflow found under `step.Content`, and the inputs handed to the
nested `Execute` (the scope of the parent). Its goroutine writes to a channel of its
own, `subOutputChan`, which a relay goroutine forwards to the channel of the parent. -/
structure SubRun where
  stepID : String
  workflowID : String
  workflow : Workflow
  inputs : GoMap
  deriving DecidableEq, Repr

/-- State of the goroutine started by `Execute`.

`execution` and `currentStepIndex` are the vars of the source; `sink` lists the
sends and the close this goroutine itself performs on `outputChan` (the sends of the
relay goroutines of its sub-runs reach the same channel concurrently, see
`channelHistory`); `clock`, `polls` count the calls of `time.Now()` and the polls of
`ctx.Done()`; `commands` lists the shell commands started so far, `executed` the
indices of the steps run by the main loop's `switch step.Type` and `subRuns` the
sub-runs started so far (all three are instrumentation); `returned` says that the
goroutine has returned, `panicked` that it did so by an index-out-of-range panic. -/
structure LoopState where
  execution : WorkflowExecution
  currentStepIndex : Int := 0
  sink : List SinkEvent := []
  clock : Nat := 0
  polls : Nat := 0
  commands : List String := []
  executed : List Nat := []
  returned : Bool := false
  panicked : Bool := false
  subRuns : List SubRun := []
  deriving DecidableEq, Repr

/-- The three results of `executeCommandStep`; the other step types leave `output`
and `exitCode` at their zero values. -/
structure StepResult where
  output : String := ""
  exitCode : Int := 0
  err : Option String := none
  deriving DecidableEq, Repr

/-- Common body of `logInfo` and `logError`. -/
def logAt (level : String) (env : Env) (s : LoopState) (stepID message : String) : LoopState :=
  { s with
    sink := s.sink ++ [SinkEvent.send message]
    execution := { s.execution with
      Logs := s.execution.Logs ++
        [{ Timestamp := env.now s.clock, StepID := stepID, Level := level,
           Message := message }] }
    clock := s.clock + 1 }

/-- Method `WorkflowExecutor.logInfo`. -/
def logInfo (env : Env) (s : LoopState) (stepID message : String) : LoopState :=
  logAt "info" env s stepID message

/-- Method `WorkflowExecutor.logError`. -/
def logError (env : Env) (s : LoopState) (stepID message : String) : LoopState :=
  logAt "error" env s stepID message

/-- The step-local remapping loop of `executeCommandStep` (lines 163-167). -/
def remapVariables (command : String) (stepVars vars : GoMap) : String :=
  stepVars.foldl
    (fun cmd kv =>
      match lookup vars kv.2 with
      | some val => ReplaceAll cmd ("\x7b" ++ kv.1 ++ "\x7d") val
      | none => cmd)
    command

/-- The command text handed to `sh -c` by `executeCommandStep`. -/
def commandText (step : Step) (vars : GoMap) : String :=
  remapVariables (SubstituteVariables step.Content vars) step.Variables vars

/-- The text accumulated in `output`: every line followed by a newline. -/
def capturedOutput (lines : List (Bool × String)) : String :=
  String.join (lines.map (fun l => l.2 ++ "\n"))

/-- The two scanner loops, up to the return of `cmd.Wait()`: a stdout line is logged at
level info, a stderr line at level error, in the order the lines were handled. -/
def streamLines (env : Env) (stepID : String) (lines : List (Bool × String))
    (s : LoopState) : LoopState :=
  lines.foldl
    (fun s l => if l.1 then logError env s stepID l.2 else logInfo env s stepID l.2) s

/-- The three values `executeCommandStep` returns for a given subprocess: a start
failure gives `("", -1, err)`; otherwise the captured text, and exit code 0 without
error, or the code of the `*exec.ExitError`, or -1 for any other error of `Wait`. -/
def procResult (proc : Subprocess) : StepResult :=
  match proc.startErr with
  | some e => { output := "", exitCode := -1, err := some e }
  | none =>
    match proc.wait with
    | WaitResult.success => { output := capturedOutput proc.lines, exitCode := 0, err := none }
    | WaitResult.exitError code msg =>
      { output := capturedOutput proc.lines, exitCode := code, err := some msg }
    | WaitResult.otherError msg =>
      { output := capturedOutput proc.lines, exitCode := -1, err := some msg }

/-- Method `WorkflowExecutor.executeCommandStep`. -/
def executeCommandStep (env : Env) (s : LoopState) (step : Step) (vars : GoMap) :
    LoopState × StepResult :=
  let command := commandText step vars
  let s := logInfo env s step.ID ("$ " ++ command)
  let proc := env.shell s.commands.length command
  let s := { s with commands := s.commands ++ [command] }
  match proc.startErr with
  | some _ => (s, procResult proc)
  | none => (streamLines env step.ID proc.lines s, procResult proc)

/-- Method `WorkflowExecutor.executeWorkflowStep`: the nested `Execute` fails exactly when the
repository lookup of `step.Content` fails, and then the relay goroutine has nothing to
forward; otherwise `Execute` starts the goroutine of the sub-run, which writes to
`subOutputChan`, and the step returns no error without waiting for it. The sub-run is
recorded in `subRuns`; what its relay goroutine sends on the channel of the parent is
`relaySends`. -/
def executeWorkflowStep (env : Env) (s : LoopState) (step : Step) : LoopState × StepResult :=
  let s := logInfo env s step.ID ("Executing sub-workflow: " ++ step.Content)
  match env.storeGet step.Content with
  | Except.error e => (s, { err := some e })
  | Except.ok wf =>
    ({ s with subRuns := s.subRuns ++
        [{ stepID := step.ID, workflowID := step.Content, workflow := wf,
           inputs := s.execution.Variables }] },
     { err := none })

/-- The `switch step.Type` of the loop body (lines 87-94). -/
def runStep (env : Env) (s : LoopState) (step : Step) : LoopState × StepResult :=
  if step.Type_ = "command" then executeCommandStep env s step s.execution.Variables
  else if step.Type_ = "workflow_ref" then executeWorkflowStep env s step
  else (s, { err := some ("unknown step type: " ++ step.Type_) })

/-- The predicate of one condition (the `switch cond.Type` of `evaluateConditions`). -/
def conditionMatches (env : Env) (cond : Condition) (output : String) (exitCode : Int) : Bool :=
  if cond.Type_ = "contains" then Contains output cond.Value
  else if cond.Type_ = "equals" then decide (TrimSpace output = cond.Value)
  else if cond.Type_ = "starts_with" then HasPrefix (TrimSpace output) cond.Value
  else if cond.Type_ = "ends_with" then HasSuffix (TrimSpace output) cond.Value
  else if cond.Type_ = "regex" then
    match env.regexMatch cond.Value output with
    | some m => m
    | none => false
  else if cond.Type_ = "exit_code" then decide (toString exitCode = cond.Value)
  else false

/-- Method `WorkflowExecutor.evaluateConditions`. -/
def evaluateConditions (env : Env) : List Condition → String → Int → Option StepAction
  | [], _, _ => none
  | cond :: rest, output, exitCode =>
    if conditionMatches env cond output exitCode then some cond.Action
    else evaluateConditions env rest output exitCode

/-- Method `WorkflowExecutor.handleStepAction`, as a function from the old to the new value of
`*currentIndex`. -/
def handleStepAction (action : StepAction) (steps : List Step) (currentIndex : Int) : Int :=
  if action.Type_ = "continue" then currentIndex
  else if action.Type_ = "stop" then (steps.length : Int)
  else if action.Type_ = "jump_to" then
    match steps.findIdx? (fun st => decide (st.ID = action.Target)) with
    | some i => (i : Int) - 1
    | none => currentIndex
  else currentIndex

/-- The scan of the `jump_to` case of a condition (lines 110-116): every step whose id
is the target sets the cursor to its index and logs; the inner `continue` goes on with
the scan. `i` is the index of the head of the remaining steps. -/
def jumpScan (env : Env) (stepID target : String) : Nat → List Step → LoopState → LoopState
  | _, [], s => s
  | i, st :: rest, s =>
    if st.ID = target then
      jumpScan env stepID target (i + 1) rest
        (logInfo env { s with currentStepIndex := (i : Int) } stepID
          ("Jumping to step: " ++ st.Name))
    else jumpScan env stepID target (i + 1) rest s

/-- The `execute_step` case of a condition (lines 119-125): the first step whose id is
the target is run inline through `executeCommandStep`, its results are dropped. -/
def executeInline (env : Env) (stepID target : String) (steps : List Step) (s : LoopState) :
    LoopState :=
  match steps.find? (fun st => decide (st.ID = target)) with
  | some st =>
    let s := logInfo env s stepID ("Executing step: " ++ st.Name)
    (executeCommandStep env s st s.execution.Variables).1
  | none => s

/-- Terminal stamp: `execution.Status = status; execution.EndTime = now`. -/
def setTerminal (env : Env) (s : LoopState) (status : String) : LoopState :=
  { s with
    execution := { s.execution with Status := status, EndTime := env.now s.clock }
    clock := s.clock + 1 }

/-- A `return` of the goroutine: the deferred `close(outputChan)` runs. -/
def goReturn (s : LoopState) : LoopState :=
  { s with sink := s.sink ++ [SinkEvent.close], returned := true }

/-- The condition block of the loop body (lines 96-128). -/
def conditionPhase (env : Env) (wf : Workflow) (s : LoopState) (step : Step)
    (res : StepResult) : LoopState :=
  if step.Conditions.length > 0 then
    match evaluateConditions env step.Conditions res.output res.exitCode with
    | some action =>
      let s := logInfo env s step.ID ("Condition matched: " ++ action.Type_)
      if action.Type_ = "stop" then
        goReturn (logInfo env (setTerminal env s "completed") "" "Workflow stopped by condition")
      else if action.Type_ = "jump_to" then
        jumpScan env step.ID action.Target 0 wf.Steps s
      else if action.Type_ = "execute_step" then
        executeInline env step.ID action.Target wf.Steps s
      else s
    | none => s
  else s

/-- The statement `currentStepIndex++`. -/
def advance (s : LoopState) : LoopState :=
  { s with currentStepIndex := s.currentStepIndex + 1 }

/-- The result block of the loop body followed by the increment (lines 130-147). -/
def resultPhase (env : Env) (wf : Workflow) (s : LoopState) (step : Step)
    (res : StepResult) : LoopState :=
  match res.err with
  | some e =>
    let s := logError env s step.ID ("Step failed: " ++ e)
    match step.OnFailure with
    | some action =>
      advance { s with currentStepIndex := handleStepAction action wf.Steps s.currentStepIndex }
    | none => goReturn (setTerminal env s "failed")
  | none =>
    match step.OnSuccess with
    | some action =>
      advance { s with currentStepIndex := handleStepAction action wf.Steps s.currentStepIndex }
    | none => advance s

/-- The state in which the `switch step.Type` starts: the signal has been polled and
found silent, and the step banner has been logged (line 81). -/
def enterStep (env : Env) (wf : Workflow) (s : LoopState) (idx : Nat) (step : Step) :
    LoopState :=
  let s := logInfo env { s with polls := s.polls + 1 } step.ID
    ("Step " ++ toString (idx + 1) ++ "/" ++ toString wf.Steps.length ++ ": " ++ step.Name)
  { s with executed := s.executed ++ [idx] }

/-- The body of the `for` loop for the step at index `idx` (lines 70-147). -/
def loopBody (env : Env) (wf : Workflow) (s : LoopState) (idx : Nat) (step : Step) :
    LoopState :=
  if env.cancelled s.polls then
    goReturn (setTerminal env
      (logInfo env { s with polls := s.polls + 1 } step.ID "Execution cancelled") "cancelled")
  else
    let r := runStep env (enterStep env wf s idx step) step
    let s := conditionPhase env wf r.1 step r.2
    if s.returned then s else resultPhase env wf s step r.2

/-- The results of the step at index `idx` when the loop body runs it in state `s`. -/
def stepResult (env : Env) (wf : Workflow) (s : LoopState) (idx : Nat) (step : Step) :
    StepResult :=
  (runStep env (enterStep env wf s idx step) step).2

/-- The state right after the condition block of the step at index `idx`. -/
def afterConditions (env : Env) (wf : Workflow) (s : LoopState) (idx : Nat) (step : Step) :
    LoopState :=
  conditionPhase env wf (runStep env (enterStep env wf s idx step) step).1 step
    (stepResult env wf s idx step)

/-- The goroutine panics (index out of range); the deferred close still runs. -/
def goPanic (s : LoopState) : LoopState :=
  goReturn { s with panicked := true }

/-- One evaluation of the loop guard followed by the loop body, or by the code after
the loop when the guard fails (lines 69-152). A goroutine that has returned does
nothing any more. -/
def iteration (env : Env) (wf : Workflow) (s : LoopState) : LoopState :=
  if s.returned then s
  else if s.currentStepIndex < (wf.Steps.length : Int) then
    if s.currentStepIndex < 0 then goPanic s
    else
      match wf.Steps[s.currentStepIndex.toNat]? with
      | some step => loopBody env wf s s.currentStepIndex.toNat step
      | none => goPanic s
  else
    goReturn (logInfo env (setTerminal env s "completed") "" "Workflow completed successfully")

/-- The execution record built synchronously by `Execute` (lines 36-61). -/
def newExecution (env : Env) (wf : Workflow) (workflowID : String) (inputs : GoMap) :
    WorkflowExecution :=
  { ID := env.uuid
    WorkflowID := workflowID
    Status := "running"
    Variables := mergeVariables env.globalVars wf.Variables inputs
    Logs := []
    StartTime := env.now 0 }

/-- State of the goroutine when it reaches the loop for the first time: the record has
been built (one reading of the clock) and "Starting workflow" has been logged. -/
def initialState (env : Env) (wf : Workflow) (workflowID : String) (inputs : GoMap) :
    LoopState :=
  logInfo env { execution := newExecution env wf workflowID inputs, clock := 1 } ""
    ("Starting workflow: " ++ wf.Name)

/-- Method `WorkflowExecutor.Execute`: the error of the repository lookup, or the workflow
with the state in which its goroutine enters the loop. -/
def Execute (env : Env) (workflowID : String) (inputs : GoMap) :
    Except String (Workflow × LoopState) :=
  match env.storeGet workflowID with
  | Except.error e => Except.error e
  | Except.ok wf => Except.ok (wf, initialState env wf workflowID inputs)

/-- The state after `n` evaluations of the loop guard. -/
def iterate (env : Env) (wf : Workflow) : Nat → LoopState → LoopState
  | 0, s => s
  | n + 1, s => iterate env wf n (iteration env wf s)

/-- The goroutine run with a bound on the number of guard evaluations: the state in
which it returned, or `none` when the bound is too small. -/
def runLoop (env : Env) (wf : Workflow) : Nat → LoopState → Option LoopState
  | 0, s => if s.returned then some s else none
  | n + 1, s => if s.returned then some s else runLoop env wf n (iteration env wf s)

/-- The messages among the events of a channel. -/
def sentMessages (events : List SinkEvent) : List String :=
  events.filterMap (fun e =>
    match e with
    | SinkEvent.send message => some message
    | SinkEvent.close => none)

/-- The events the goroutine of a sub-run performs on its channel `subOutputChan`, when
it returns within `fuel` evaluations of its loop guard. -/
def subRunEvents (env : Env) (sub : SubRun) (fuel : Nat) : Option (List SinkEvent) :=
  (runLoop env sub.workflow fuel
    (initialState env sub.workflow sub.workflowID sub.inputs)).map (·.sink)

/-- The relay goroutine of `executeWorkflowStep` (lines 222-226): every message received
from `subOutputChan` is sent on the channel of the parent with two blanks in front. -/
def relaySends (received : List String) : List SinkEvent :=
  received.map (fun msg => SinkEvent.send ("  " ++ msg))

/-- A history of a channel on which two goroutines operate: `schedule` tells, event by
event, whose operation comes next (`true`: the first goroutine), until the schedule or
one of the two is exhausted; what is left follows, the first goroutine first. -/
def channelHistory : List Bool → List SinkEvent → List SinkEvent → List SinkEvent
  | [], xs, ys => xs ++ ys
  | true :: sched, x :: xs, ys => x :: channelHistory sched xs ys
  | true :: _, [], ys => ys
  | false :: sched, xs, y :: ys => y :: channelHistory sched xs ys
  | false :: _, xs, [] => xs

/-- A message is sent on the channel after its close: the send on which the Go runtime
panics. -/
def sendAfterClose : List SinkEvent → Bool
  | [] => false
  | SinkEvent.close :: rest =>
    rest.any (fun e => decide (e ≠ SinkEvent.close)) || sendAfterClose rest
  | SinkEvent.send _ :: rest => sendAfterClose rest

/-- The name is present in more than one of the three scopes. -/
def inSeveralScopes (globalVars : GoMap) (declared : List Variable) (inputs : GoMap)
    (n : String) : Prop :=
  ((lookup globalVars n).isSome ∧ hasDefault declared n) ∨
  ((lookup globalVars n).isSome ∧ (lookup inputs n).isSome) ∨
  (hasDefault declared n ∧ (lookup inputs n).isSome)

instance (globalVars : GoMap) (declared : List Variable) (inputs : GoMap) (n : String) :
    Decidable (inSeveralScopes globalVars declared inputs n) := by
  unfold inSeveralScopes; infer_instance

/-- The state `s'` arises from `s` by logging and by starting subprocesses only: the
control fields, the status, the end time and the variable map are those of `s`, the
sink has received messages and no close. The cursor is not part of the frame. -/
structure Frame (s s' : LoopState) : Prop where
  returned : s'.returned = s.returned
  panicked : s'.panicked = s.panicked
  polls : s'.polls = s.polls
  executed : s'.executed = s.executed
  status : s'.execution.Status = s.execution.Status
  endTime : s'.execution.EndTime = s.execution.EndTime
  vars : s'.execution.Variables = s.execution.Variables
  sink : ∃ msgs : List String, s'.sink = s.sink ++ msgs.map SinkEvent.send
  logs : ∃ entries : List ExecutionLog, s'.execution.Logs = s.execution.Logs ++ entries

/-- The four values of `Status` the interpreter uses. -/
def validStatus (st : String) : Prop :=
  st = "running" ∨ st = "completed" ∨ st = "failed" ∨ st = "cancelled"

/-- The three terminal values of `Status`. -/
def terminalStatus (st : String) : Prop :=
  st = "completed" ∨ st = "failed" ∨ st = "cancelled"

instance (st : String) : Decidable (validStatus st) := by
  unfold validStatus; infer_instance

instance (st : String) : Decidable (terminalStatus st) := by
  unfold terminalStatus; infer_instance

/-- The exit code the step gets when it is the `k`-th subprocess of the run and the
execution scope is `vars`. -/
def exitCodeAt (env : Env) (vars : GoMap) (k : Nat) (step : Step) : Int :=
  (procResult (env.shell k (commandText step vars))).exitCode

/-- A step of type command without conditions and without hooks. -/
def plainCommand (st : Step) : Prop :=
  st.Type_ = "command" ∧ st.Conditions = [] ∧ st.OnSuccess = none ∧ st.OnFailure = none

instance (st : Step) : Decidable (plainCommand st) := by
  unfold plainCommand; infer_instance

/-- Invariant of the goroutine between two evaluations of the loop guard: while it
runs, the cursor is not negative, the status is running, no end time is stamped and the
sink has received messages only; once it has returned, the status is terminal, the end
time is a reading of the clock and the sink is some messages followed by one close. -/
structure LoopInvariant (env : Env) (s : LoopState) : Prop where
  noPanic : s.panicked = false
  running : s.returned = false →
    0 ≤ s.currentStepIndex ∧ s.execution.Status = "running" ∧ s.execution.EndTime = "" ∧
    ∃ msgs : List String, s.sink = msgs.map SinkEvent.send
  done : s.returned = true →
    terminalStatus s.execution.Status ∧ (∃ k, s.execution.EndTime = env.now k) ∧
    ∃ msgs : List String, s.sink = msgs.map SinkEvent.send ++ [SinkEvent.close]

/-! ## Example collaborators and workflows -/

/-- A shell in which `exit 1` exits with status 1, `echo hi` prints one line, a
`sleep 100` is killed by the cancellation signal, and everything else succeeds silently. -/
def demoShell (_ : Nat) (command : String) : Subprocess :=
  if command = "exit 1" then { wait := WaitResult.exitError 1 "exit status 1" }
  else if command = "echo hi" then { lines := [(false, "hi")] }
  else if command = "sleep 100" then { wait := WaitResult.exitError (-1) "signal: killed" }
  else {}

/-- Steps `[A: echo hi, B: exit 1]` where `B` declares `onFailure: stop`. -/
def wfStopOnFailure : Workflow :=
  { ID := "deploy", Name := "deploy",
    Steps := [{ ID := "A", Name := "greet", Content := "echo hi" },
              { ID := "B", Name := "break", Content := "exit 1",
                OnFailure := some { Type_ := "stop" } }] }

/-- Four steps; a condition of the first one jumps to `C` when the output contains `hi`. -/
def wfConditionJump : Workflow :=
  { ID := "cond-jump", Name := "cond-jump",
    Steps := [{ ID := "A", Content := "echo hi",
                Conditions := [{ Type_ := "contains", Value := "hi",
                                 Action := { Type_ := "jump_to", Target := "C" } }] },
              { ID := "B", Content := "echo b" },
              { ID := "C", Content := "echo c" },
              { ID := "D", Content := "echo d" }] }

/-- Four steps; the success hook of the first one jumps to `C`. -/
def wfHookJump : Workflow :=
  { ID := "hook-jump", Name := "hook-jump",
    Steps := [{ ID := "A", Content := "echo hi",
                OnSuccess := some { Type_ := "jump_to", Target := "C" } },
              { ID := "B", Content := "echo b" },
              { ID := "C", Content := "echo c" },
              { ID := "D", Content := "echo d" }] }

/-- Three plain command steps, the second of which exits with status 1. -/
def wfPlain : Workflow :=
  { ID := "plain", Name := "plain",
    Steps := [{ ID := "A", Content := "echo hi" },
              { ID := "B", Content := "exit 1" },
              { ID := "C", Content := "echo hi" }] }

/-- One long-running command step. -/
def wfSleep : Workflow :=
  { ID := "sleep", Name := "sleep", Steps := [{ ID := "A", Content := "sleep 100" }] }

/-- A repository holding the example workflows. -/
def demoStore (id : String) : Except String Workflow :=
  if id = "deploy" then Except.ok wfStopOnFailure
  else if id = "cond-jump" then Except.ok wfConditionJump
  else if id = "hook-jump" then Except.ok wfHookJump
  else if id = "plain" then Except.ok wfPlain
  else if id = "sleep" then Except.ok wfSleep
  else Except.error "workflow not found"

/-- Collaborators of a run that is never cancelled. -/
def demoEnv : Env :=
  { shell := demoShell
    cancelled := fun _ => false
    storeGet := demoStore
    globalVars := []
    now := fun _ => "2024-01-01T00:00:00Z"
    regexMatch := fun _ _ => none
    uuid := "exec-1" }

/-- Collaborators of a run whose cancellation signal fires after the first poll, while
the first step is running. -/
def cancelEnv : Env :=
  { demoEnv with cancelled := fun k => decide (1 ≤ k) }

/-! ## Reference predicates of the conditions -/

/-- The predicate of a condition in the words of the specification: `contains` means
the value is a substring of the output, `equals` that the trimmed output is the value,
`starts_with` and `ends_with` that the value is a leading or trailing part of the trimmed
output, `regex` that the value compiles and matches the output, `exit_code` that the
decimal rendering of the exit code is the value; no other type holds. -/
def conditionHolds (env : Env) (cond : Condition) (output : String) (exitCode : Int) : Prop :=
  (cond.Type_ = "contains" ∧ cond.Value.data <:+: output.data) ∨
  (cond.Type_ = "equals" ∧ TrimSpace output = cond.Value) ∨
  (cond.Type_ = "starts_with" ∧ cond.Value.data <+: (TrimSpace output).data) ∨
  (cond.Type_ = "ends_with" ∧ cond.Value.data <:+ (TrimSpace output).data) ∨
  (cond.Type_ = "regex" ∧ env.regexMatch cond.Value output = some true) ∨
  (cond.Type_ = "exit_code" ∧ toString exitCode = cond.Value)

/-- One `workflow_ref` step whose referenced workflow is absent and whose condition
`exit_code = 0` stops the run. -/
def wfMissingRefStop : Workflow :=
  { ID := "parent", Name := "parent",
    Steps := [{ ID := "A", Type_ := "workflow_ref", Content := "missing",
                Conditions := [{ Type_ := "exit_code", Value := "0",
                                 Action := { Type_ := "stop" } }] }] }

/-- One `workflow_ref` step whose referenced workflow is absent, then a command step. -/
def wfMissingRef : Workflow :=
  { ID := "parent", Name := "parent",
    Steps := [{ ID := "A", Type_ := "workflow_ref", Content := "missing" },
              { ID := "B", Content := "echo hi" }] }

/-! ## variable_service.go

The store is embedded in two layers. First the data it holds (the in-memory cache and
the decoded content of `global_variables.json`) with the statements of its methods
between their operations on `vs.mu`; further down, `LockedStore`, the methods as
written, with the mutex as explicit state. A `time.Time` is a number of seconds, 0
being the zero time. -/

/-- Go type `models.GlobalVariable`. -/
structure GlobalVariable where
  Name : String
  Value : String := ""
  Description : String := ""
  CreatedAt : Nat := 0
  UpdatedAt : Nat := 0
  deriving DecidableEq, Repr

/-- A Go `map[string]models.GlobalVariable`, as the list of its entries. -/
abbrev VarCache := List (String × GlobalVariable)

/-- The two-valued index expression `v, ok := cache[name]`. -/
def cacheLookup : VarCache → String → Option GlobalVariable
  | [], _ => none
  | (k, v) :: rest, n => if k = n then some v else cacheLookup rest n

/-- The assignment `cache[name] = v`. -/
def cacheAssign : VarCache → String → GlobalVariable → VarCache
  | [], k, v => [(k, v)]
  | (k', v') :: rest, k, v =>
    if k' = k then (k', v) :: rest else (k', v') :: cacheAssign rest k v

/-- The statement `delete(cache, name)`. -/
def cacheDelete (cache : VarCache) (name : String) : VarCache :=
  cache.filter (fun kv => decide (kv.1 ≠ name))

/-- The errors the store returns: `fmt.Errorf("variable not found: %s", name)`, or an
error of the file system or of the JSON encoder. -/
inductive StoreError where
  | notFound (name : String)
  | io (msg : String)
  deriving DecidableEq, Repr

/-- Go type `VariableService`: the cache and the durable collection record (`none` while
the file does not exist). -/
structure VariableService where
  cache : VarCache := []
  disk : Option (List GlobalVariable) := none
  deriving DecidableEq, Repr

/-- The statements of `VariableService.saveCache` between its lock operations: the values
of the cache are written as one collection; `writeErr` is the error of
`json.MarshalIndent` or `os.WriteFile`, if any, in which case the file is taken to be left
as it was. The method with its `RLock` is `LockedStore.saveCache`. -/
def VariableService.saveCache (vs : VariableService) (writeErr : Option String) :
    VariableService × Option StoreError :=
  match writeErr with
  | some msg => (vs, some (StoreError.io msg))
  | none => ({ vs with disk := some (vs.cache.map (·.2)) }, none)

/-- Method `VariableService.List`. -/
def VariableService.List (vs : VariableService) : List GlobalVariable :=
  vs.cache.map (·.2)

/-- Method `VariableService.Get`. -/
def VariableService.Get (vs : VariableService) (name : String) :
    Except StoreError GlobalVariable :=
  match cacheLookup vs.cache name with
  | none => Except.error (StoreError.notFound name)
  | some v => Except.ok v

/-- The statements of `VariableService.Set` without the lock operations, called when the
clock reads `now`: what the call would do to the cache and the file if the lock
acquisitions of `Set` and of `saveCache` all succeeded. The method as written, with
`vs.mu`, is `LockedStore.Set`; it stops after the assignment to the cache. -/
def VariableService.Set (vs : VariableService) (v : GlobalVariable) (now : Nat)
    (writeErr : Option String) : VariableService × Option StoreError :=
  let v := if v.CreatedAt = 0 then { v with CreatedAt := now } else v
  let v := { v with UpdatedAt := now }
  VariableService.saveCache { vs with cache := cacheAssign vs.cache v.Name v } writeErr

/-- The statements of `VariableService.Delete` without the lock operations. The method as
written, with `vs.mu`, is `LockedStore.Delete`. -/
def VariableService.Delete (vs : VariableService) (name : String)
    (writeErr : Option String) : VariableService × Option StoreError :=
  match cacheLookup vs.cache name with
  | none => (vs, some (StoreError.notFound name))
  | some _ => VariableService.saveCache { vs with cache := cacheDelete vs.cache name } writeErr

/-- Method `VariableService.GetAll`. -/
def VariableService.GetAll (vs : VariableService) : GoMap :=
  vs.cache.foldl (fun result kv => assign result kv.1 kv.2.Value) []

/-- A store holding `REGION`, created and last written when the clock read 5. -/
def demoVariables : VariableService :=
  { cache := [("REGION", { Name := "REGION", Value := "us-east-1",
                           CreatedAt := 5, UpdatedAt := 5 })]
    disk := some [{ Name := "REGION", Value := "us-east-1", CreatedAt := 5, UpdatedAt := 5 }] }

/-! ## template_parser.go: the placeholder pattern -/

/-- The opening brace. -/
def lbrace : Char := Char.ofNat 123

/-- The closing brace. -/
def rbrace : Char := Char.ofNat 125

/-- The class `[A-Z_]` of the pattern. -/
def isNameStart (c : Char) : Bool :=
  (65 ≤ c.toNat && c.toNat ≤ 90) || c.toNat = 95

/-- The class `[A-Z0-9_]` of the pattern. -/
def isNameChar (c : Char) : Bool :=
  isNameStart c || (48 ≤ c.toNat && c.toNat ≤ 57)

/-- A match of `variablePattern` (an opening brace, `[A-Z_]`, the longest run of
`[A-Z0-9_]`, a closing brace) anchored at the head of the text: its capture group. The
run is followed by a character outside the class, so no shorter run can be followed by
the closing brace: the greedy match is the only candidate. -/
def placeholderAt : List Char → Option (List Char)
  | c₀ :: c :: cs =>
    if c₀ = lbrace ∧ isNameStart c = true then
      match cs.dropWhile isNameChar with
      | d :: _ => if d = rbrace then some (c :: cs.takeWhile isNameChar) else none
      | [] => none
    else none
  | _ => none

/-- Go `variablePattern.FindAllStringSubmatch(command, -1)`, reduced to the capture
groups: the matches are searched from left to right and the search resumes right after
a match (`skip` characters of the current match are still to be passed over). -/
def findAllAux : Nat → List Char → List (List Char)
  | _, [] => []
  | skip + 1, _ :: cs => findAllAux skip cs
  | 0, c :: cs =>
    match placeholderAt (c :: cs) with
    | some name => name :: findAllAux (name.length + 1) cs
    | none => findAllAux 0 cs

/-- The loop of `ExtractVariables` over the matches: the state is the set `seen` and
the slice `variables`. -/
def collectNames (found : List (List Char)) : List String × List String :=
  found.foldl
    (fun (st : List String × List String) name =>
      if String.mk name ∈ st.1 then st
      else (String.mk name :: st.1, st.2 ++ [String.mk name]))
    ([], [])

/-- Method `TemplateParser.ExtractVariables`. -/
def ExtractVariables (command : String) : List String :=
  (collectNames (findAllAux 0 command.data)).2

/-- Method `TemplateParser.ValidateCommand`. -/
def ValidateCommand (command : String) (vars : GoMap) : List String :=
  (ExtractVariables command).filter (fun varName => (lookup vars varName).isNone)

/-! ## Reference notions for the template functions -/

/-- The text of the placeholder of a name: the name between braces. -/
def placeholder (name : String) : String := "\x7b" ++ name ++ "\x7d"

/-- The characters of the placeholder of a name. -/
def ph (name : List Char) : List Char := lbrace :: (name ++ [rbrace])

/-- The name matches `[A-Z_][A-Z0-9_]*`. -/
def validName : List Char → Bool
  | [] => false
  | c :: cs => isNameStart c && cs.all isNameChar

/-- The number of positions of the text at which the pattern occurs. -/
def countOccurrences (p : List Char) : List Char → Nat
  | [] => 0
  | c :: cs => (if p.isPrefixOf (c :: cs) then 1 else 0) + countOccurrences p cs

/-- The position of the first occurrence of the pattern in the text (the length of the
text when there is none). -/
def firstOccurrence (p : List Char) : List Char → Nat
  | [] => 0
  | c :: cs => if p.isPrefixOf (c :: cs) then 0 else firstOccurrence p cs + 1

/-- The text holds neither brace. -/
def braceFree (l : List Char) : Prop := lbrace ∉ l ∧ rbrace ∉ l

instance (l : List Char) : Decidable (braceFree l) := by
  unfold braceFree; infer_instance

/-- No opening brace of the text is followed by another opening brace before the next
closing brace; `opened` tells that an opening brace is waiting for its closing one. -/
def flatFrom : Bool → List Char → Bool
  | _, [] => true
  | opened, c :: cs =>
    if c = lbrace then !opened && flatFrom true cs
    else if c = rbrace then flatFrom false cs
    else flatFrom opened cs

/-- The braces of the command are not nested. -/
def flatBraces (command : String) : Bool := flatFrom false command.data

/-- The first entry of the map whose placeholder stands at the head of the text. -/
def matchingEntry (vals : GoMap) (text : List Char) : Option (String × String) :=
  vals.find? (fun kv => (ph kv.1.data).isPrefixOf text)

/-- Simultaneous substitution, scanning the original text once: where the placeholder
of a key stands, the value of the key is emitted and the scan resumes after the
placeholder; any other character is copied. Emitted values are not scanned. -/
def simultaneousAux (vals : GoMap) : Nat → List Char → List Char
  | _, [] => []
  | skip + 1, _ :: cs => simultaneousAux vals skip cs
  | 0, c :: cs =>
    match matchingEntry vals (c :: cs) with
    | some kv => kv.2.data ++ simultaneousAux vals (kv.1.data.length + 1) cs
    | none => c :: simultaneousAux vals 0 cs

/-- Reference definition of the substitution in the words of the specification: every
occurrence of the placeholder of a key is replaced by the value of the key, everything
else is kept. -/
def simultaneousSubstitution (command : String) (vals : GoMap) : String :=
  ⟨simultaneousAux vals 0 command.data⟩

/-- The capture groups of the matches of `variablePattern` anchored at each position of
the text, in the order of the positions. -/
def namesByPosition : List Char → List (List Char)
  | [] => []
  | c :: cs =>
    match placeholderAt (c :: cs) with
    | some name => name :: namesByPosition cs
    | none => namesByPosition cs

/-- Deduplication in the order of first appearance. -/
def dedupFirst : List String → List String
  | [] => []
  | x :: xs => x :: (dedupFirst xs).filter (fun y => decide (y ≠ x))

/-- The sequence of replacements of `SubstituteVariables` on the characters of the
command. -/
def substituteChars (vals : GoMap) (text : List Char) : List Char :=
  vals.foldl (fun r kv => replaceAllAux (ph kv.1.data) kv.2.data 0 r) text

/-! ## Further example collaborators and workflows -/

/-- A workflow without steps. -/
def wfChild : Workflow :=
  { ID := "child", Name := "child", Steps := [] }

/-- One `workflow_ref` step that references `wfChild`. -/
def wfParentRef : Workflow :=
  { ID := "parent-ref", Name := "parent-ref",
    Steps := [{ ID := "A", Name := "call", Type_ := "workflow_ref", Content := "child" }] }

/-- Collaborators whose repository also holds `wfChild` and `wfParentRef`. -/
def relayEnv : Env :=
  { demoEnv with
    storeGet := fun id =>
      if id = "child" then Except.ok wfChild
      else if id = "parent-ref" then Except.ok wfParentRef
      else demoStore id }

/-- Collaborators of a run whose cancellation signal fires after the second poll. -/
def lateCancelEnv : Env :=
  { demoEnv with cancelled := fun k => decide (2 ≤ k) }

/-- Three steps; the first one exits with status 1, declares no failure hook, and its
condition `exit_code = 1` jumps to `C`. -/
def wfJumpThenFail : Workflow :=
  { ID := "jump-fail", Name := "jump-fail",
    Steps := [{ ID := "A", Content := "exit 1",
                Conditions := [{ Type_ := "exit_code", Value := "1",
                                 Action := { Type_ := "jump_to", Target := "C" } }] },
              { ID := "B", Content := "echo b" },
              { ID := "C", Content := "echo c" }] }

/-- Three steps; the first one succeeds, its condition jumps to `C` and its success
hook is `stop`. -/
def wfJumpThenStop : Workflow :=
  { ID := "jump-stop", Name := "jump-stop",
    Steps := [{ ID := "A", Content := "echo hi",
                Conditions := [{ Type_ := "contains", Value := "hi",
                                 Action := { Type_ := "jump_to", Target := "C" } }],
                OnSuccess := some { Type_ := "stop" } },
              { ID := "B", Content := "echo b" },
              { ID := "C", Content := "echo c" }] }

/-- Three steps; the condition of the first one runs `C` inline when the output
contains `hi`. -/
def wfInline : Workflow :=
  { ID := "inline", Name := "inline",
    Steps := [{ ID := "A", Content := "echo hi",
                Conditions := [{ Type_ := "contains", Value := "hi",
                                 Action := { Type_ := "execute_step", Target := "C" } }] },
              { ID := "B", Content := "echo b" },
              { ID := "C", Content := "echo c" }] }

/-- No condition action and no hook of the workflow has the type `jump_to`. -/
def jumpFree (wf : Workflow) : Prop :=
  ∀ st ∈ wf.Steps, (∀ c ∈ st.Conditions, c.Action.Type_ ≠ "jump_to") ∧
    st.OnSuccess.map (·.Type_) ≠ some "jump_to" ∧
    st.OnFailure.map (·.Type_) ≠ some "jump_to"

instance (wf : Workflow) : Decidable (jumpFree wf) := by
  unfold jumpFree
  infer_instance

/-! ## variable_service.go: sequences of calls and the lock -/

/-- The cache and the file hold the same set of variables (a missing file holds none). -/
def cacheMatchesDisk (vs : VariableService) : Bool :=
  vs.List.all (fun v => decide (v ∈ vs.disk.getD [])) &&
    (vs.disk.getD []).all (fun v => decide (v ∈ vs.List))

/-- Go type `sync.RWMutex` as explicit state: the number of read locks held and
whether the write lock is held. -/
structure RWMutex where
  readers : Nat := 0
  writer : Bool := false
  deriving DecidableEq, Repr

/-- Method `RWMutex.Lock`: `none` when the call blocks, which it does while the write
lock or a read lock is held. -/
def RWMutex.Lock (m : RWMutex) : Option RWMutex :=
  if m.writer || m.readers != 0 then none else some { m with writer := true }

/-- Method `RWMutex.Unlock`. -/
def RWMutex.Unlock (m : RWMutex) : RWMutex :=
  { m with writer := false }

/-- Method `RWMutex.RLock`: `none` when the call blocks, which it does while the write
lock is held. -/
def RWMutex.RLock (m : RWMutex) : Option RWMutex :=
  if m.writer then none else some { m with readers := m.readers + 1 }

/-- Method `RWMutex.RUnlock`. -/
def RWMutex.RUnlock (m : RWMutex) : RWMutex :=
  { m with readers := m.readers - 1 }

/-- The store together with its mutex `vs.mu`. -/
structure LockedStore where
  store : VariableService := {}
  mu : RWMutex := {}
  deriving DecidableEq, Repr

/-- How a call of a method of the store ends when no other goroutine touches the
mutex: it returns a result, or it blocks in a lock acquisition, for ever. -/
inductive CallOutcome where
  | returned (st : LockedStore) (err : Option StoreError)
  | blocked (st : LockedStore)
  deriving DecidableEq, Repr

/-- Method `VariableService.saveCache` with its lock operations: `RLock`, the write of the
collection, and the deferred `RUnlock`. -/
def LockedStore.saveCache (st : LockedStore) (writeErr : Option String) : CallOutcome :=
  match st.mu.RLock with
  | none => CallOutcome.blocked st
  | some mu =>
    let r := st.store.saveCache writeErr
    CallOutcome.returned { store := r.1, mu := mu.RUnlock } r.2

/-- Method `VariableService.Set` with its lock operations: `Lock`, the stamps, the
assignment to the cache, the call of `saveCache`, and the deferred `Unlock`, which runs
when `saveCache` returns. -/
def LockedStore.Set (st : LockedStore) (v : GlobalVariable) (now : Nat)
    (writeErr : Option String) : CallOutcome :=
  match st.mu.Lock with
  | none => CallOutcome.blocked st
  | some mu =>
    let v := if v.CreatedAt = 0 then { v with CreatedAt := now } else v
    let v := { v with UpdatedAt := now }
    let st : LockedStore :=
      { store := { st.store with cache := cacheAssign st.store.cache v.Name v }, mu := mu }
    match st.saveCache writeErr with
    | CallOutcome.blocked st => CallOutcome.blocked st
    | CallOutcome.returned st err => CallOutcome.returned { st with mu := st.mu.Unlock } err

/-- Method `VariableService.Delete` with its lock operations. -/
def LockedStore.Delete (st : LockedStore) (name : String) (writeErr : Option String) :
    CallOutcome :=
  match st.mu.Lock with
  | none => CallOutcome.blocked st
  | some mu =>
    match cacheLookup st.store.cache name with
    | none =>
      CallOutcome.returned { st with mu := mu.Unlock } (some (StoreError.notFound name))
    | some _ =>
      let st : LockedStore :=
        { store := { st.store with cache := cacheDelete st.store.cache name }, mu := mu }
      match st.saveCache writeErr with
      | CallOutcome.blocked st => CallOutcome.blocked st
      | CallOutcome.returned st err => CallOutcome.returned { st with mu := st.mu.Unlock } err

/-- Method `VariableService.Get` with its lock operations (`none` when the call blocks). -/
def LockedStore.Get (st : LockedStore) (name : String) :
    Option (LockedStore × Except StoreError GlobalVariable) :=
  match st.mu.RLock with
  | none => none
  | some mu => some ({ st with mu := mu.RUnlock }, st.store.Get name)

/-- Method `VariableService.GetAll` with its lock operations (`none` when the call
blocks). -/
def LockedStore.GetAll (st : LockedStore) : Option (LockedStore × GoMap) :=
  match st.mu.RLock with
  | none => none
  | some mu => some ({ st with mu := mu.RUnlock }, st.store.GetAll)

/-- The store a call leaves, whether it returned or blocked. -/
def CallOutcome.state : CallOutcome → LockedStore
  | CallOutcome.returned st _ => st
  | CallOutcome.blocked st => st

/-- The errors of the workflow store: `fmt.Errorf("workflow not found")`, or an error of
the file system or of the JSON encoder. -/
inductive WorkflowStoreError where
  | notFound
  | io (msg : String)
  deriving DecidableEq, Repr

/-- Go type `WorkflowStore`: the data directory, as the list of its files `<id>.json`
with the workflow each one encodes. -/
structure WorkflowStore where
  files : List (String × Workflow) := []
  deriving DecidableEq, Repr

/-- The file of an id, if the directory has one. -/
def readFile : List (String × Workflow) → String → Option Workflow
  | [], _ => none
  | (k, w) :: rest, id => if k = id then some w else readFile rest id

/-- Call `os.WriteFile`: the file of the id is created or replaced. -/
def writeFile : List (String × Workflow) → String → Workflow → List (String × Workflow)
  | [], id, w => [(id, w)]
  | (k, w') :: rest, id, w =>
    if k = id then (k, w) :: rest else (k, w') :: writeFile rest id w

/-- Method `WorkflowStore.Save`: a workflow without id gets a fresh one (`uuid`), the
record is encoded as it is and written to the file of its id; `writeErr` is the error of
the encoder or of the write, if any. The clock is not read. -/
def WorkflowStore.Save (s : WorkflowStore) (wf : Workflow) (uuid : String)
    (writeErr : Option String) : WorkflowStore × Option WorkflowStoreError :=
  let wf := if wf.ID = "" then { wf with ID := uuid } else wf
  match writeErr with
  | some msg => (s, some (WorkflowStoreError.io msg))
  | none => ({ files := writeFile s.files wf.ID wf }, none)

/-- Method `WorkflowStore.Get` on readable, well-formed files. -/
def WorkflowStore.Get (s : WorkflowStore) (id : String) :
    Except WorkflowStoreError Workflow :=
  match readFile s.files id with
  | none => Except.error WorkflowStoreError.notFound
  | some wf => Except.ok wf

/-- A workflow as `POST /workflows` decodes it from a body without time stamps. -/
def wfNightly : Workflow :=
  { ID := "nightly", Name := "nightly", Steps := [{ ID := "A", Content := "echo hi" }] }

/-! ## Reference notions for the command of a step -/

/-- The replacements the remapping loop of `executeCommandStep` performs: one pair
`(K, scope[V])` for every mapping entry `K -> V` whose `V` is a key of the scope. -/
def remapEntries (stepVars vars : GoMap) : GoMap :=
  stepVars.filterMap (fun kv => (lookup vars kv.2).map (fun val => (kv.1, val)))

/-- The scope followed by the replacements of the step-local mappings: an entry of the
scope comes before a mapping of the same key. -/
def effectiveScope (step : Step) (vars : GoMap) : GoMap :=
  vars ++ remapEntries step.Variables vars

/-- A step whose command names `TARGET` and `ZONE`, with the step-local mappings
`TARGET -> REGION` and `ZONE -> AREA`. -/
def remapStep : Step :=
  { ID := "A", Content := "deploy \x7bTARGET\x7d \x7bZONE\x7d",
    Variables := [("TARGET", "REGION"), ("ZONE", "AREA")] }

/-! ## Properties of the variable scope merging -/

theorem lookup_assign (m : GoMap) (k v n : String) :
    lookup (assign m k v) n = if k = n then some v else lookup m n := by
  induction m with
  | nil => simp [assign, lookup]
  | cons hd tl ih =>
    obtain ⟨k', v'⟩ := hd
    by_cases hk : k' = k
    · subst hk
      by_cases hn : k' = n <;> simp [assign, lookup, hn]
    · by_cases hn : k' = n
      · subst hn
        simp [assign, lookup, hk, Ne.symm hk]
      · simp [assign, lookup, hk, hn, ih]

theorem lookup_eq_none_of_not_mem (m : GoMap) (n : String)
    (h : n ∉ m.map Prod.fst) : lookup m n = none := by
  induction m with
  | nil => rfl
  | cons hd tl ih =>
    obtain ⟨k, v⟩ := hd
    simp only [List.map_cons, List.mem_cons, not_or] at h
    simp [lookup, Ne.symm h.1, ih h.2]

theorem lookup_assignAll (dst src : GoMap) (n : String) (h : WellFormed src) :
    lookup (assignAll dst src) n =
      match lookup src n with
      | some v => some v
      | none => lookup dst n := by
  induction src generalizing dst with
  | nil => simp [assignAll, lookup]
  | cons hd tl ih =>
    obtain ⟨k, v⟩ := hd
    have hnd : k ∉ tl.map Prod.fst ∧ WellFormed tl := by
      simpa [WellFormed] using h
    have ih' := ih (assign dst k v) hnd.2
    simp only [assignAll, List.foldl_cons] at ih' ⊢
    rw [ih', lookup_assign]
    by_cases hk : k = n
    · subst hk
      simp [lookup, lookup_eq_none_of_not_mem tl k hnd.1]
    · simp [lookup, hk]

theorem firstDefault_cons (v : Variable) (rest : List Variable) (n : String) :
    firstDefault (v :: rest) n =
      if v.Name = n ∧ v.DefaultValue ≠ "" then some v.DefaultValue
      else firstDefault rest n := by
  unfold firstDefault
  by_cases h : v.Name = n ∧ v.DefaultValue ≠ ""
  · simp [List.find?_cons, h]
  · rw [List.find?_cons]
    simp [h]

theorem lookup_mergeDefaults (vars : GoMap) (declared : List Variable) (n : String) :
    lookup (mergeDefaults vars declared) n =
      match lookup vars n with
      | some v => some v
      | none => firstDefault declared n := by
  induction declared generalizing vars with
  | nil => cases h : lookup vars n <;> simp [mergeDefaults, firstDefault, h]
  | cons v rest ih =>
    simp only [mergeDefaults, List.foldl_cons] at ih ⊢
    rw [ih, firstDefault_cons]
    by_cases hc : (lookup vars v.Name).isNone ∧ v.DefaultValue ≠ ""
    · rw [if_pos hc, lookup_assign]
      by_cases hn : v.Name = n
      · subst hn
        have : lookup vars v.Name = none := by simpa using hc.1
        simp [this, hc.2]
      · simp [hn]
    · rw [if_neg hc]
      cases hl : lookup vars n with
      | some x => rfl
      | none =>
        have : ¬ (v.Name = n ∧ v.DefaultValue ≠ "") := by
          rintro ⟨h1, h2⟩
          subst h1
          exact hc ⟨by simp [hl], h2⟩
        simp [this]

theorem lookup_mergeVariables (globalVars : GoMap) (declared : List Variable) (inputs : GoMap)
    (hg : WellFormed globalVars) (hi : WellFormed inputs) (n : String) :
    lookup (mergeVariables globalVars declared inputs) n =
      mergedValueSpec globalVars declared inputs n := by
  unfold mergeVariables mergedValueSpec
  rw [lookup_assignAll _ _ _ hi, lookup_mergeDefaults, lookup_assignAll _ _ _ hg]
  cases lookup inputs n with
  | some x => rfl
  | none =>
    cases lookup globalVars n with
    | some y => rfl
    | none => simp [lookup]

theorem firstDefault_isSome (declared : List Variable) (n : String) :
    (firstDefault declared n).isSome ↔ hasDefault declared n := by
  induction declared with
  | nil => simp [firstDefault, hasDefault]
  | cons v rest ih =>
    rw [firstDefault_cons]
    by_cases h : v.Name = n ∧ v.DefaultValue ≠ ""
    · rw [if_pos h]
      simp only [Option.isSome_some, true_iff]
      exact ⟨v, List.mem_cons_self _ _, h⟩
    · rw [if_neg h, ih]
      constructor
      · rintro ⟨w, hw, hw'⟩
        exact ⟨w, List.mem_cons_of_mem _ hw, hw'⟩
      · rintro ⟨w, hw, hw'⟩
        rcases List.mem_cons.1 hw with rfl | hw
        · exact absurd hw' h
        · exact ⟨w, hw, hw'⟩

/-- Workflow declaring the default `REGION=us-west-2`, used with the global
`REGION=us-east-1` and no input. -/
theorem regionExample :
    lookup (mergeVariables [("REGION", "us-east-1")]
      [{ Name := "REGION", DefaultValue := "us-west-2" }] []) "REGION" = some "us-east-1" := by
  decide

/-- C1 (as stated, refuted): with the global `REGION=us-east-1`, the declared default
`REGION=us-west-2` and no input, the name `REGION` is present in two scopes and is not an
input, yet the merged value is the global one and not the declared default. -/
theorem C1_default_does_not_override_global :
    WellFormed [("REGION", "us-east-1")] ∧ WellFormed [] ∧
    inSeveralScopes [("REGION", "us-east-1")]
      [{ Name := "REGION", DefaultValue := "us-west-2" }] [] "REGION" ∧
    lookup [] "REGION" = none ∧
    firstDefault [{ Name := "REGION", DefaultValue := "us-west-2" }] "REGION"
      = some "us-west-2" ∧
    lookup (mergeVariables [("REGION", "us-east-1")]
      [{ Name := "REGION", DefaultValue := "us-west-2" }] []) "REGION" ≠ some "us-west-2" := by
  refine ⟨by decide, by decide, Or.inl ⟨by decide, ?_⟩, by decide, by decide, by decide⟩
  exact ⟨{ Name := "REGION", DefaultValue := "us-west-2" }, List.mem_cons_self _ _,
    by decide, by decide⟩

/-- C1 (amended): for every name present in more than one of the three scopes, the
merged value is the caller input when the name is an input, and otherwise the global
value: a global variable is kept in front of a workflow default of the same name. -/
theorem C1_precedence_inputs_then_globals (globalVars : GoMap) (declared : List Variable)
    (inputs : GoMap) (n : String)
    (hg : WellFormed globalVars) (hi : WellFormed inputs)
    (hn : inSeveralScopes globalVars declared inputs n) :
    ((lookup inputs n).isSome →
      lookup (mergeVariables globalVars declared inputs) n = lookup inputs n) ∧
    ((lookup inputs n).isSome = false →
      (lookup globalVars n).isSome ∧
      lookup (mergeVariables globalVars declared inputs) n = lookup globalVars n) := by
  rw [lookup_mergeVariables _ _ _ hg hi]
  unfold mergedValueSpec
  constructor
  · intro h
    cases hl : lookup inputs n with
    | some v => rfl
    | none => simp [hl] at h
  · intro h
    have hnone : lookup inputs n = none := by
      cases hl : lookup inputs n with
      | some v => simp [hl] at h
      | none => rfl
    have hgl : (lookup globalVars n).isSome := by
      rcases hn with h1 | h1 | h1
      · exact h1.1
      · exact h1.1
      · rw [hnone] at h1
        exact absurd h1.2 (by simp)
    refine ⟨hgl, ?_⟩
    rw [hnone]
    cases hl : lookup globalVars n with
    | some v => rfl
    | none => simp [hl] at hgl

/-- Witness of C1 (amended): `REGION` is a global and a declared default, `ZONE` is a
global and an input. -/
theorem C1_precedence_witness :
    lookup (mergeVariables [("REGION", "us-east-1"), ("ZONE", "a")]
      [{ Name := "REGION", DefaultValue := "us-west-2" }] [("ZONE", "b")]) "REGION"
      = some "us-east-1" := by
  have h := C1_precedence_inputs_then_globals [("REGION", "us-east-1"), ("ZONE", "a")]
    [{ Name := "REGION", DefaultValue := "us-west-2" }] [("ZONE", "b")] "REGION"
    (by decide) (by decide)
    (Or.inl ⟨by decide, ⟨{ Name := "REGION", DefaultValue := "us-west-2" },
      List.mem_cons_self _ _, by decide, by decide⟩⟩)
  exact (h.2 (by decide)).2.trans (by decide)

/-- C2: the merged scope computed by `Execute` is the reference definition: a name is
in `execution.Variables` iff it is an input, a global, or has a non-empty declared
default, and its value is the input, else the global, else the first non-empty declared
default of that name; with global `REGION=us-east-1`, declared default
`REGION=us-west-2` and no input the merged value is `us-east-1`. -/
theorem C2_merge_equals_reference (globalVars : GoMap) (declared : List Variable)
    (inputs : GoMap) (hg : WellFormed globalVars) (hi : WellFormed inputs) :
    (∀ n, lookup (mergeVariables globalVars declared inputs) n
        = mergedValueSpec globalVars declared inputs n) ∧
    (∀ n, (lookup (mergeVariables globalVars declared inputs) n).isSome ↔
        ((lookup inputs n).isSome ∨ (lookup globalVars n).isSome ∨ hasDefault declared n)) ∧
    lookup (mergeVariables [("REGION", "us-east-1")]
      [{ Name := "REGION", DefaultValue := "us-west-2" }] []) "REGION" = some "us-east-1" := by
  refine ⟨fun n => lookup_mergeVariables _ _ _ hg hi n, fun n => ?_, regionExample⟩
  rw [lookup_mergeVariables _ _ _ hg hi, ← firstDefault_isSome]
  unfold mergedValueSpec
  cases lookup inputs n with
  | some v => simp
  | none =>
    cases lookup globalVars n with
    | some w => simp
    | none => simp

/-- Witness of C2: two globals, three declared variables (one shadowed by a global, one
with an empty default) and one input. -/
theorem C2_merge_witness :
    lookup (mergeVariables [("REGION", "us-east-1"), ("ZONE", "a")]
      [{ Name := "REGION", DefaultValue := "us-west-2" }, { Name := "TIER" },
       { Name := "TIER", DefaultValue := "gold" }] [("ZONE", "b")]) "TIER" = some "gold" :=
  ((C2_merge_equals_reference [("REGION", "us-east-1"), ("ZONE", "a")]
      [{ Name := "REGION", DefaultValue := "us-west-2" }, { Name := "TIER" },
       { Name := "TIER", DefaultValue := "gold" }] [("ZONE", "b")]
      (by decide) (by decide)).1 "TIER").trans (by decide)

/-! ## Frame lemmas of the interpreter -/

theorem Frame.refl (s : LoopState) : Frame s s :=
  ⟨rfl, rfl, rfl, rfl, rfl, rfl, rfl, ⟨[], by simp⟩, ⟨[], by simp⟩⟩

theorem Frame.trans {a b c : LoopState} (h₁ : Frame a b) (h₂ : Frame b c) : Frame a c := by
  obtain ⟨m₁, hm₁⟩ := h₁.sink
  obtain ⟨m₂, hm₂⟩ := h₂.sink
  obtain ⟨l₁, hl₁⟩ := h₁.logs
  obtain ⟨l₂, hl₂⟩ := h₂.logs
  exact ⟨h₂.returned.trans h₁.returned, h₂.panicked.trans h₁.panicked,
    h₂.polls.trans h₁.polls, h₂.executed.trans h₁.executed, h₂.status.trans h₁.status,
    h₂.endTime.trans h₁.endTime, h₂.vars.trans h₁.vars,
    ⟨m₁ ++ m₂, by rw [hm₂, hm₁]; simp⟩, ⟨l₁ ++ l₂, by rw [hl₂, hl₁]; simp⟩⟩

theorem frame_logAt (level : String) (env : Env) (s : LoopState) (stepID message : String) :
    Frame s (logAt level env s stepID message) :=
  ⟨rfl, rfl, rfl, rfl, rfl, rfl, rfl, ⟨[message], rfl⟩, ⟨[_], rfl⟩⟩

theorem frame_logInfo (env : Env) (s : LoopState) (stepID message : String) :
    Frame s (logInfo env s stepID message) := frame_logAt _ env s stepID message

theorem frame_logError (env : Env) (s : LoopState) (stepID message : String) :
    Frame s (logError env s stepID message) := frame_logAt _ env s stepID message

theorem frame_streamLines (env : Env) (stepID : String) (lines : List (Bool × String))
    (s : LoopState) : Frame s (streamLines env stepID lines s) := by
  induction lines generalizing s with
  | nil => exact Frame.refl s
  | cons l rest ih =>
    simp only [streamLines, List.foldl_cons] at ih ⊢
    refine Frame.trans ?_ (ih _)
    split
    · exact frame_logError env s stepID l.2
    · exact frame_logInfo env s stepID l.2

theorem cursor_streamLines (env : Env) (stepID : String) (lines : List (Bool × String))
    (s : LoopState) :
    (streamLines env stepID lines s).currentStepIndex = s.currentStepIndex ∧
    (streamLines env stepID lines s).commands = s.commands := by
  induction lines generalizing s with
  | nil => exact ⟨rfl, rfl⟩
  | cons l rest ih =>
    simp only [streamLines, List.foldl_cons] at ih ⊢
    rw [(ih _).1, (ih _).2]
    split <;> exact ⟨rfl, rfl⟩

theorem executeCommandStep_result (env : Env) (s : LoopState) (step : Step) (vars : GoMap) :
    (executeCommandStep env s step vars).2 =
      procResult (env.shell s.commands.length (commandText step vars)) := by
  unfold executeCommandStep
  simp only [logInfo, logAt]
  split <;> rfl

theorem executeCommandStep_commands (env : Env) (s : LoopState) (step : Step) (vars : GoMap) :
    (executeCommandStep env s step vars).1.commands = s.commands ++ [commandText step vars] ∧
    (executeCommandStep env s step vars).1.currentStepIndex = s.currentStepIndex := by
  unfold executeCommandStep
  simp only [logInfo, logAt]
  split
  · exact ⟨rfl, rfl⟩
  · rw [(cursor_streamLines _ _ _ _).1, (cursor_streamLines _ _ _ _).2]
    exact ⟨rfl, rfl⟩

theorem frame_executeCommandStep (env : Env) (s : LoopState) (step : Step) (vars : GoMap) :
    Frame s (executeCommandStep env s step vars).1 := by
  have h₁ : Frame s { logInfo env s step.ID ("$ " ++ commandText step vars) with
      commands := s.commands ++ [commandText step vars] } :=
    ⟨rfl, rfl, rfl, rfl, rfl, rfl, rfl, ⟨[_], rfl⟩, ⟨[_], rfl⟩⟩
  unfold executeCommandStep
  simp only []
  split
  · exact h₁
  · exact Frame.trans h₁ (frame_streamLines _ _ _ _)

theorem frame_executeWorkflowStep (env : Env) (s : LoopState) (step : Step) :
    Frame s (executeWorkflowStep env s step).1 ∧
    (executeWorkflowStep env s step).1.currentStepIndex = s.currentStepIndex ∧
    (executeWorkflowStep env s step).1.commands = s.commands := by
  unfold executeWorkflowStep
  simp only []
  split
  · exact ⟨frame_logInfo _ _ _ _, rfl, rfl⟩
  · exact ⟨⟨rfl, rfl, rfl, rfl, rfl, rfl, rfl, ⟨[_], rfl⟩, ⟨[_], rfl⟩⟩, rfl, rfl⟩

theorem frame_runStep (env : Env) (s : LoopState) (step : Step) :
    Frame s (runStep env s step).1 ∧
    (runStep env s step).1.currentStepIndex = s.currentStepIndex := by
  unfold runStep
  split
  · exact ⟨frame_executeCommandStep _ _ _ _, (executeCommandStep_commands _ _ _ _).2⟩
  · split
    · exact ⟨(frame_executeWorkflowStep _ _ _).1, (frame_executeWorkflowStep _ _ _).2.1⟩
    · exact ⟨Frame.refl s, rfl⟩

theorem frame_jumpScan (env : Env) (stepID target : String) (i : Nat) (steps : List Step)
    (s : LoopState) : Frame s (jumpScan env stepID target i steps s) := by
  induction steps generalizing i s with
  | nil => exact Frame.refl s
  | cons st rest ih =>
    unfold jumpScan
    split
    · refine Frame.trans ?_ (ih _ _)
      exact ⟨rfl, rfl, rfl, rfl, rfl, rfl, rfl, ⟨[_], rfl⟩, ⟨[_], rfl⟩⟩
    · exact ih _ _

theorem jumpScan_nonneg (env : Env) (stepID target : String) (i : Nat) (steps : List Step)
    (s : LoopState) (h : 0 ≤ s.currentStepIndex) :
    0 ≤ (jumpScan env stepID target i steps s).currentStepIndex := by
  induction steps generalizing i s with
  | nil => exact h
  | cons st rest ih =>
    unfold jumpScan
    split
    · exact ih _ _ (by simp [logInfo, logAt])
    · exact ih _ _ h

theorem jumpScan_no_match (env : Env) (stepID target : String) (i : Nat) (steps : List Step)
    (s : LoopState) (h : target ∉ steps.map (·.ID)) :
    jumpScan env stepID target i steps s = s := by
  induction steps generalizing i s with
  | nil => rfl
  | cons st rest ih =>
    simp only [List.map_cons, List.mem_cons, not_or] at h
    unfold jumpScan
    rw [if_neg (Ne.symm h.1)]
    exact ih _ _ h.2

theorem jumpScan_unique (env : Env) (stepID : String) (i : Nat) (steps : List Step)
    (s : LoopState) (t : Nat) (tgt : Step)
    (hnd : (steps.map (·.ID)).Nodup) (ht : steps[t]? = some tgt) :
    (jumpScan env stepID tgt.ID i steps s).currentStepIndex = ((i + t : Nat) : Int) := by
  induction steps generalizing i s t with
  | nil => simp at ht
  | cons st rest ih =>
    simp only [List.map_cons, List.nodup_cons] at hnd
    cases t with
    | zero =>
      simp only [List.getElem?_cons_zero, Option.some.injEq] at ht
      subst ht
      unfold jumpScan
      rw [if_pos rfl, jumpScan_no_match _ _ _ _ _ _ hnd.1]
      simp [logInfo, logAt]
    | succ t' =>
      simp only [List.getElem?_cons_succ] at ht
      have hmem : tgt.ID ∈ rest.map (·.ID) :=
        List.mem_map.2 ⟨tgt, List.getElem?_mem ht, rfl⟩
      have hne : st.ID ≠ tgt.ID := fun h => hnd.1 (h ▸ hmem)
      unfold jumpScan
      rw [if_neg hne, ih _ _ _ hnd.2 ht]
      congr 1
      omega

theorem frame_executeInline (env : Env) (stepID target : String) (steps : List Step)
    (s : LoopState) :
    Frame s (executeInline env stepID target steps s) ∧
    (executeInline env stepID target steps s).currentStepIndex = s.currentStepIndex := by
  unfold executeInline
  split
  · exact ⟨Frame.trans (frame_logInfo _ _ _ _) (frame_executeCommandStep _ _ _ _),
      by rw [(executeCommandStep_commands _ _ _ _).2]; rfl⟩
  · exact ⟨Frame.refl s, rfl⟩

/-! ## One pass through the loop body -/

theorem conditionPhase_none (env : Env) (wf : Workflow) (s : LoopState) (step : Step)
    (res : StepResult)
    (h : evaluateConditions env step.Conditions res.output res.exitCode = none) :
    conditionPhase env wf s step res = s := by
  unfold conditionPhase
  rw [h]
  simp

theorem evaluateConditions_length (env : Env) (conds : List Condition) (output : String)
    (exitCode : Int) (a : StepAction)
    (h : evaluateConditions env conds output exitCode = some a) : conds.length > 0 := by
  cases conds with
  | nil => simp [evaluateConditions] at h
  | cons c rest => simp

theorem conditionPhase_some (env : Env) (wf : Workflow) (s : LoopState) (step : Step)
    (res : StepResult) (a : StepAction)
    (h : evaluateConditions env step.Conditions res.output res.exitCode = some a) :
    conditionPhase env wf s step res =
      if a.Type_ = "stop" then
        goReturn (logInfo env (setTerminal env
          (logInfo env s step.ID ("Condition matched: " ++ a.Type_)) "completed") ""
          "Workflow stopped by condition")
      else if a.Type_ = "jump_to" then
        jumpScan env step.ID a.Target 0 wf.Steps
          (logInfo env s step.ID ("Condition matched: " ++ a.Type_))
      else if a.Type_ = "execute_step" then
        executeInline env step.ID a.Target wf.Steps
          (logInfo env s step.ID ("Condition matched: " ++ a.Type_))
      else logInfo env s step.ID ("Condition matched: " ++ a.Type_) := by
  unfold conditionPhase
  rw [if_pos (evaluateConditions_length _ _ _ _ _ h), h]

theorem conditionPhase_cases (env : Env) (wf : Workflow) (s : LoopState) (step : Step)
    (res : StepResult) :
    ((conditionPhase env wf s step res).returned = true ∧
      (∃ a, evaluateConditions env step.Conditions res.output res.exitCode = some a ∧
        a.Type_ = "stop") ∧
      (conditionPhase env wf s step res).execution.Status = "completed" ∧
      (conditionPhase env wf s step res).execution.EndTime = env.now (s.clock + 1) ∧
      (conditionPhase env wf s step res).panicked = s.panicked ∧
      (conditionPhase env wf s step res).executed = s.executed ∧
      (conditionPhase env wf s step res).execution.Variables = s.execution.Variables ∧
      ∃ msgs : List String, (conditionPhase env wf s step res).sink
        = s.sink ++ msgs.map SinkEvent.send ++ [SinkEvent.close]) ∨
    ((∀ a, evaluateConditions env step.Conditions res.output res.exitCode = some a →
        a.Type_ ≠ "stop") ∧
      Frame s (conditionPhase env wf s step res) ∧
      (0 ≤ s.currentStepIndex → 0 ≤ (conditionPhase env wf s step res).currentStepIndex)) := by
  cases h : evaluateConditions env step.Conditions res.output res.exitCode with
  | none =>
    rw [conditionPhase_none _ _ _ _ _ h]
    exact Or.inr ⟨by simp, Frame.refl s, id⟩
  | some a =>
    rw [conditionPhase_some _ _ _ _ _ _ h]
    by_cases hs : a.Type_ = "stop"
    · rw [if_pos hs]
      refine Or.inl ⟨rfl, ⟨a, rfl, hs⟩, rfl, rfl, rfl, rfl, rfl,
        ⟨["Condition matched: " ++ a.Type_, "Workflow stopped by condition"], ?_⟩⟩
      simp [goReturn, logInfo, logAt, setTerminal]
    · rw [if_neg hs]
      refine Or.inr ⟨by intro b hb; cases hb; exact hs, ?_⟩
      split
      · exact ⟨Frame.trans (frame_logInfo _ _ _ _) (frame_jumpScan _ _ _ _ _ _),
          fun h0 => jumpScan_nonneg _ _ _ _ _ _ h0⟩
      · split
        · exact ⟨Frame.trans (frame_logInfo _ _ _ _) (frame_executeInline _ _ _ _ _).1,
            fun h0 => by rw [(frame_executeInline _ _ _ _ _).2]; exact h0⟩
        · exact ⟨frame_logInfo _ _ _ _, fun h0 => h0⟩

theorem handleStepAction_ge (a : StepAction) (steps : List Step) (c : Int) (h : 0 ≤ c) :
    0 ≤ handleStepAction a steps c + 1 := by
  unfold handleStepAction
  split
  · omega
  · split
    · omega
    · split
      · split <;> omega
      · omega

theorem iteration_returned (env : Env) (wf : Workflow) (s : LoopState)
    (h : s.returned = true) : iteration env wf s = s := by
  unfold iteration
  rw [if_pos h]

theorem iteration_exit (env : Env) (wf : Workflow) (s : LoopState)
    (hr : s.returned = false) (hc : (wf.Steps.length : Int) ≤ s.currentStepIndex) :
    iteration env wf s =
      goReturn (logInfo env (setTerminal env s "completed") ""
        "Workflow completed successfully") := by
  unfold iteration
  rw [if_neg (by simp [hr]), if_neg (by omega)]

theorem iteration_step (env : Env) (wf : Workflow) (s : LoopState) (i : Nat) (step : Step)
    (hr : s.returned = false) (hc : s.currentStepIndex = (i : Int))
    (hs : wf.Steps[i]? = some step) :
    iteration env wf s = loopBody env wf s i step := by
  have hlt : i < wf.Steps.length := by
    rcases List.getElem?_eq_some.1 hs with ⟨h, _⟩
    exact h
  unfold iteration
  rw [if_neg (by simp [hr]), if_pos (by omega), if_neg (by omega), hc]
  simp [hs]

theorem iteration_cancelled (env : Env) (wf : Workflow) (s : LoopState) (i : Nat)
    (step : Step) (hr : s.returned = false) (hc : s.currentStepIndex = (i : Int))
    (hs : wf.Steps[i]? = some step) (hx : env.cancelled s.polls = true) :
    iteration env wf s =
      goReturn (setTerminal env
        (logInfo env { s with polls := s.polls + 1 } step.ID "Execution cancelled")
        "cancelled") := by
  rw [iteration_step env wf s i step hr hc hs]
  unfold loopBody
  rw [if_pos hx]

theorem iteration_live (env : Env) (wf : Workflow) (s : LoopState) (i : Nat) (step : Step)
    (hr : s.returned = false) (hc : s.currentStepIndex = (i : Int))
    (hs : wf.Steps[i]? = some step) (hx : env.cancelled s.polls = false) :
    iteration env wf s =
      if (afterConditions env wf s i step).returned then afterConditions env wf s i step
      else resultPhase env wf (afterConditions env wf s i step) step
        (stepResult env wf s i step) := by
  rw [iteration_step env wf s i step hr hc hs]
  unfold loopBody
  rw [if_neg (by simp [hx])]
  rfl

/-- What the state looks like when the step's own code has run: relative to the state
at the loop head, one more poll, one more executed index, more messages. -/
theorem entered_facts (env : Env) (wf : Workflow) (s : LoopState) (i : Nat) (step : Step) :
    let r := (runStep env (enterStep env wf s i step) step).1
    r.returned = s.returned ∧ r.panicked = s.panicked ∧ r.polls = s.polls + 1 ∧
    r.executed = s.executed ++ [i] ∧ r.execution.Status = s.execution.Status ∧
    r.execution.EndTime = s.execution.EndTime ∧
    r.execution.Variables = s.execution.Variables ∧
    r.currentStepIndex = s.currentStepIndex ∧
    (∃ msgs : List String, r.sink = s.sink ++ msgs.map SinkEvent.send) ∧
    (∃ entries : List ExecutionLog, r.execution.Logs = s.execution.Logs ++ entries) := by
  intro r
  have hf := (frame_runStep env (enterStep env wf s i step) step).1
  have hcur := (frame_runStep env (enterStep env wf s i step) step).2
  obtain ⟨m, hm⟩ := hf.sink
  obtain ⟨l, hl⟩ := hf.logs
  refine ⟨hf.returned, hf.panicked, hf.polls, hf.executed, hf.status, hf.endTime, hf.vars,
    hcur,
    ⟨("Step " ++ toString (i + 1) ++ "/" ++ toString wf.Steps.length ++ ": " ++ step.Name)
      :: m, ?_⟩,
    ⟨{ Timestamp := env.now s.clock, StepID := step.ID, Level := "info",
       Message := "Step " ++ toString (i + 1) ++ "/" ++ toString wf.Steps.length ++ ": "
         ++ step.Name } :: l, ?_⟩⟩
  · show (runStep env (enterStep env wf s i step) step).1.sink = _
    rw [hm]
    simp [enterStep, logInfo, logAt]
  · show (runStep env (enterStep env wf s i step) step).1.execution.Logs = _
    rw [hl]
    simp [enterStep, logInfo, logAt]

theorem resultPhase_facts (env : Env) (wf : Workflow) (a : LoopState) (step : Step)
    (res : StepResult) :
    (resultPhase env wf a step res).executed = a.executed ∧
    (resultPhase env wf a step res).polls = a.polls ∧
    (resultPhase env wf a step res).panicked = a.panicked ∧
    (resultPhase env wf a step res).execution.Variables = a.execution.Variables ∧
    (resultPhase env wf a step res).commands = a.commands := by
  unfold resultPhase
  split
  · split <;> exact ⟨rfl, rfl, rfl, rfl, rfl⟩
  · split <;> exact ⟨rfl, rfl, rfl, rfl, rfl⟩

theorem afterConditions_facts (env : Env) (wf : Workflow) (s : LoopState) (i : Nat)
    (step : Step) :
    (afterConditions env wf s i step).executed = s.executed ++ [i] ∧
    (afterConditions env wf s i step).panicked = s.panicked ∧
    (afterConditions env wf s i step).execution.Variables = s.execution.Variables := by
  have he := entered_facts env wf s i step
  simp only [] at he
  rcases conditionPhase_cases env wf (runStep env (enterStep env wf s i step) step).1 step
    (stepResult env wf s i step) with h | h
  · exact ⟨h.2.2.2.2.2.1.trans he.2.2.2.1, h.2.2.2.2.1.trans he.2.1,
      h.2.2.2.2.2.2.1.trans he.2.2.2.2.2.2.1⟩
  · exact ⟨h.2.1.executed.trans he.2.2.2.1, h.2.1.panicked.trans he.2.1,
      h.2.1.vars.trans he.2.2.2.2.2.2.1⟩

theorem iteration_live_facts (env : Env) (wf : Workflow) (s : LoopState) (i : Nat)
    (step : Step) (hr : s.returned = false) (hc : s.currentStepIndex = (i : Int))
    (hs : wf.Steps[i]? = some step) (hx : env.cancelled s.polls = false) :
    (iteration env wf s).executed = s.executed ++ [i] ∧
    (iteration env wf s).panicked = s.panicked ∧
    (iteration env wf s).execution.Variables = s.execution.Variables := by
  rw [iteration_live env wf s i step hr hc hs hx]
  have ha := afterConditions_facts env wf s i step
  split
  · exact ha
  · have hp := resultPhase_facts env wf (afterConditions env wf s i step) step
      (stepResult env wf s i step)
    exact ⟨hp.1.trans ha.1, hp.2.2.1.trans ha.2.1, hp.2.2.2.1.trans ha.2.2⟩

theorem iterate_returned (env : Env) (wf : Workflow) (n : Nat) (s : LoopState)
    (h : s.returned = true) : iterate env wf n s = s := by
  induction n with
  | zero => rfl
  | succ n ih => rw [iterate, iteration_returned env wf s h, ih]

theorem iterate_succ (env : Env) (wf : Workflow) (n : Nat) (s : LoopState) :
    iterate env wf (n + 1) s = iteration env wf (iterate env wf n s) := by
  induction n generalizing s with
  | zero => rfl
  | succ n ih => rw [iterate, ih]; rfl

theorem runLoop_of_returned (env : Env) (wf : Workflow) (fuel : Nat) (s : LoopState)
    (h : s.returned = true) : runLoop env wf fuel s = some s := by
  cases fuel <;> simp [runLoop, h]

theorem runLoop_of_iterate (env : Env) (wf : Workflow) (n : Nat) (s : LoopState)
    (h : (iterate env wf n s).returned = true) (fuel : Nat) (hf : n ≤ fuel) :
    runLoop env wf fuel s = some (iterate env wf n s) := by
  induction n generalizing s fuel with
  | zero => exact runLoop_of_returned env wf fuel s h
  | succ n ih =>
    by_cases hs : s.returned = true
    · rw [iterate_returned env wf _ s hs]
      exact runLoop_of_returned env wf fuel s hs
    · obtain ⟨f, rfl⟩ : ∃ f, fuel = f + 1 := ⟨fuel - 1, by omega⟩
      rw [runLoop, if_neg hs]
      exact ih (iteration env wf s) h f (by omega)

theorem handleStepAction_continue (a : StepAction) (steps : List Step) (c : Int)
    (h : a.Type_ = "continue") : handleStepAction a steps c = c := by
  unfold handleStepAction
  rw [if_pos h]

theorem handleStepAction_stop (a : StepAction) (steps : List Step) (c : Int)
    (h : a.Type_ = "stop") : handleStepAction a steps c = (steps.length : Int) := by
  unfold handleStepAction
  rw [if_neg (by rw [h]; decide), if_pos h]

theorem findIdx_unique (steps : List Step) (t : Nat) (tgt : Step)
    (hnd : (steps.map (·.ID)).Nodup) (ht : steps[t]? = some tgt) :
    steps.findIdx? (fun st => decide (st.ID = tgt.ID)) = some t := by
  induction steps generalizing t with
  | nil => simp at ht
  | cons st rest ih =>
    simp only [List.map_cons, List.nodup_cons] at hnd
    cases t with
    | zero =>
      simp only [List.getElem?_cons_zero, Option.some.injEq] at ht
      subst ht
      simp [List.findIdx?_cons]
    | succ t' =>
      simp only [List.getElem?_cons_succ] at ht
      have hmem : tgt.ID ∈ rest.map (·.ID) :=
        List.mem_map.2 ⟨tgt, List.getElem?_mem ht, rfl⟩
      have hne : st.ID ≠ tgt.ID := fun h => hnd.1 (h ▸ hmem)
      simp [List.findIdx?_cons, hne, ih t' hnd.2 ht]

theorem handleStepAction_jump (a : StepAction) (steps : List Step) (c : Int) (t : Nat)
    (tgt : Step) (hnd : (steps.map (·.ID)).Nodup) (ht : steps[t]? = some tgt)
    (h : a.Type_ = "jump_to") (hg : a.Target = tgt.ID) :
    handleStepAction a steps c = (t : Int) - 1 := by
  unfold handleStepAction
  rw [if_neg (by rw [h]; decide), if_neg (by rw [h]; decide), if_pos h, hg,
    findIdx_unique steps t tgt hnd ht]

/-- C3: in a workflow with unique step ids, when the first matching condition of the
step at the cursor is `jump_to` with the id of the step at index `t` as target, the step
succeeded and its `onSuccess` is absent or of type continue, the loop body leaves the
cursor at `t + 1` with the run still going; the next step the main loop executes is the
one at index `t + 1`, and when `t` is the last index the run ends completed without
executing any further step (the target included). -/
theorem C3_condition_jump_lands_past_target (env : Env) (wf : Workflow) (s : LoopState)
    (i t : Nat) (step tgt : Step) (a : StepAction)
    (hids : (wf.Steps.map (·.ID)).Nodup)
    (hr : s.returned = false) (hc : s.currentStepIndex = (i : Int))
    (hs : wf.Steps[i]? = some step) (hx : env.cancelled s.polls = false)
    (ht : wf.Steps[t]? = some tgt)
    (hcond : evaluateConditions env step.Conditions (stepResult env wf s i step).output
      (stepResult env wf s i step).exitCode = some a)
    (hty : a.Type_ = "jump_to") (htg : a.Target = tgt.ID)
    (hok : (stepResult env wf s i step).err = none)
    (hhook : step.OnSuccess = none ∨ ∃ h, step.OnSuccess = some h ∧ h.Type_ = "continue") :
    (iteration env wf s).returned = false ∧
    (iteration env wf s).currentStepIndex = (t : Int) + 1 ∧
    (iteration env wf s).execution.Status = s.execution.Status ∧
    (iteration env wf s).executed = s.executed ++ [i] ∧
    (t + 1 < wf.Steps.length → env.cancelled (s.polls + 1) = false →
      (iterate env wf 2 s).executed = s.executed ++ [i, t + 1]) ∧
    (t + 1 = wf.Steps.length → ∀ fuel, 2 ≤ fuel →
      ∃ final, runLoop env wf fuel s = some final ∧
        final.execution.Status = "completed" ∧ final.executed = s.executed ++ [i]) := by
  have he := entered_facts env wf s i step
  simp only [] at he
  have hlive := iteration_live env wf s i step hr hc hs hx
  have hfacts := iteration_live_facts env wf s i step hr hc hs hx
  -- the state after the condition block
  have hac : afterConditions env wf s i step =
      jumpScan env step.ID a.Target 0 wf.Steps
        (logInfo env (runStep env (enterStep env wf s i step) step).1 step.ID
          ("Condition matched: " ++ a.Type_)) := by
    unfold afterConditions
    rw [conditionPhase_some _ _ _ _ _ _ hcond, if_neg (by rw [hty]; decide), if_pos hty]
  have hfr : Frame (runStep env (enterStep env wf s i step) step).1
      (afterConditions env wf s i step) := by
    rw [hac]
    exact Frame.trans (frame_logInfo _ _ _ _) (frame_jumpScan _ _ _ _ _ _)
  have hret : (afterConditions env wf s i step).returned = false := by
    rw [hfr.returned, he.1, hr]
  have hcur : (afterConditions env wf s i step).currentStepIndex = (t : Int) := by
    rw [hac, htg, jumpScan_unique _ _ _ _ _ t tgt hids ht]
    simp
  have hst : (afterConditions env wf s i step).execution.Status = s.execution.Status := by
    rw [hfr.status, he.2.2.2.2.1]
  have hit : iteration env wf s = advance (afterConditions env wf s i step) := by
    rw [hlive, if_neg (by simp [hret])]
    unfold resultPhase
    rw [hok]
    rcases hhook with h | ⟨h, h1, h2⟩
    · rw [h]
    · rw [h1]
      simp only []
      rw [handleStepAction_continue h _ _ h2]
  have h1 : (iteration env wf s).returned = false := by rw [hit]; exact hret
  have h2 : (iteration env wf s).currentStepIndex = (t : Int) + 1 := by
    rw [hit]
    show (afterConditions env wf s i step).currentStepIndex + 1 = _
    rw [hcur]
  have h3 : (iteration env wf s).execution.Status = s.execution.Status := by
    rw [hit]; exact hst
  have hpolls : (iteration env wf s).polls = s.polls + 1 := by
    rw [hit]
    show (afterConditions env wf s i step).polls = _
    rw [hfr.polls, he.2.2.1]
  refine ⟨h1, h2, h3, hfacts.1, ?_, ?_⟩
  · intro hlt hx2
    obtain ⟨nxt, hn⟩ : ∃ nxt, wf.Steps[t + 1]? = some nxt :=
      ⟨wf.Steps[t + 1], List.getElem?_eq_getElem hlt⟩
    have := iteration_live_facts env wf (iteration env wf s) (t + 1) nxt h1
      (by rw [h2]; simp) hn (by rw [hpolls]; exact hx2)
    show (iteration env wf (iteration env wf s)).executed = _
    rw [this.1, hfacts.1]
    simp
  · intro hlast fuel hfuel
    have hex := iteration_exit env wf (iteration env wf s) h1 (by rw [h2]; omega)
    refine ⟨iterate env wf 2 s, runLoop_of_iterate env wf 2 s ?_ fuel hfuel, ?_, ?_⟩
    · show (iteration env wf (iteration env wf s)).returned = true
      rw [hex]; rfl
    · show (iteration env wf (iteration env wf s)).execution.Status = "completed"
      rw [hex]; rfl
    · show (iteration env wf (iteration env wf s)).executed = _
      rw [hex]
      exact hfacts.1

theorem iteration_condition_stop (env : Env) (wf : Workflow) (s : LoopState) (i : Nat)
    (step : Step) (hr : s.returned = false) (hc : s.currentStepIndex = (i : Int))
    (hs : wf.Steps[i]? = some step) (hx : env.cancelled s.polls = false)
    (hstop : ∃ a, evaluateConditions env step.Conditions (stepResult env wf s i step).output
      (stepResult env wf s i step).exitCode = some a ∧ a.Type_ = "stop") :
    (iteration env wf s).returned = true ∧
    (iteration env wf s).execution.Status = "completed" ∧
    (iteration env wf s).executed = s.executed ++ [i] := by
  have hfacts := iteration_live_facts env wf s i step hr hc hs hx
  refine ⟨?_, ?_, hfacts.1⟩ <;>
  · rw [iteration_live env wf s i step hr hc hs hx]
    rcases conditionPhase_cases env wf (runStep env (enterStep env wf s i step) step).1 step
      (stepResult env wf s i step) with h | h
    · have hret : (afterConditions env wf s i step).returned = true := h.1
      rw [if_pos hret]
      first
        | exact hret
        | exact h.2.2.1
    · obtain ⟨a, ha, hty⟩ := hstop
      exact absurd hty (h.1 a ha)

theorem iteration_no_stop (env : Env) (wf : Workflow) (s : LoopState) (i : Nat)
    (step : Step) (hr : s.returned = false) (hc : s.currentStepIndex = (i : Int))
    (hs : wf.Steps[i]? = some step) (hx : env.cancelled s.polls = false)
    (hno : ∀ a, evaluateConditions env step.Conditions (stepResult env wf s i step).output
      (stepResult env wf s i step).exitCode = some a → a.Type_ ≠ "stop") :
    iteration env wf s = resultPhase env wf (afterConditions env wf s i step) step
      (stepResult env wf s i step) ∧
    (afterConditions env wf s i step).returned = false ∧
    (afterConditions env wf s i step).execution.Status = s.execution.Status ∧
    (afterConditions env wf s i step).execution.EndTime = s.execution.EndTime ∧
    (afterConditions env wf s i step).polls = s.polls + 1 ∧
    (0 ≤ (afterConditions env wf s i step).currentStepIndex) ∧
    (∃ msgs : List String,
      (afterConditions env wf s i step).sink = s.sink ++ msgs.map SinkEvent.send) ∧
    (∃ entries : List ExecutionLog,
      (afterConditions env wf s i step).execution.Logs = s.execution.Logs ++ entries) := by
  have he := entered_facts env wf s i step
  simp only [] at he
  rcases conditionPhase_cases env wf (runStep env (enterStep env wf s i step) step).1 step
    (stepResult env wf s i step) with h | h
  · obtain ⟨a, ha, hty⟩ := h.2.1
    exact absurd hty (hno a ha)
  · have hf : Frame (runStep env (enterStep env wf s i step) step).1
        (afterConditions env wf s i step) := h.2.1
    have hret : (afterConditions env wf s i step).returned = false := by
      rw [hf.returned, he.1, hr]
    obtain ⟨m₁, hm₁⟩ := he.2.2.2.2.2.2.2.2.1
    obtain ⟨l₁, hl₁⟩ := he.2.2.2.2.2.2.2.2.2
    obtain ⟨m₂, hm₂⟩ := hf.sink
    obtain ⟨l₂, hl₂⟩ := hf.logs
    refine ⟨?_, hret, hf.status.trans he.2.2.2.2.1, hf.endTime.trans he.2.2.2.2.2.1,
      hf.polls.trans he.2.2.1, ?_, ⟨m₁ ++ m₂, ?_⟩, ⟨l₁ ++ l₂, ?_⟩⟩
    · rw [iteration_live env wf s i step hr hc hs hx, if_neg (by simp [hret])]
    · exact h.2.2 (by rw [he.2.2.2.2.2.2.2.1, hc]; omega)
    · rw [hm₂, hm₁]; simp
    · rw [hl₂, hl₁]; simp

/-- C4 (amended): in a workflow with unique step ids, when the step at the cursor has no
matching condition and its applicable hook (`onSuccess` after success, `onFailure` after
an error) is `jump_to` with the id of the step at index `t` as target, the loop body
leaves the cursor at `t`: the next step the main loop executes is the target itself. -/
theorem C4_hook_jump_lands_on_target (env : Env) (wf : Workflow) (s : LoopState)
    (i t : Nat) (step tgt : Step) (a : StepAction)
    (hids : (wf.Steps.map (·.ID)).Nodup)
    (hr : s.returned = false) (hc : s.currentStepIndex = (i : Int))
    (hs : wf.Steps[i]? = some step) (hx : env.cancelled s.polls = false)
    (ht : wf.Steps[t]? = some tgt)
    (hnone : evaluateConditions env step.Conditions (stepResult env wf s i step).output
      (stepResult env wf s i step).exitCode = none)
    (hhook : ((stepResult env wf s i step).err = none ∧ step.OnSuccess = some a) ∨
      ((stepResult env wf s i step).err ≠ none ∧ step.OnFailure = some a))
    (hty : a.Type_ = "jump_to") (htg : a.Target = tgt.ID) :
    (iteration env wf s).returned = false ∧
    (iteration env wf s).currentStepIndex = (t : Int) ∧
    (iteration env wf s).execution.Status = s.execution.Status ∧
    (iteration env wf s).executed = s.executed ++ [i] ∧
    (env.cancelled (s.polls + 1) = false →
      (iterate env wf 2 s).executed = s.executed ++ [i, t]) := by
  have hfacts := iteration_live_facts env wf s i step hr hc hs hx
  have hns := iteration_no_stop env wf s i step hr hc hs hx (by rw [hnone]; simp)
  have he := entered_facts env wf s i step
  simp only [] at he
  have hjump := handleStepAction_jump a wf.Steps
    (afterConditions env wf s i step).currentStepIndex t tgt hids ht hty htg
  have hit : iteration env wf s =
      advance { afterConditions env wf s i step with currentStepIndex := (t : Int) - 1 } ∨
      ∃ e, iteration env wf s = advance
        { logError env (afterConditions env wf s i step) step.ID ("Step failed: " ++ e) with
          currentStepIndex := (t : Int) - 1 } := by
    rw [hns.1]
    unfold resultPhase
    rcases hhook with ⟨h1, h2⟩ | ⟨h1, h2⟩
    · left
      rw [h1, h2]
      simp only []
      rw [hjump]
    · right
      cases hres : (stepResult env wf s i step).err with
      | none => exact absurd hres h1
      | some e =>
        refine ⟨e, ?_⟩
        rw [h2]
        simp only []
        have : (logError env (afterConditions env wf s i step) step.ID
            ("Step failed: " ++ e)).currentStepIndex
            = (afterConditions env wf s i step).currentStepIndex := rfl
        rw [this, hjump]
  have h1 : (iteration env wf s).returned = false := by
    rcases hit with h | ⟨e, h⟩ <;> rw [h] <;> exact hns.2.1
  have h2 : (iteration env wf s).currentStepIndex = (t : Int) := by
    rcases hit with h | ⟨e, h⟩ <;> rw [h] <;>
    · show (t : Int) - 1 + 1 = t
      omega
  have h3 : (iteration env wf s).execution.Status = s.execution.Status := by
    rcases hit with h | ⟨e, h⟩ <;> rw [h] <;> exact hns.2.2.1
  have hpolls : (iteration env wf s).polls = s.polls + 1 := by
    rcases hit with h | ⟨e, h⟩ <;> rw [h] <;> exact hns.2.2.2.2.1
  refine ⟨h1, h2, h3, hfacts.1, ?_⟩
  intro hx2
  have := iteration_live_facts env wf (iteration env wf s) t tgt h1 h2 ht
    (by rw [hpolls]; exact hx2)
  show (iteration env wf (iteration env wf s)).executed = _
  rw [this.1, hfacts.1]
  simp

theorem failure_logged (env : Env) (wf : Workflow) (s : LoopState) (i : Nat)
    (step : Step) (e : String)
    (hr : s.returned = false) (hc : s.currentStepIndex = (i : Int))
    (hs : wf.Steps[i]? = some step) (hx : env.cancelled s.polls = false)
    (herr : (stepResult env wf s i step).err = some e)
    (hno : ∀ a, evaluateConditions env step.Conditions (stepResult env wf s i step).output
      (stepResult env wf s i step).exitCode = some a → a.Type_ ≠ "stop") :
    ∃ ts, (ExecutionLog.mk ts step.ID "error" ("Step failed: " ++ e) "")
      ∈ (iteration env wf s).execution.Logs := by
  have hns := iteration_no_stop env wf s i step hr hc hs hx hno
  refine ⟨env.now (afterConditions env wf s i step).clock, ?_⟩
  rw [hns.1]
  unfold resultPhase
  rw [herr]
  simp only []
  split <;> simp [advance, goReturn, setTerminal, logError, logAt]

theorem stopOnFailure_example :
    ∃ final, runLoop demoEnv wfStopOnFailure 3
        (initialState demoEnv wfStopOnFailure "deploy" []) = some final ∧
      final.execution.Status = "completed" ∧ final.executed = [0, 1] ∧
      final.commands = ["echo hi", "exit 1"] ∧
      (ExecutionLog.mk "2024-01-01T00:00:00Z" "B" "error" "Step failed: exit status 1" "")
        ∈ final.execution.Logs :=
  ⟨_, rfl, by decide, by decide, by decide, by decide⟩

/-- C5: if at the step at index `i` the first matching condition is `stop`, or the
applicable hook (`onSuccess` on success, `onFailure` on error) is `stop`, then the run
returns with status completed and the main loop executes no step after this one; when
the step failed and the stop came from its failure hook, the error-level entry
"Step failed" of that step is in the logs. The steps `[A: echo hi, B: exit 1]` with
`B.onFailure = stop` end completed after that entry for `B`. -/
theorem C5_stop_ends_completed (env : Env) (wf : Workflow) (s : LoopState) (i : Nat)
    (step : Step)
    (hr : s.returned = false) (hc : s.currentStepIndex = (i : Int))
    (hs : wf.Steps[i]? = some step) (hx : env.cancelled s.polls = false)
    (hstop :
      (∃ a, evaluateConditions env step.Conditions (stepResult env wf s i step).output
        (stepResult env wf s i step).exitCode = some a ∧ a.Type_ = "stop") ∨
      ((stepResult env wf s i step).err = none ∧
        ∃ a, step.OnSuccess = some a ∧ a.Type_ = "stop") ∨
      ((stepResult env wf s i step).err ≠ none ∧
        ∃ a, step.OnFailure = some a ∧ a.Type_ = "stop")) :
    (∃ final,
      (∀ fuel, 2 ≤ fuel → runLoop env wf fuel s = some final) ∧
      final.returned = true ∧
      final.execution.Status = "completed" ∧
      final.executed = s.executed ++ [i] ∧
      (∀ e, (stepResult env wf s i step).err = some e →
        (∀ a, evaluateConditions env step.Conditions (stepResult env wf s i step).output
          (stepResult env wf s i step).exitCode = some a → a.Type_ ≠ "stop") →
        ∃ ts, (ExecutionLog.mk ts step.ID "error" ("Step failed: " ++ e) "")
          ∈ final.execution.Logs)) ∧
    (∃ final, runLoop demoEnv wfStopOnFailure 3
        (initialState demoEnv wfStopOnFailure "deploy" []) = some final ∧
      final.execution.Status = "completed" ∧ final.executed = [0, 1] ∧
      final.commands = ["echo hi", "exit 1"] ∧
      (ExecutionLog.mk "2024-01-01T00:00:00Z" "B" "error" "Step failed: exit status 1" "")
        ∈ final.execution.Logs) := by
  refine ⟨?_, stopOnFailure_example⟩
  have hfacts := iteration_live_facts env wf s i step hr hc hs hx
  have key : (iterate env wf 2 s).returned = true ∧
      (iterate env wf 2 s).execution.Status = "completed" ∧
      (iterate env wf 2 s).executed = s.executed ++ [i] ∧
      (∀ e, (stepResult env wf s i step).err = some e →
        (∀ a, evaluateConditions env step.Conditions (stepResult env wf s i step).output
          (stepResult env wf s i step).exitCode = some a → a.Type_ ≠ "stop") →
        ∃ ts, (ExecutionLog.mk ts step.ID "error" ("Step failed: " ++ e) "")
          ∈ (iterate env wf 2 s).execution.Logs) := by
    show (iteration env wf (iteration env wf s)).returned = true ∧
      (iteration env wf (iteration env wf s)).execution.Status = "completed" ∧
      (iteration env wf (iteration env wf s)).executed = s.executed ++ [i] ∧
      (∀ e, (stepResult env wf s i step).err = some e →
        (∀ a, evaluateConditions env step.Conditions (stepResult env wf s i step).output
          (stepResult env wf s i step).exitCode = some a → a.Type_ ≠ "stop") →
        ∃ ts, (ExecutionLog.mk ts step.ID "error" ("Step failed: " ++ e) "")
          ∈ (iteration env wf (iteration env wf s)).execution.Logs)
    by_cases hcs : ∃ a, evaluateConditions env step.Conditions
        (stepResult env wf s i step).output (stepResult env wf s i step).exitCode = some a ∧
        a.Type_ = "stop"
    · have h := iteration_condition_stop env wf s i step hr hc hs hx hcs
      rw [iteration_returned env wf _ h.1]
      refine ⟨h.1, h.2.1, h.2.2, fun e _ hno => ?_⟩
      obtain ⟨a, ha, hty⟩ := hcs
      exact absurd hty (hno a ha)
    · have hno : ∀ a, evaluateConditions env step.Conditions
          (stepResult env wf s i step).output (stepResult env wf s i step).exitCode = some a →
          a.Type_ ≠ "stop" := fun a ha hty => hcs ⟨a, ha, hty⟩
      have hns := iteration_no_stop env wf s i step hr hc hs hx hno
      have hcur : (iteration env wf s).returned = false ∧
          (iteration env wf s).currentStepIndex = (wf.Steps.length : Int) + 1 := by
        rw [hns.1]
        unfold resultPhase
        rcases hstop with h | ⟨h1, a, h2, h3⟩ | ⟨h1, a, h2, h3⟩
        · exact absurd h hcs
        · rw [h1, h2]
          simp only []
          rw [handleStepAction_stop a _ _ h3]
          exact ⟨hns.2.1, rfl⟩
        · cases hres : (stepResult env wf s i step).err with
          | none => exact absurd hres h1
          | some e =>
            rw [h2]
            simp only []
            rw [handleStepAction_stop a _ _ h3]
            exact ⟨hns.2.1, rfl⟩
      have hex := iteration_exit env wf (iteration env wf s) hcur.1 (by rw [hcur.2]; omega)
      rw [hex]
      refine ⟨rfl, rfl, hfacts.1, fun e herr _ => ?_⟩
      obtain ⟨ts, hts⟩ := failure_logged env wf s i step e hr hc hs hx herr hno
      refine ⟨ts, ?_⟩
      simp only [goReturn, setTerminal, logInfo, logAt, List.mem_append]
      exact Or.inl hts
  exact ⟨iterate env wf 2 s, fun fuel hf => runLoop_of_iterate env wf 2 s key.1 fuel hf,
    key.1, key.2.1, key.2.2.1, key.2.2.2⟩

/-- C10: for a step that returns an error and whose first matching condition (if any) is
not `stop`: without `onFailure` the run returns with status failed and no later step is
executed; with `onFailure` the status and end time are left as they were and the cursor
is the one `handleStepAction` computes for the hook, plus the increment. A step whose
type is neither command nor workflow_ref leaves the state untouched (no shell command)
and returns the error "unknown step type". -/
theorem C10_step_error_handling (env : Env) (wf : Workflow) (s : LoopState) (i : Nat)
    (step : Step) (e : String)
    (hr : s.returned = false) (hc : s.currentStepIndex = (i : Int))
    (hs : wf.Steps[i]? = some step) (hx : env.cancelled s.polls = false)
    (herr : (stepResult env wf s i step).err = some e)
    (hno : ∀ a, evaluateConditions env step.Conditions (stepResult env wf s i step).output
      (stepResult env wf s i step).exitCode = some a → a.Type_ ≠ "stop") :
    (step.OnFailure = none →
      (iteration env wf s).returned = true ∧
      (iteration env wf s).execution.Status = "failed" ∧
      (iteration env wf s).executed = s.executed ++ [i] ∧
      ∀ fuel, 1 ≤ fuel → runLoop env wf fuel s = some (iteration env wf s)) ∧
    (∀ a, step.OnFailure = some a →
      (iteration env wf s).returned = false ∧
      (iteration env wf s).execution.Status = s.execution.Status ∧
      (iteration env wf s).execution.EndTime = s.execution.EndTime ∧
      (iteration env wf s).currentStepIndex =
        handleStepAction a wf.Steps (afterConditions env wf s i step).currentStepIndex + 1) ∧
    (∀ (s' : LoopState) (st : Step), st.Type_ ≠ "command" → st.Type_ ≠ "workflow_ref" →
      runStep env s' st = (s', { err := some ("unknown step type: " ++ st.Type_) })) := by
  have hfacts := iteration_live_facts env wf s i step hr hc hs hx
  have hns := iteration_no_stop env wf s i step hr hc hs hx hno
  refine ⟨fun hnone => ?_, fun a ha => ?_, fun s' st h1 h2 => ?_⟩
  · have hit : iteration env wf s = goReturn (setTerminal env
        (logError env (afterConditions env wf s i step) step.ID ("Step failed: " ++ e))
        "failed") := by
      rw [hns.1]
      unfold resultPhase
      rw [herr, hnone]
    have hret : (iteration env wf s).returned = true := by rw [hit]; rfl
    refine ⟨hret, by rw [hit]; rfl, hfacts.1, fun fuel hf => ?_⟩
    exact runLoop_of_iterate env wf 1 s hret fuel hf
  · have hit : iteration env wf s = advance
        { logError env (afterConditions env wf s i step) step.ID ("Step failed: " ++ e) with
          currentStepIndex :=
            handleStepAction a wf.Steps (afterConditions env wf s i step).currentStepIndex } := by
      rw [hns.1]
      unfold resultPhase
      rw [herr, ha]
      rfl
    rw [hit]
    exact ⟨hns.2.1, hns.2.2.1, hns.2.2.2.1, rfl⟩
  · unfold runStep
    rw [if_neg h1, if_neg h2]

theorem plain_iteration (env : Env) (wf : Workflow) (s : LoopState) (j : Nat) (step : Step)
    (hshell : ∀ k command, (procResult (env.shell k command)).err ≠ none ↔
      (procResult (env.shell k command)).exitCode ≠ 0)
    (hp : plainCommand step)
    (hr : s.returned = false) (hc : s.currentStepIndex = (j : Int))
    (hs : wf.Steps[j]? = some step) (hx : env.cancelled s.polls = false) :
    (iteration env wf s).executed = s.executed ++ [j] ∧
    (iteration env wf s).execution.Variables = s.execution.Variables ∧
    (exitCodeAt env s.execution.Variables s.commands.length step = 0 →
      (iteration env wf s).returned = false ∧
      (iteration env wf s).currentStepIndex = (j : Int) + 1 ∧
      (iteration env wf s).commands.length = s.commands.length + 1) ∧
    (exitCodeAt env s.execution.Variables s.commands.length step ≠ 0 →
      (iteration env wf s).returned = true ∧
      (iteration env wf s).execution.Status = "failed") := by
  obtain ⟨hty, hcn, hsu, hfa⟩ := hp
  have hfacts := iteration_live_facts env wf s j step hr hc hs hx
  have hres : stepResult env wf s j step =
      procResult (env.shell s.commands.length (commandText step s.execution.Variables)) := by
    unfold stepResult runStep
    rw [if_pos hty, executeCommandStep_result]
    rfl
  have hnone : evaluateConditions env step.Conditions (stepResult env wf s j step).output
      (stepResult env wf s j step).exitCode = none := by
    rw [hcn]; rfl
  have hns := iteration_no_stop env wf s j step hr hc hs hx (by rw [hnone]; simp)
  have hac : afterConditions env wf s j step =
      (executeCommandStep env (enterStep env wf s j step) step
        (enterStep env wf s j step).execution.Variables).1 := by
    unfold afterConditions
    rw [conditionPhase_none _ _ _ _ _ hnone]
    unfold runStep
    rw [if_pos hty]
  have hcmds : (afterConditions env wf s j step).commands.length = s.commands.length + 1 := by
    rw [hac, (executeCommandStep_commands _ _ _ _).1]
    simp [enterStep, logInfo, logAt]
  have hcur : (afterConditions env wf s j step).currentStepIndex = (j : Int) := by
    rw [hac, (executeCommandStep_commands _ _ _ _).2]
    exact hc
  refine ⟨hfacts.1, hfacts.2.2, fun h0 => ?_, fun h1 => ?_⟩
  · have herr : (stepResult env wf s j step).err = none := by
      rw [hres]
      by_contra hne
      exact ((hshell _ _).1 hne) h0
    have hit : iteration env wf s = advance (afterConditions env wf s j step) := by
      rw [hns.1]
      unfold resultPhase
      rw [herr, hsu]
    rw [hit]
    refine ⟨hns.2.1, ?_, hcmds⟩
    show (afterConditions env wf s j step).currentStepIndex + 1 = _
    rw [hcur]
  · have herr : (stepResult env wf s j step).err ≠ none := by
      rw [hres]
      exact (hshell _ _).2 h1
    obtain ⟨e, he⟩ : ∃ e, (stepResult env wf s j step).err = some e := by
      cases h : (stepResult env wf s j step).err with
      | none => exact absurd h herr
      | some e => exact ⟨e, rfl⟩
    have hit : iteration env wf s = goReturn (setTerminal env
        (logError env (afterConditions env wf s j step) step.ID ("Step failed: " ++ e))
        "failed") := by
      rw [hns.1]
      unfold resultPhase
      rw [he, hfa]
    rw [hit]
    exact ⟨rfl, rfl⟩

theorem plain_run (env : Env) (wf : Workflow)
    (hsteps : ∀ st ∈ wf.Steps, plainCommand st)
    (hnc : ∀ k, env.cancelled k = false)
    (hshell : ∀ k command, (procResult (env.shell k command)).err ≠ none ↔
      (procResult (env.shell k command)).exitCode ≠ 0)
    (m : Nat) : ∀ (s : LoopState) (j : Nat),
    s.returned = false → s.currentStepIndex = (j : Int) → s.commands.length = j →
    j + m = wf.Steps.length →
    ∃ final, runLoop env wf (m + 1) s = some final ∧
      ((∀ l step, j ≤ l → wf.Steps[l]? = some step →
          exitCodeAt env s.execution.Variables l step = 0) →
        final.execution.Status = "completed" ∧
        final.executed = s.executed ++ List.range' j m) ∧
      (∀ k stepk, j ≤ k → wf.Steps[k]? = some stepk →
        exitCodeAt env s.execution.Variables k stepk ≠ 0 →
        (∀ l step, j ≤ l → l < k → wf.Steps[l]? = some step →
          exitCodeAt env s.execution.Variables l step = 0) →
        final.execution.Status = "failed" ∧
        final.executed = s.executed ++ List.range' j (k + 1 - j)) := by
  induction m with
  | zero =>
    intro s j hr hc _ hlen
    have hex := iteration_exit env wf s hr (by rw [hc]; omega)
    refine ⟨iteration env wf s, ?_, fun _ => ?_, fun k stepk hjk hk _ _ => ?_⟩
    · rw [runLoop, if_neg (by simp [hr])]
      exact runLoop_of_returned env wf 0 _ (by rw [hex]; rfl)
    · rw [hex]
      exact ⟨rfl, by simp [goReturn, logInfo, logAt, setTerminal]⟩
    · rcases List.getElem?_eq_some.1 hk with ⟨h, _⟩
      omega
  | succ m ih =>
    intro s j hr hc hcl hlen
    have hlt : j < wf.Steps.length := by omega
    have hs : wf.Steps[j]? = some wf.Steps[j] := List.getElem?_eq_getElem hlt
    have hp := hsteps _ (List.getElem_mem hlt)
    have hit := plain_iteration env wf s j wf.Steps[j] hshell hp hr hc hs (hnc _)
    rw [hcl] at hit
    by_cases h0 : exitCodeAt env s.execution.Variables j wf.Steps[j] = 0
    · obtain ⟨h1, h2, h3⟩ := hit.2.2.1 h0
      obtain ⟨final, hrun, hall, hfail⟩ :=
        ih (iteration env wf s) (j + 1) h1 (by rw [h2]; simp) h3 (by omega)
      rw [hit.2.1] at hall hfail
      refine ⟨final, ?_, fun hz => ?_, fun k stepk hjk hk hne hbefore => ?_⟩
      · rw [runLoop, if_neg (by simp [hr])]
        exact hrun
      · obtain ⟨a, b⟩ := hall (fun l step hl => hz l step (by omega))
        refine ⟨a, ?_⟩
        rw [b, hit.1, List.range'_succ]
        simp
      · have hkj : k ≠ j := by
          rintro rfl
          rw [hs] at hk
          cases hk
          exact hne h0
        obtain ⟨a, b⟩ := hfail k stepk (by omega) hk hne
          (fun l step h1 h2 => hbefore l step (by omega) h2)
        refine ⟨a, ?_⟩
        rw [b, hit.1]
        have : k + 1 - j = (k + 1 - (j + 1)) + 1 := by omega
        rw [this, List.range'_succ]
        simp
    · obtain ⟨h1, h2⟩ := hit.2.2.2 h0
      refine ⟨iteration env wf s, ?_, fun hz => ?_, fun k stepk hjk hk hne hbefore => ?_⟩
      · rw [runLoop, if_neg (by simp [hr])]
        exact runLoop_of_returned env wf _ _ h1
      · exact absurd (hz j _ (le_refl _) hs) h0
      · have hkj : k = j := by
          by_contra hkj
          exact h0 (hbefore j _ (le_refl _) (by omega) hs)
        subst hkj
        refine ⟨h2, ?_⟩
        rw [hit.1]
        simp

theorem runLoop_mono (env : Env) (wf : Workflow) (n : Nat) :
    ∀ (s final : LoopState) (m : Nat), runLoop env wf n s = some final → n ≤ m →
      runLoop env wf m s = some final := by
  induction n with
  | zero =>
    intro s final m h _
    by_cases hr : s.returned = true
    · rw [runLoop, if_pos hr] at h
      rw [runLoop_of_returned env wf m s hr]
      exact h
    · rw [runLoop, if_neg hr] at h
      cases h
  | succ n ih =>
    intro s final m h hm
    by_cases hr : s.returned = true
    · rw [runLoop, if_pos hr] at h
      rw [runLoop_of_returned env wf m s hr]
      exact h
    · rw [runLoop, if_neg hr] at h
      obtain ⟨m', rfl⟩ : ∃ m', m = m' + 1 := ⟨m - 1, by omega⟩
      rw [runLoop, if_neg hr]
      exact ih _ _ m' h (by omega)

theorem runLoop_some (env : Env) (wf : Workflow) (n : Nat) :
    ∀ (s final : LoopState), runLoop env wf n s = some final →
      final.returned = true ∧ ∃ k, final = iterate env wf k s := by
  induction n with
  | zero =>
    intro s final h
    by_cases hr : s.returned = true
    · rw [runLoop, if_pos hr] at h
      cases h
      exact ⟨hr, 0, rfl⟩
    · rw [runLoop, if_neg hr] at h
      cases h
  | succ n ih =>
    intro s final h
    by_cases hr : s.returned = true
    · rw [runLoop, if_pos hr] at h
      cases h
      exact ⟨hr, 0, rfl⟩
    · rw [runLoop, if_neg hr] at h
      obtain ⟨h1, k, hk⟩ := ih _ _ h
      exact ⟨h1, k + 1, hk⟩

/-- C6: for a workflow of plain command steps (no conditions, no hooks), never
cancelled, run against a shell that returns an error exactly when the exit code is not
zero, the run returns; its status is completed iff every step exits with code 0, in which
case every step is executed once in array order; otherwise the status is failed and the
executed steps are exactly those up to and including the first one with a non-zero exit
code, once each and in array order. -/
theorem C6_command_only_workflows (env : Env) (wf : Workflow) (s : LoopState)
    (hsteps : ∀ st ∈ wf.Steps, plainCommand st)
    (hnc : ∀ k, env.cancelled k = false)
    (hshell : ∀ k command, (procResult (env.shell k command)).err ≠ none ↔
      (procResult (env.shell k command)).exitCode ≠ 0)
    (hr : s.returned = false) (hc : s.currentStepIndex = 0) (hcmd : s.commands = [])
    (hex : s.executed = []) :
    ∃ final,
      (∀ fuel, wf.Steps.length + 1 ≤ fuel → runLoop env wf fuel s = some final) ∧
      (final.execution.Status = "completed" ↔
        ∀ j step, wf.Steps[j]? = some step →
          exitCodeAt env s.execution.Variables j step = 0) ∧
      ((∀ j step, wf.Steps[j]? = some step →
          exitCodeAt env s.execution.Variables j step = 0) →
        final.executed = List.range wf.Steps.length) ∧
      (¬ (∀ j step, wf.Steps[j]? = some step →
          exitCodeAt env s.execution.Variables j step = 0) →
        final.execution.Status = "failed" ∧
        ∃ k stepk, wf.Steps[k]? = some stepk ∧
          exitCodeAt env s.execution.Variables k stepk ≠ 0 ∧
          (∀ l step, l < k → wf.Steps[l]? = some step →
            exitCodeAt env s.execution.Variables l step = 0) ∧
          final.executed = List.range (k + 1)) := by
  obtain ⟨final, hrun, hall, hfail⟩ :=
    plain_run env wf hsteps hnc hshell wf.Steps.length s 0 hr (by rw [hc]; rfl)
      (by rw [hcmd]; rfl) (by omega)
  rw [hex] at hall hfail
  have hbad : ¬ (∀ j step, wf.Steps[j]? = some step →
      exitCodeAt env s.execution.Variables j step = 0) →
      final.execution.Status = "failed" ∧
      ∃ k stepk, wf.Steps[k]? = some stepk ∧
        exitCodeAt env s.execution.Variables k stepk ≠ 0 ∧
        (∀ l step, l < k → wf.Steps[l]? = some step →
          exitCodeAt env s.execution.Variables l step = 0) ∧
        final.executed = List.range (k + 1) := by
    intro hne
    have hexists : ∃ k, ∃ stepk, wf.Steps[k]? = some stepk ∧
        exitCodeAt env s.execution.Variables k stepk ≠ 0 := by
      by_contra hcon
      apply hne
      intro j step hj
      by_contra h0
      exact hcon ⟨j, step, hj, h0⟩
    classical
    obtain ⟨stepk, hk, hcode⟩ := Nat.find_spec hexists
    have hmin : ∀ l step, l < Nat.find hexists → wf.Steps[l]? = some step →
        exitCodeAt env s.execution.Variables l step = 0 := by
      intro l step hl hstep
      by_contra h0
      exact Nat.find_min hexists hl ⟨step, hstep, h0⟩
    obtain ⟨a, b⟩ := hfail (Nat.find hexists) stepk (Nat.zero_le _) hk hcode
      (fun l step _ h2 h3 => hmin l step h2 h3)
    refine ⟨a, Nat.find hexists, stepk, hk, hcode, hmin, ?_⟩
    rw [b, List.range_eq_range']
    simp
  refine ⟨final, fun fuel hf => runLoop_mono env wf _ s final fuel hrun hf, ?_, ?_, hbad⟩
  · constructor
    · intro hcomp
      by_contra hne
      have := (hbad hne).1
      rw [hcomp] at this
      exact absurd this (by decide)
    · intro hz
      exact (hall (fun l step _ h => hz l step h)).1
  · intro hz
    rw [(hall (fun l step _ h => hz l step h)).2, List.range_eq_range']
    simp

/-! ## The invariant of the goroutine -/

theorem resultPhase_cases (env : Env) (wf : Workflow) (a : LoopState) (step : Step)
    (res : StepResult) (hr : a.returned = false) (hc : 0 ≤ a.currentStepIndex) :
    ((resultPhase env wf a step res).returned = true ∧
      (resultPhase env wf a step res).execution.Status = "failed" ∧
      (∃ k, (resultPhase env wf a step res).execution.EndTime = env.now k) ∧
      ∃ msgs : List String, (resultPhase env wf a step res).sink
        = a.sink ++ msgs.map SinkEvent.send ++ [SinkEvent.close]) ∨
    ((resultPhase env wf a step res).returned = false ∧
      (resultPhase env wf a step res).execution.Status = a.execution.Status ∧
      (resultPhase env wf a step res).execution.EndTime = a.execution.EndTime ∧
      0 ≤ (resultPhase env wf a step res).currentStepIndex ∧
      ∃ msgs : List String, (resultPhase env wf a step res).sink
        = a.sink ++ msgs.map SinkEvent.send) := by
  unfold resultPhase
  split
  · rename_i e _
    split
    · rename_i act _
      refine Or.inr ⟨hr, rfl, rfl, ?_, ⟨["Step failed: " ++ e], rfl⟩⟩
      exact handleStepAction_ge act wf.Steps _ hc
    · refine Or.inl ⟨rfl, rfl, ⟨_, rfl⟩, ⟨["Step failed: " ++ e], ?_⟩⟩
      simp [goReturn, setTerminal, logError, logAt]
  · split
    · rename_i act _
      refine Or.inr ⟨hr, rfl, rfl, ?_, ⟨[], by simp [advance]⟩⟩
      exact handleStepAction_ge act wf.Steps _ hc
    · refine Or.inr ⟨hr, rfl, rfl, ?_, ⟨[], by simp [advance]⟩⟩
      show 0 ≤ a.currentStepIndex + 1
      omega

theorem iteration_cases (env : Env) (wf : Workflow) (s : LoopState)
    (hr : s.returned = false) (hc : 0 ≤ s.currentStepIndex) :
    ((iteration env wf s).returned = true ∧
      terminalStatus (iteration env wf s).execution.Status ∧
      (∃ k, (iteration env wf s).execution.EndTime = env.now k) ∧
      (iteration env wf s).panicked = s.panicked ∧
      ∃ msgs : List String, (iteration env wf s).sink
        = s.sink ++ msgs.map SinkEvent.send ++ [SinkEvent.close]) ∨
    ((iteration env wf s).returned = false ∧
      (iteration env wf s).execution.Status = s.execution.Status ∧
      (iteration env wf s).execution.EndTime = s.execution.EndTime ∧
      (iteration env wf s).panicked = s.panicked ∧
      0 ≤ (iteration env wf s).currentStepIndex ∧
      ∃ msgs : List String, (iteration env wf s).sink
        = s.sink ++ msgs.map SinkEvent.send) := by
  by_cases hlen : s.currentStepIndex < (wf.Steps.length : Int)
  · obtain ⟨i, hi⟩ : ∃ i : Nat, s.currentStepIndex = (i : Int) :=
      ⟨s.currentStepIndex.toNat, (Int.toNat_of_nonneg hc).symm⟩
    have hlt : i < wf.Steps.length := by omega
    have hs : wf.Steps[i]? = some wf.Steps[i] := List.getElem?_eq_getElem hlt
    by_cases hx : env.cancelled s.polls = true
    · rw [iteration_cancelled env wf s i _ hr hi hs hx]
      refine Or.inl ⟨rfl, Or.inr (Or.inr rfl), ⟨_, rfl⟩, rfl, ⟨["Execution cancelled"], ?_⟩⟩
      simp [goReturn, setTerminal, logInfo, logAt]
    · have hx' : env.cancelled s.polls = false := by simpa using hx
      have he := entered_facts env wf s i wf.Steps[i]
      simp only [] at he
      obtain ⟨m₁, hm₁⟩ := he.2.2.2.2.2.2.2.2.1
      have hfacts := iteration_live_facts env wf s i _ hr hi hs hx'
      rcases conditionPhase_cases env wf
        (runStep env (enterStep env wf s i wf.Steps[i]) wf.Steps[i]).1 wf.Steps[i]
        (stepResult env wf s i wf.Steps[i]) with h | h
      · have hit := iteration_live env wf s i _ hr hi hs hx'
        have hret : (afterConditions env wf s i wf.Steps[i]).returned = true := h.1
        rw [if_pos hret] at hit
        obtain ⟨m₂, hm₂⟩ := h.2.2.2.2.2.2.2
        rw [hit]
        refine Or.inl ⟨hret, Or.inl h.2.2.1, ⟨_, h.2.2.2.1⟩, ?_, ⟨m₁ ++ m₂, ?_⟩⟩
        · rw [← hit]; exact hfacts.2.1
        · show (conditionPhase env wf _ _ _).sink = _
          rw [hm₂, hm₁]
          simp
      · have hns := iteration_no_stop env wf s i _ hr hi hs hx' h.1
        obtain ⟨m₂, hm₂⟩ := hns.2.2.2.2.2.2.1
        rcases resultPhase_cases env wf (afterConditions env wf s i wf.Steps[i]) wf.Steps[i]
          (stepResult env wf s i wf.Steps[i]) hns.2.1 hns.2.2.2.2.2.1 with g | g
        · obtain ⟨m₃, hm₃⟩ := g.2.2.2
          rw [hns.1]
          refine Or.inl ⟨g.1, Or.inr (Or.inl g.2.1), g.2.2.1, ?_, ⟨m₂ ++ m₃, ?_⟩⟩
          · rw [← hns.1]; exact hfacts.2.1
          · rw [hm₃, hm₂]; simp
        · obtain ⟨m₃, hm₃⟩ := g.2.2.2.2
          rw [hns.1]
          refine Or.inr ⟨g.1, g.2.1.trans hns.2.2.1, g.2.2.1.trans hns.2.2.2.1, ?_,
            g.2.2.2.1, ⟨m₂ ++ m₃, ?_⟩⟩
          · rw [← hns.1]; exact hfacts.2.1
          · rw [hm₃, hm₂]; simp
  · rw [iteration_exit env wf s hr (by omega)]
    refine Or.inl ⟨rfl, Or.inl rfl, ⟨_, rfl⟩, rfl, ⟨["Workflow completed successfully"], ?_⟩⟩
    simp [goReturn, setTerminal, logInfo, logAt]

theorem invariant_iteration (env : Env) (wf : Workflow) (s : LoopState)
    (h : LoopInvariant env s) : LoopInvariant env (iteration env wf s) := by
  by_cases hr : s.returned = true
  · rw [iteration_returned env wf s hr]
    exact h
  · have hr' : s.returned = false := by simpa using hr
    obtain ⟨hc, hst, het, msgs, hsink⟩ := h.running hr'
    rcases iteration_cases env wf s hr' hc with g | g
    · obtain ⟨m, hm⟩ := g.2.2.2.2
      refine ⟨g.2.2.2.1.trans h.noPanic, fun hf => ?_, fun _ => ⟨g.2.1, g.2.2.1, msgs ++ m, ?_⟩⟩
      · rw [g.1] at hf
        cases hf
      · rw [hm, hsink]
        simp
    · obtain ⟨m, hm⟩ := g.2.2.2.2.2
      refine ⟨g.2.2.2.1.trans h.noPanic,
        fun _ => ⟨g.2.2.2.2.1, g.2.1.trans hst, g.2.2.1.trans het, msgs ++ m, ?_⟩,
        fun hf => ?_⟩
      · rw [hm, hsink]
        simp
      · rw [g.1] at hf
        cases hf

theorem invariant_initial (env : Env) (wf : Workflow) (workflowID : String) (inputs : GoMap) :
    LoopInvariant env (initialState env wf workflowID inputs) :=
  ⟨rfl, fun _ => ⟨le_refl _, rfl, rfl, ⟨["Starting workflow: " ++ wf.Name], rfl⟩⟩,
    fun h => by cases h⟩

theorem invariant_iterate (env : Env) (wf : Workflow) (n : Nat) (s : LoopState)
    (h : LoopInvariant env s) : LoopInvariant env (iterate env wf n s) := by
  induction n generalizing s with
  | zero => exact h
  | succ n ih => exact ih _ (invariant_iteration env wf s h)

theorem Execute_ok (env : Env) (workflowID : String) (inputs : GoMap) (wf : Workflow)
    (s0 : LoopState) (h : Execute env workflowID inputs = Except.ok (wf, s0)) :
    s0 = initialState env wf workflowID inputs := by
  unfold Execute at h
  split at h
  · cases h
  · cases h
    rfl

theorem count_close_sends (msgs : List String) :
    (msgs.map SinkEvent.send).count SinkEvent.close = 0 := by
  induction msgs with
  | nil => rfl
  | cons m rest ih =>
    rw [List.map_cons, List.count_cons, ih]
    simp

/-- C7 (the code at the failing input): one command step `sleep 100` without hooks, the
cancellation signal fires after the poll at the loop head, the subprocess is killed and
`Wait` returns "signal: killed". The run ends with status failed, not cancelled; the
sink is closed. -/
theorem C7_cancel_during_step_ends_failed :
    Execute cancelEnv "sleep" []
      = Except.ok (wfSleep, initialState cancelEnv wfSleep "sleep" []) ∧
    cancelEnv.cancelled 0 = false ∧ (∀ k, 1 ≤ k → cancelEnv.cancelled k = true) ∧
    (stepResult cancelEnv wfSleep (initialState cancelEnv wfSleep "sleep" []) 0
      { ID := "A", Content := "sleep 100" }).err = some "signal: killed" ∧
    ∃ final, runLoop cancelEnv wfSleep 1 (initialState cancelEnv wfSleep "sleep" [])
        = some final ∧
      final.execution.Status = "failed" ∧ final.execution.Status ≠ "cancelled" ∧
      final.executed = [0] ∧
      final.sink.getLast? = some SinkEvent.close :=
  ⟨rfl, rfl, fun k hk => by simp [cancelEnv, hk], rfl, _, rfl, by decide, by decide,
    by decide, by decide⟩

/-- The events the interpreter goroutine itself performs on its channel: no close while
it runs and exactly one close once it has returned; that close is the last event of the
goroutine, with a terminal status, and the state does not change any more. The sends
of the relay goroutines of its sub-runs are not among these events. -/
theorem own_events_closed_once (env : Env) (workflowID : String) (inputs : GoMap)
    (wf : Workflow) (s0 : LoopState)
    (hexec : Execute env workflowID inputs = Except.ok (wf, s0)) :
    (∀ n, (iterate env wf n s0).sink.count SinkEvent.close
        = if (iterate env wf n s0).returned then 1 else 0) ∧
    (∀ n, (iterate env wf n s0).returned = true →
        (iterate env wf n s0).sink.getLast? = some SinkEvent.close ∧
        terminalStatus (iterate env wf n s0).execution.Status ∧
        ∀ m, iterate env wf m (iterate env wf n s0) = iterate env wf n s0) ∧
    (∀ fuel final, runLoop env wf fuel s0 = some final →
        final.sink.count SinkEvent.close = 1 ∧
        final.sink.getLast? = some SinkEvent.close ∧
        terminalStatus final.execution.Status) := by
  have hinv : ∀ n, LoopInvariant env (iterate env wf n s0) := by
    intro n
    rw [Execute_ok env workflowID inputs wf s0 hexec]
    exact invariant_iterate env wf n _ (invariant_initial env wf workflowID inputs)
  have hdone : ∀ s, LoopInvariant env s → s.returned = true →
      s.sink.count SinkEvent.close = 1 ∧ s.sink.getLast? = some SinkEvent.close ∧
      terminalStatus s.execution.Status := by
    intro s hs hr
    obtain ⟨ht, _, msgs, hm⟩ := hs.done hr
    refine ⟨?_, ?_, ht⟩
    · rw [hm, List.count_append, count_close_sends]
      rfl
    · rw [hm]
      simp
  refine ⟨fun n => ?_, fun n hr => ?_, fun fuel final hrun => ?_⟩
  · by_cases hr : (iterate env wf n s0).returned = true
    · rw [if_pos hr]
      exact (hdone _ (hinv n) hr).1
    · rw [if_neg hr]
      obtain ⟨_, _, _, msgs, hm⟩ := (hinv n).running (by simpa using hr)
      rw [hm]
      exact count_close_sends msgs
  · obtain ⟨h1, h2, h3⟩ := hdone _ (hinv n) hr
    exact ⟨h2, h3, fun m => iterate_returned env wf m _ hr⟩
  · obtain ⟨hr, k, hk⟩ := runLoop_some env wf fuel s0 final hrun
    rw [hk] at hr ⊢
    exact hdone _ (hinv k) hr

/-- C9: the record built by `Execute` has status running and an empty end time; at every
evaluation of the loop guard and after the goroutine has returned, the status is one of
running, completed, failed, cancelled; the end time is non-empty exactly when the status
is terminal; once the status is terminal the state does not change any more, so the
status changes at most once, from running to a terminal value. The clock is assumed to
render non-empty text. -/
theorem C9_status_invariant (env : Env) (workflowID : String) (inputs : GoMap)
    (wf : Workflow) (s0 : LoopState)
    (hnow : ∀ k, env.now k ≠ "")
    (hexec : Execute env workflowID inputs = Except.ok (wf, s0)) :
    (newExecution env wf workflowID inputs).Status = "running" ∧
    (newExecution env wf workflowID inputs).EndTime = "" ∧
    s0.execution.Status = "running" ∧ s0.execution.EndTime = "" ∧
    ∀ n,
      validStatus (iterate env wf n s0).execution.Status ∧
      (terminalStatus (iterate env wf n s0).execution.Status ↔
        (iterate env wf n s0).execution.EndTime ≠ "") ∧
      (terminalStatus (iterate env wf n s0).execution.Status →
        ∀ m, iterate env wf m (iterate env wf n s0) = iterate env wf n s0) ∧
      ((iterate env wf (n + 1) s0).execution.Status ≠ (iterate env wf n s0).execution.Status →
        (iterate env wf n s0).execution.Status = "running" ∧
        terminalStatus (iterate env wf (n + 1) s0).execution.Status) := by
  have hs0 := Execute_ok env workflowID inputs wf s0 hexec
  have hinv : ∀ n, LoopInvariant env (iterate env wf n s0) := by
    intro n
    rw [hs0]
    exact invariant_iterate env wf n _ (invariant_initial env wf workflowID inputs)
  have hrun : ¬ terminalStatus "running" := by decide
  have hfix : ∀ n, terminalStatus (iterate env wf n s0).execution.Status →
      (iterate env wf n s0).returned = true := by
    intro n ht
    by_contra hr
    obtain ⟨_, hst, _⟩ := (hinv n).running (by simpa using hr)
    rw [hst] at ht
    exact hrun ht
  refine ⟨rfl, rfl, by rw [hs0]; rfl, by rw [hs0]; rfl, fun n => ⟨?_, ?_, ?_, ?_⟩⟩
  · by_cases hr : (iterate env wf n s0).returned = true
    · exact Or.inr ((hinv n).done hr).1
    · exact Or.inl ((hinv n).running (by simpa using hr)).2.1
  · constructor
    · intro ht
      obtain ⟨_, ⟨k, hk⟩, _⟩ := (hinv n).done (hfix n ht)
      rw [hk]
      exact hnow k
    · intro hne
      by_cases hr : (iterate env wf n s0).returned = true
      · exact ((hinv n).done hr).1
      · exact absurd ((hinv n).running (by simpa using hr)).2.2.1 hne
  · intro ht m
    exact iterate_returned env wf m _ (hfix n ht)
  · intro hne
    by_cases hr : (iterate env wf n s0).returned = true
    · rw [iterate_succ, iteration_returned env wf _ hr] at hne
      exact absurd rfl hne
    · have hst := ((hinv n).running (by simpa using hr)).2.1
      refine ⟨hst, ?_⟩
      by_cases hr' : (iterate env wf (n + 1) s0).returned = true
      · exact ((hinv (n + 1)).done hr').1
      · have hst' := ((hinv (n + 1)).running (by simpa using hr')).2.1
        rw [hst, hst'] at hne
        exact absurd rfl hne

/-- Witness of C3: in `wfConditionJump` the condition of step `A` jumps to `C` (index 2),
and the step run after `A` is `D` (index 3). -/
theorem C3_condition_jump_witness :
    (iterate demoEnv wfConditionJump 2
      (initialState demoEnv wfConditionJump "cond-jump" [])).executed = [0, 3] :=
  (C3_condition_jump_lands_past_target demoEnv wfConditionJump
    (initialState demoEnv wfConditionJump "cond-jump" []) 0 2
    { ID := "A", Content := "echo hi",
      Conditions := [{ Type_ := "contains", Value := "hi",
                       Action := { Type_ := "jump_to", Target := "C" } }] }
    { ID := "C", Content := "echo c" }
    { Type_ := "jump_to", Target := "C" }
    (by decide) rfl rfl rfl rfl rfl (by decide) rfl rfl rfl (Or.inl rfl)).2.2.2.2.1
    (by decide) rfl

/-- C4 (as stated, refuted): in `wfHookJump` the ids are unique, step `A` has no
condition, succeeds, and its success hook is `jump_to` the step `C` at index 2; the step
run after `A` is `C` itself (index 2) and not `D` (index 3). -/
theorem C4_hook_jump_not_past_target :
    (wfHookJump.Steps.map (·.ID)).Nodup ∧
    (stepResult demoEnv wfHookJump (initialState demoEnv wfHookJump "hook-jump" []) 0
      { ID := "A", Content := "echo hi",
        OnSuccess := some { Type_ := "jump_to", Target := "C" } }).err = none ∧
    (wfHookJump.Steps[0]?).map (·.Conditions) = some [] ∧
    (wfHookJump.Steps[0]?).map (·.OnSuccess)
      = some (some { Type_ := "jump_to", Target := "C" }) ∧
    (wfHookJump.Steps[2]?).map (·.ID) = some "C" ∧
    (iteration demoEnv wfHookJump
      (initialState demoEnv wfHookJump "hook-jump" [])).currentStepIndex = 2 ∧
    (iterate demoEnv wfHookJump 2
      (initialState demoEnv wfHookJump "hook-jump" [])).executed = [0, 2] ∧
    (iterate demoEnv wfHookJump 2
      (initialState demoEnv wfHookJump "hook-jump" [])).executed ≠ [0, 3] :=
  ⟨by decide, by decide, by decide, by decide, by decide, by decide, by decide, by decide⟩

/-- Witness of C4 (amended): in `wfHookJump` the step run after `A` is the target `C`. -/
theorem C4_hook_jump_witness :
    (iterate demoEnv wfHookJump 2
      (initialState demoEnv wfHookJump "hook-jump" [])).executed = [0, 2] :=
  (C4_hook_jump_lands_on_target demoEnv wfHookJump
    (initialState demoEnv wfHookJump "hook-jump" []) 0 2
    { ID := "A", Content := "echo hi",
      OnSuccess := some { Type_ := "jump_to", Target := "C" } }
    { ID := "C", Content := "echo c" }
    { Type_ := "jump_to", Target := "C" }
    (by decide) rfl rfl rfl rfl rfl rfl (Or.inl ⟨rfl, rfl⟩) rfl rfl).2.2.2.2 rfl

/-- Witness of C5: step `B` of `wfStopOnFailure` fails and its failure hook is `stop`;
the run started at `B` ends completed. -/
theorem C5_stop_witness :
    ∃ final, runLoop demoEnv wfStopOnFailure 2
        (iteration demoEnv wfStopOnFailure
          (initialState demoEnv wfStopOnFailure "deploy" [])) = some final ∧
      final.execution.Status = "completed" ∧ final.executed = [0, 1] := by
  obtain ⟨final, h1, _, h3, h4, _⟩ := (C5_stop_ends_completed demoEnv wfStopOnFailure
    (iteration demoEnv wfStopOnFailure (initialState demoEnv wfStopOnFailure "deploy" []))
    1 { ID := "B", Name := "break", Content := "exit 1",
        OnFailure := some { Type_ := "stop" } }
    rfl rfl rfl rfl
    (Or.inr (Or.inr ⟨by decide, { Type_ := "stop" }, rfl, rfl⟩))).1
  exact ⟨final, h1 2 (le_refl _), h3, h4⟩

theorem demoShell_error_iff (k : Nat) (command : String) :
    (procResult (demoShell k command)).err ≠ none ↔
      (procResult (demoShell k command)).exitCode ≠ 0 := by
  unfold demoShell
  split_ifs <;> simp [procResult]

/-- Witness of C6: the three plain steps of `wfPlain`, the second of which exits with
status 1; the run ends failed. -/
theorem C6_command_only_witness :
    ∃ final, runLoop demoEnv wfPlain 4 (initialState demoEnv wfPlain "plain" []) = some final ∧
      final.execution.Status = "failed" := by
  obtain ⟨final, h1, _, _, h4⟩ := C6_command_only_workflows demoEnv wfPlain
    (initialState demoEnv wfPlain "plain" []) (by decide) (fun _ => rfl)
    demoShell_error_iff rfl rfl rfl rfl
  refine ⟨final, h1 4 (le_refl _), (h4 fun hall => ?_).1⟩
  exact absurd (hall 1 { ID := "B", Content := "exit 1" } rfl) (by decide)

/-- Witness of C9: the run of `wfPlain` has a valid status after two evaluations of the
loop guard. -/
theorem C9_status_witness :
    validStatus (iterate demoEnv wfPlain 2
      (initialState demoEnv wfPlain "plain" [])).execution.Status :=
  ((C9_status_invariant demoEnv "plain" [] wfPlain
    (initialState demoEnv wfPlain "plain" [])
    (fun _ => by show "2024-01-01T00:00:00Z" ≠ ""; decide) rfl).2.2.2.2 2).1

/-- Witness of C10: step `B` of `wfPlain` exits with status 1 and declares no failure
hook; the run is marked failed. -/
theorem C10_step_error_witness :
    (iteration demoEnv wfPlain (iteration demoEnv wfPlain
      (initialState demoEnv wfPlain "plain" []))).execution.Status = "failed" :=
  ((C10_step_error_handling demoEnv wfPlain
    (iteration demoEnv wfPlain (initialState demoEnv wfPlain "plain" []))
    1 { ID := "B", Content := "exit 1" } "exit status 1"
    rfl rfl rfl rfl rfl (by intro a h; cases h)).1 rfl).2.1

/-! ## The execution boundary and sub-workflow steps -/

theorem Execute_error_iff (env : Env) (id : String) (inputs : GoMap) (e : String) :
    Execute env id inputs = Except.error e ↔ env.storeGet id = Except.error e := by
  unfold Execute
  cases h : env.storeGet id with
  | error e' => simp
  | ok wf => simp

theorem stepResult_workflow_ref (env : Env) (wf : Workflow) (s : LoopState) (i : Nat)
    (step : Step) (hty : step.Type_ = "workflow_ref") :
    (stepResult env wf s i step).output = "" ∧ (stepResult env wf s i step).exitCode = 0 ∧
    ((stepResult env wf s i step).err ≠ none ↔
      ∃ e, env.storeGet step.Content = Except.error e) ∧
    (∀ e, env.storeGet step.Content = Except.error e →
      (stepResult env wf s i step).err = some e) := by
  have hne : step.Type_ ≠ "command" := by rw [hty]; decide
  unfold stepResult runStep
  rw [if_neg hne, if_pos hty]
  unfold executeWorkflowStep
  cases h : env.storeGet step.Content with
  | error e' => simp
  | ok w => simp

/-- C11 (as stated, refuted): the only step of `wfMissingRefStop` references a workflow
the repository does not hold and declares no failure hook, so the step returns an error;
its condition `exit_code = 0` with action stop matches, and the run ends completed, not
failed. -/
theorem C11_missing_ref_with_stop_condition_completes :
    demoEnv.storeGet "missing" = Except.error "workflow not found" ∧
    (stepResult demoEnv wfMissingRefStop (initialState demoEnv wfMissingRefStop "parent" []) 0
      { ID := "A", Type_ := "workflow_ref", Content := "missing",
        Conditions := [{ Type_ := "exit_code", Value := "0",
                         Action := { Type_ := "stop" } }] }).err
      = some "workflow not found" ∧
    (wfMissingRefStop.Steps[0]?).map (·.OnFailure) = some none ∧
    ∃ final, runLoop demoEnv wfMissingRefStop 1
        (initialState demoEnv wfMissingRefStop "parent" []) = some final ∧
      final.execution.Status = "completed" ∧ final.execution.Status ≠ "failed" :=
  ⟨rfl, rfl, rfl, _, rfl, by decide, by decide⟩

/-- C11 (amended): `Execute` returns an error (and neither a record nor a goroutine, so
nothing is sent) exactly when the repository lookup fails, with the error of the
lookup, and otherwise the record and the goroutine of the workflow found; a
`workflow_ref` step returns a step error exactly when the lookup of `step.Content`
fails, and then, without `onFailure` and when no condition with action stop matches
(conditions see the output "" and the exit code 0), the parent run ends failed. -/
theorem C11_not_found_at_boundary (env : Env) (wf : Workflow) (s : LoopState) (i : Nat)
    (step : Step)
    (hr : s.returned = false) (hc : s.currentStepIndex = (i : Int))
    (hs : wf.Steps[i]? = some step) (hx : env.cancelled s.polls = false)
    (hty : step.Type_ = "workflow_ref") :
    (∀ id inputs e, Execute env id inputs = Except.error e ↔
      env.storeGet id = Except.error e) ∧
    (∀ id inputs w, env.storeGet id = Except.ok w →
      Execute env id inputs = Except.ok (w, initialState env w id inputs)) ∧
    ((stepResult env wf s i step).err ≠ none ↔
      ∃ e, env.storeGet step.Content = Except.error e) ∧
    ((∃ e, env.storeGet step.Content = Except.error e) → step.OnFailure = none →
      (∀ a, evaluateConditions env step.Conditions "" 0 = some a → a.Type_ ≠ "stop") →
      (iteration env wf s).returned = true ∧
      (iteration env wf s).execution.Status = "failed" ∧
      (iteration env wf s).executed = s.executed ++ [i] ∧
      ∀ fuel, 1 ≤ fuel → runLoop env wf fuel s = some (iteration env wf s)) := by
  have hres := stepResult_workflow_ref env wf s i step hty
  refine ⟨fun id inputs e => Execute_error_iff env id inputs e, fun id inputs w hw => ?_,
    hres.2.2.1, fun ⟨e, he⟩ hnone hno => ?_⟩
  · unfold Execute
    rw [hw]
  · have herr := hres.2.2.2 e he
    have hno' : ∀ a, evaluateConditions env step.Conditions
        (stepResult env wf s i step).output (stepResult env wf s i step).exitCode = some a →
        a.Type_ ≠ "stop" := by
      rw [hres.1, hres.2.1]
      exact hno
    have hfacts := iteration_live_facts env wf s i step hr hc hs hx
    have hns := iteration_no_stop env wf s i step hr hc hs hx hno'
    have hit : iteration env wf s = goReturn (setTerminal env
        (logError env (afterConditions env wf s i step) step.ID ("Step failed: " ++ e))
        "failed") := by
      rw [hns.1]
      unfold resultPhase
      rw [herr, hnone]
    have hret : (iteration env wf s).returned = true := by rw [hit]; rfl
    exact ⟨hret, by rw [hit]; rfl, hfacts.1,
      fun fuel hf => runLoop_of_iterate env wf 1 s hret fuel hf⟩

/-- Witness of C11 (amended): the first step of `wfMissingRef` references an absent
workflow, has no condition and no failure hook; the run ends failed. -/
theorem C11_not_found_witness :
    (iteration demoEnv wfMissingRef
      (initialState demoEnv wfMissingRef "parent" [])).execution.Status = "failed" :=
  ((C11_not_found_at_boundary demoEnv wfMissingRef
    (initialState demoEnv wfMissingRef "parent" []) 0
    { ID := "A", Type_ := "workflow_ref", Content := "missing" }
    rfl rfl rfl rfl rfl).2.2.2 ⟨"workflow not found", rfl⟩ rfl
    (by intro a h; cases h)).2.1

/-! ## The conditions -/

theorem containsChars_iff (sub text : List Char) :
    containsChars sub text = true ↔ sub <:+: text := by
  induction text with
  | nil =>
    rw [containsChars, List.infix_nil]
    exact List.isEmpty_iff
  | cons c cs ih =>
    rw [containsChars, Bool.or_eq_true, ih, List.isPrefixOf_iff_prefix, List.infix_cons_iff]

theorem trimSpace_spec (s : String) :
    ∃ l r : List Char, s.data = l ++ (TrimSpace s).data ++ r ∧
      (∀ c ∈ l, isSpace c = true) ∧ (∀ c ∈ r, isSpace c = true) ∧
      (∀ c, (TrimSpace s).data.head? = some c → isSpace c = false) ∧
      (∀ c, (TrimSpace s).data.getLast? = some c → isSpace c = false) := by
  have h₁ : s.data = s.data.takeWhile isSpace ++ s.data.dropWhile isSpace :=
    (List.takeWhile_append_dropWhile isSpace s.data).symm
  have h₂ : (s.data.dropWhile isSpace).reverse =
      (s.data.dropWhile isSpace).reverse.takeWhile isSpace ++
      (s.data.dropWhile isSpace).reverse.dropWhile isSpace :=
    (List.takeWhile_append_dropWhile isSpace _).symm
  have h₃ : s.data.dropWhile isSpace =
      ((s.data.dropWhile isSpace).reverse.dropWhile isSpace).reverse ++
      ((s.data.dropWhile isSpace).reverse.takeWhile isSpace).reverse := by
    rw [← List.reverse_append, ← h₂, List.reverse_reverse]
  have hlast : ∀ c, (TrimSpace s).data.getLast? = some c → isSpace c = false := by
    intro c hc
    have := List.head?_dropWhile_not isSpace (s.data.dropWhile isSpace).reverse
    simp only [TrimSpace, List.getLast?_reverse] at hc
    rw [hc] at this
    exact this
  have hhead : ∀ c, (TrimSpace s).data.head? = some c → isSpace c = false := by
    intro c hc
    have := List.head?_dropWhile_not isSpace s.data
    have hd : (s.data.dropWhile isSpace).head? = some c := by
      rw [h₃, List.head?_append]
      simp only [TrimSpace] at hc
      rw [hc]
      rfl
    rw [hd] at this
    exact this
  refine ⟨s.data.takeWhile isSpace,
    ((s.data.dropWhile isSpace).reverse.takeWhile isSpace).reverse, ?_,
    fun c hc => List.mem_takeWhile_imp hc,
    fun c hc => List.mem_takeWhile_imp (List.mem_reverse.1 hc), hhead, hlast⟩
  show s.data = _ ++ ((s.data.dropWhile isSpace).reverse.dropWhile isSpace).reverse ++ _
  rw [List.append_assoc, ← h₃]
  exact h₁

theorem conditionMatches_iff (env : Env) (cond : Condition) (output : String)
    (exitCode : Int) :
    conditionMatches env cond output exitCode = true ↔
      conditionHolds env cond output exitCode := by
  unfold conditionMatches conditionHolds
  by_cases h1 : cond.Type_ = "contains"
  · rw [if_pos h1]
    simp [h1, Contains, containsChars_iff]
  · rw [if_neg h1]
    by_cases h2 : cond.Type_ = "equals"
    · rw [if_pos h2]
      simp [h2]
    · rw [if_neg h2]
      by_cases h3 : cond.Type_ = "starts_with"
      · rw [if_pos h3]
        simp [h3, HasPrefix]
      · rw [if_neg h3]
        by_cases h4 : cond.Type_ = "ends_with"
        · rw [if_pos h4]
          simp [h4, HasSuffix]
        · rw [if_neg h4]
          by_cases h5 : cond.Type_ = "regex"
          · rw [if_pos h5]
            cases hre : env.regexMatch cond.Value output with
            | none => simp [h5]
            | some m => cases m <;> simp [h5]
          · rw [if_neg h5]
            by_cases h6 : cond.Type_ = "exit_code"
            · rw [if_pos h6]
              simp [h6]
            · rw [if_neg h6]
              simp [h1, h2, h3, h4, h5, h6]

theorem evaluateConditions_eq_find (env : Env) (conds : List Condition) (output : String)
    (exitCode : Int) :
    evaluateConditions env conds output exitCode =
      (conds.find? (fun c => conditionMatches env c output exitCode)).map (·.Action) := by
  induction conds with
  | nil => rfl
  | cons c rest ih =>
    rw [evaluateConditions, List.find?_cons]
    cases h : conditionMatches env c output exitCode with
    | true => simp
    | false => simp [ih]

theorem evaluateConditions_first (env : Env) (pre : List Condition) (c : Condition)
    (rest : List Condition) (output : String) (exitCode : Int)
    (hpre : ∀ d ∈ pre, conditionMatches env d output exitCode = false)
    (hc : conditionMatches env c output exitCode = true) :
    evaluateConditions env (pre ++ c :: rest) output exitCode = some c.Action := by
  induction pre with
  | nil => simp [evaluateConditions, hc]
  | cons d pre ih =>
    rw [List.cons_append, evaluateConditions, hpre d (List.mem_cons_self _ _)]
    exact ih (fun x hx => hpre x (List.mem_cons_of_mem _ hx))

theorem evaluateConditions_some (env : Env) (conds : List Condition) (output : String)
    (exitCode : Int) (a : StepAction)
    (h : evaluateConditions env conds output exitCode = some a) :
    ∃ pre c rest, conds = pre ++ c :: rest ∧
      (∀ d ∈ pre, conditionMatches env d output exitCode = false) ∧
      conditionMatches env c output exitCode = true ∧ a = c.Action := by
  induction conds with
  | nil => simp [evaluateConditions] at h
  | cons c rest ih =>
    rw [evaluateConditions] at h
    cases hm : conditionMatches env c output exitCode with
    | true =>
      rw [hm] at h
      simp only [if_true, Option.some.injEq] at h
      exact ⟨[], c, rest, rfl, by simp, hm, h.symm⟩
    | false =>
      rw [hm] at h
      simp only [Bool.false_eq_true, if_false] at h
      obtain ⟨pre, c', rest', h1, h2, h3, h4⟩ := ih h
      refine ⟨c :: pre, c', rest', by rw [h1]; rfl, ?_, h3, h4⟩
      intro d hd
      rcases List.mem_cons.1 hd with rfl | hd
      · exact hm
      · exact h2 d hd

/-- C12: `evaluateConditions` returns the action of the first condition, in array
order, whose predicate holds, and no action iff no predicate holds; the predicate the
code computes is the one of the specification (`conditionHolds`: substring, equality
with the trimmed output, leading and trailing part of the trimmed output, decimal exit
code, a regex that compiles and matches; nothing else matches), where the trimmed
output is the output without its leading and trailing white space; the conditions after
the first match do not influence the result. -/
theorem C12_first_matching_condition_wins (env : Env) (conds : List Condition)
    (output : String) (exitCode : Int) :
    (∀ c, conditionMatches env c output exitCode = true ↔
      conditionHolds env c output exitCode) ∧
    (∀ a, evaluateConditions env conds output exitCode = some a ↔
      ∃ pre c rest, conds = pre ++ c :: rest ∧
        (∀ d ∈ pre, ¬ conditionHolds env d output exitCode) ∧
        conditionHolds env c output exitCode ∧ a = c.Action) ∧
    (evaluateConditions env conds output exitCode = none ↔
      ∀ c ∈ conds, ¬ conditionHolds env c output exitCode) ∧
    (∀ pre c rest rest', conds = pre ++ c :: rest →
      (∀ d ∈ pre, ¬ conditionHolds env d output exitCode) →
      conditionHolds env c output exitCode →
      evaluateConditions env (pre ++ c :: rest') output exitCode
        = evaluateConditions env conds output exitCode) ∧
    (∀ c, c.Type_ ∉ ["contains", "equals", "starts_with", "ends_with", "regex", "exit_code"] →
      ¬ conditionHolds env c output exitCode) ∧
    (∀ c, c.Type_ = "regex" → env.regexMatch c.Value output = none →
      ¬ conditionHolds env c output exitCode) ∧
    (∃ l r : List Char, output.data = l ++ (TrimSpace output).data ++ r ∧
      (∀ c ∈ l, isSpace c = true) ∧ (∀ c ∈ r, isSpace c = true) ∧
      (∀ c, (TrimSpace output).data.head? = some c → isSpace c = false) ∧
      (∀ c, (TrimSpace output).data.getLast? = some c → isSpace c = false)) := by
  have hno : ∀ d, ¬ conditionHolds env d output exitCode ↔
      conditionMatches env d output exitCode = false := by
    intro d
    rw [← conditionMatches_iff]
    simp
  have hfirst : ∀ pre c rest, (∀ d ∈ pre, ¬ conditionHolds env d output exitCode) →
      conditionHolds env c output exitCode →
      evaluateConditions env (pre ++ c :: rest) output exitCode = some c.Action :=
    fun pre c rest hpre hc => evaluateConditions_first env pre c rest output exitCode
      (fun d hd => (hno d).1 (hpre d hd)) ((conditionMatches_iff env c output exitCode).2 hc)
  refine ⟨fun c => conditionMatches_iff env c output exitCode, fun a => ⟨fun h => ?_, ?_⟩,
    ⟨fun h c hc hh => ?_, fun h => ?_⟩, ?_, ?_, ?_, trimSpace_spec output⟩
  · obtain ⟨pre, c, rest, h1, h2, h3, h4⟩ := evaluateConditions_some env conds output exitCode a h
    exact ⟨pre, c, rest, h1, fun d hd => (hno d).2 (h2 d hd),
      (conditionMatches_iff env c output exitCode).1 h3, h4⟩
  · rintro ⟨pre, c, rest, h1, h2, h3, h4⟩
    rw [h1, h4]
    exact hfirst pre c rest h2 h3
  · obtain ⟨pre, rest, hsplit⟩ := List.append_of_mem hc
    rw [evaluateConditions_eq_find, Option.map_eq_none', List.find?_eq_none] at h
    exact (h c hc) ((conditionMatches_iff env c output exitCode).2 hh)
  · rw [evaluateConditions_eq_find, Option.map_eq_none', List.find?_eq_none]
    intro c hc
    rw [(hno c).1 (h c hc)]
    simp
  · intro pre c rest rest' hsplit hpre hc
    rw [hsplit, hfirst pre c rest hpre hc, hfirst pre c rest' hpre hc]
  · intro c hc hh
    simp only [List.mem_cons, List.mem_singleton, not_or, List.mem_nil_iff, or_false] at hc
    unfold conditionHolds at hh
    rcases hh with h | h | h | h | h | h
    · exact hc.1 h.1
    · exact hc.2.1 h.1
    · exact hc.2.2.1 h.1
    · exact hc.2.2.2.1 h.1
    · exact hc.2.2.2.2.1 h.1
    · exact hc.2.2.2.2.2 h.1
  · intro c hty hre hh
    unfold conditionHolds at hh
    rcases hh with h | h | h | h | h | h
    · rw [hty] at h; exact absurd h.1 (by decide)
    · rw [hty] at h; exact absurd h.1 (by decide)
    · rw [hty] at h; exact absurd h.1 (by decide)
    · rw [hty] at h; exact absurd h.1 (by decide)
    · rw [hre] at h; exact absurd h.2 (by simp)
    · rw [hty] at h; exact absurd h.1 (by decide)

/-! ## The execution scope is frozen -/

theorem iteration_vars (env : Env) (wf : Workflow) (s : LoopState) :
    (iteration env wf s).execution.Variables = s.execution.Variables := by
  by_cases hr : s.returned = true
  · rw [iteration_returned env wf s hr]
  · have hr' : s.returned = false := by simpa using hr
    by_cases hlen : s.currentStepIndex < (wf.Steps.length : Int)
    · by_cases hneg : s.currentStepIndex < 0
      · unfold iteration
        rw [if_neg hr, if_pos hlen, if_pos hneg]
        rfl
      · obtain ⟨i, hi⟩ : ∃ i : Nat, s.currentStepIndex = (i : Int) :=
          ⟨s.currentStepIndex.toNat, (Int.toNat_of_nonneg (by omega)).symm⟩
        have hlt : i < wf.Steps.length := by omega
        have hs : wf.Steps[i]? = some wf.Steps[i] := List.getElem?_eq_getElem hlt
        by_cases hx : env.cancelled s.polls = true
        · rw [iteration_cancelled env wf s i _ hr' hi hs hx]
          rfl
        · exact (iteration_live_facts env wf s i _ hr' hi hs (by simpa using hx)).2.2
    · rw [iteration_exit env wf s hr' (by omega)]
      rfl

theorem iterate_vars (env : Env) (wf : Workflow) (n : Nat) (s : LoopState) :
    (iterate env wf n s).execution.Variables = s.execution.Variables := by
  induction n generalizing s with
  | zero => rfl
  | succ n ih => rw [iterate, ih, iteration_vars]

/-- C17: the map `execution.Variables` is the merged map computed before the loop at
every evaluation of the loop guard and in the state in which the run ends; a command
step (with its step-local mappings), an inline `execute_step` and a `workflow_ref` step
leave it as it is. -/
theorem C17_variables_frozen (env : Env) (workflowID : String) (inputs : GoMap)
    (wf : Workflow) (s0 : LoopState)
    (hexec : Execute env workflowID inputs = Except.ok (wf, s0)) :
    (∀ n, (iterate env wf n s0).execution.Variables
      = mergeVariables env.globalVars wf.Variables inputs) ∧
    (∀ fuel final, runLoop env wf fuel s0 = some final →
      final.execution.Variables = mergeVariables env.globalVars wf.Variables inputs) ∧
    (∀ s step vars,
      (executeCommandStep env s step vars).1.execution.Variables = s.execution.Variables) ∧
    (∀ s stepID target steps,
      (executeInline env stepID target steps s).execution.Variables
        = s.execution.Variables) ∧
    (∀ s step,
      (executeWorkflowStep env s step).1.execution.Variables = s.execution.Variables) := by
  have hs0 := Execute_ok env workflowID inputs wf s0 hexec
  have h0 : s0.execution.Variables = mergeVariables env.globalVars wf.Variables inputs := by
    rw [hs0]; rfl
  refine ⟨fun n => (iterate_vars env wf n s0).trans h0, fun fuel final hrun => ?_,
    fun s step vars => (frame_executeCommandStep env s step vars).vars,
    fun s stepID target steps => (frame_executeInline env stepID target steps s).1.vars,
    fun s step => (frame_executeWorkflowStep env s step).1.vars⟩
  obtain ⟨_, k, hk⟩ := runLoop_some env wf fuel s0 final hrun
  rw [hk]
  exact (iterate_vars env wf k s0).trans h0

/-- Witness of C17: the run of `wfStopOnFailure` started with the input `ZONE=b`. -/
theorem C17_variables_witness :
    (iterate demoEnv wfStopOnFailure 3
      (initialState demoEnv wfStopOnFailure "deploy" [("ZONE", "b")])).execution.Variables
      = [("ZONE", "b")] :=
  ((C17_variables_frozen demoEnv "deploy" [("ZONE", "b")] wfStopOnFailure
    (initialState demoEnv wfStopOnFailure "deploy" [("ZONE", "b")]) rfl).1 3).trans rfl

/-! ## The variable store -/

theorem cacheLookup_assign (m : VarCache) (k : String) (v : GlobalVariable) (n : String) :
    cacheLookup (cacheAssign m k v) n = if k = n then some v else cacheLookup m n := by
  induction m with
  | nil => simp [cacheAssign, cacheLookup]
  | cons hd tl ih =>
    obtain ⟨k', v'⟩ := hd
    by_cases hk : k' = k
    · subst hk
      by_cases hn : k' = n <;> simp [cacheAssign, cacheLookup, hn]
    · by_cases hn : k' = n
      · subst hn
        simp [cacheAssign, cacheLookup, hk, Ne.symm hk]
      · simp [cacheAssign, cacheLookup, hk, hn, ih]

theorem cacheLookup_none_iff (m : VarCache) (n : String) :
    cacheLookup m n = none ↔ n ∉ m.map Prod.fst := by
  induction m with
  | nil => simp [cacheLookup]
  | cons hd tl ih =>
    obtain ⟨k, v⟩ := hd
    by_cases hk : k = n
    · simp [cacheLookup, hk]
    · simp [cacheLookup, hk, ih, Ne.symm hk]

theorem cacheAssign_keys (m : VarCache) (k : String) (v : GlobalVariable) :
    (cacheAssign m k v).map Prod.fst =
      if k ∈ m.map Prod.fst then m.map Prod.fst else m.map Prod.fst ++ [k] := by
  induction m with
  | nil => simp [cacheAssign]
  | cons hd tl ih =>
    obtain ⟨k', v'⟩ := hd
    by_cases hk : k' = k
    · subst hk
      simp [cacheAssign]
    · have hk' : ¬ k = k' := fun h => hk h.symm
      simp only [cacheAssign, hk, if_false, List.map_cons, ih, List.mem_cons, hk', false_or]
      split <;> simp

theorem cacheAssign_nodup (m : VarCache) (k : String) (v : GlobalVariable)
    (h : (m.map Prod.fst).Nodup) : ((cacheAssign m k v).map Prod.fst).Nodup := by
  rw [cacheAssign_keys]
  split
  · exact h
  · rename_i hk
    exact List.Nodup.append h (List.nodup_singleton k) (by simpa using hk)

theorem getAll_fold (cache : VarCache) (acc : GoMap)
    (hnd : (cache.map Prod.fst).Nodup)
    (hdis : ∀ k ∈ cache.map Prod.fst, k ∉ acc.map Prod.fst) :
    cache.foldl (fun result kv => assign result kv.1 kv.2.Value) acc =
      acc ++ cache.map (fun kv => (kv.1, kv.2.Value)) := by
  induction cache generalizing acc with
  | nil => simp
  | cons hd tl ih =>
    obtain ⟨k, v⟩ := hd
    simp only [List.map_cons, List.nodup_cons] at hnd
    have hk : k ∉ acc.map Prod.fst := hdis k (by simp)
    have hassign : ∀ (a : GoMap), k ∉ a.map Prod.fst → assign a k v.Value = a ++ [(k, v.Value)] := by
      intro a ha
      induction a with
      | nil => rfl
      | cons x xs ihx =>
        obtain ⟨k', v'⟩ := x
        simp only [List.map_cons, List.mem_cons, not_or] at ha
        simp [assign, Ne.symm ha.1, ihx ha.2]
    rw [List.foldl_cons, hassign acc hk, ih _ hnd.2]
    · simp
    · intro k' hk'
      simp only [List.map_append, List.map_cons, List.map_nil, List.mem_append,
        List.mem_singleton, not_or]
      refine ⟨hdis k' (by simp [hk']), ?_⟩
      rintro rfl
      exact hnd.1 hk'

theorem getAll_eq (vs : VariableService) (hnd : (vs.cache.map Prod.fst).Nodup) :
    vs.GetAll = vs.cache.map (fun kv => (kv.1, kv.2.Value)) := by
  unfold VariableService.GetAll
  rw [getAll_fold vs.cache [] hnd (by simp)]
  simp

theorem lookup_map_value (cache : VarCache) (n : String) :
    lookup (cache.map (fun kv => (kv.1, kv.2.Value))) n
      = (cacheLookup cache n).map (·.Value) := by
  induction cache with
  | nil => rfl
  | cons hd tl ih =>
    obtain ⟨k, v⟩ := hd
    by_cases hk : k = n
    · simp [lookup, cacheLookup, hk]
    · simp [lookup, cacheLookup, hk, ih]

theorem set_cache (vs : VariableService) (v : GlobalVariable) (now : Nat)
    (w : Option String) :
    (vs.Set v now w).1.cache = cacheAssign vs.cache v.Name
      { (if v.CreatedAt = 0 then { v with CreatedAt := now } else v) with UpdatedAt := now } := by
  unfold VariableService.Set VariableService.saveCache
  cases w <;> split <;> rfl

theorem set_stamps (vs : VariableService) (v : GlobalVariable) (now : Nat)
    (w : Option String) :
    ∃ r, cacheLookup (vs.Set v now w).1.cache v.Name = some r ∧ r.UpdatedAt = now ∧
      r.Value = v.Value ∧ r.Name = v.Name ∧
      r.CreatedAt = if v.CreatedAt = 0 then now else v.CreatedAt := by
  refine ⟨{ (if v.CreatedAt = 0 then { v with CreatedAt := now } else v) with
    UpdatedAt := now }, ?_, rfl, ?_, ?_, ?_⟩
  · rw [set_cache, cacheLookup_assign]
    simp
  · split <;> rfl
  · split <;> rfl
  · split <;> rfl

/-- C18 (the code at the failing input): the store holds `REGION`, created when the
clock read 5; `Set` is called at time 9 with a record of that name whose `CreatedAt` is
the zero time (a request body without `created_at`). The stored record has
`UpdatedAt = 9`, and its `CreatedAt` is 9 as well: the creation time 5 is lost. The
method with its lock operations has stored this same record in the cache when it blocks
in `saveCache`. -/
theorem C18_set_restamps_createdAt :
    (cacheLookup demoVariables.cache "REGION").map (·.CreatedAt) = some 5 ∧
    (demoVariables.Set { Name := "REGION", Value := "eu-west-1" } 9 none).2 = none ∧
    cacheLookup (demoVariables.Set { Name := "REGION", Value := "eu-west-1" } 9 none).1.cache
      "REGION"
      = some { Name := "REGION", Value := "eu-west-1", CreatedAt := 9, UpdatedAt := 9 } ∧
    (cacheLookup (demoVariables.Set { Name := "REGION", Value := "eu-west-1" } 9 none).1.cache
      "REGION").map (·.CreatedAt) ≠ some 5 ∧
    cacheLookup
      (LockedStore.Set { store := demoVariables, mu := {} }
        { Name := "REGION", Value := "eu-west-1" } 9 none).state.store.cache "REGION"
      = some { Name := "REGION", Value := "eu-west-1", CreatedAt := 9, UpdatedAt := 9 } :=
  ⟨by decide, by decide, by decide, by decide, by decide⟩

theorem set_nodup (vs : VariableService) (v : GlobalVariable) (now : Nat)
    (w : Option String) (h : (vs.cache.map Prod.fst).Nodup) :
    ((vs.Set v now w).1.cache.map Prod.fst).Nodup := by
  rw [set_cache]
  exact cacheAssign_nodup _ _ _ h

/-! ## Placeholders -/

theorem nameChar_not_brace (c : Char) (h : isNameChar c = true) :
    c ≠ lbrace ∧ c ≠ rbrace := by
  constructor
  · rintro rfl
    exact absurd h (by decide)
  · rintro rfl
    exact absurd h (by decide)

theorem nameStart_nameChar (c : Char) (h : isNameStart c = true) : isNameChar c = true := by
  unfold isNameChar
  rw [h]
  rfl

theorem takeWhile_stop {p : Char → Bool} (m : List Char) (r : Char) (x : List Char)
    (hm : ∀ c ∈ m, p c = true) (hr : p r = false) :
    (m ++ r :: x).takeWhile p = m ∧ (m ++ r :: x).dropWhile p = r :: x := by
  induction m with
  | nil => simp [List.takeWhile, List.dropWhile, hr]
  | cons c cs ih =>
    have hc : p c = true := hm c (List.mem_cons_self _ _)
    have := ih (fun d hd => hm d (List.mem_cons_of_mem _ hd))
    simp [List.takeWhile, List.dropWhile, hc, this.1, this.2]

theorem validName_braceFree (n : List Char) (h : validName n = true) : braceFree n := by
  cases n with
  | nil => cases h
  | cons c cs =>
    simp only [validName, Bool.and_eq_true, List.all_eq_true] at h
    have hall : ∀ d ∈ c :: cs, isNameChar d = true := by
      intro d hd
      rcases List.mem_cons.1 hd with rfl | hd
      · exact nameStart_nameChar _ h.1
      · exact h.2 d hd
    exact ⟨fun hm => (nameChar_not_brace _ (hall _ hm)).1 rfl,
      fun hm => (nameChar_not_brace _ (hall _ hm)).2 rfl⟩

theorem placeholderAt_iff (t n : List Char) :
    placeholderAt t = some n ↔ validName n = true ∧ ph n <+: t := by
  constructor
  · intro h
    match t, h with
    | c₀ :: c :: cs, h =>
      simp only [placeholderAt] at h
      split at h
      · rename_i hc
        split at h
        · rename_i d rest hd
          split at h
          · rename_i hdr
            simp only [Option.some.injEq] at h
            subst h
            subst hdr
            refine ⟨?_, ?_⟩
            · simp only [validName, Bool.and_eq_true, List.all_eq_true]
              exact ⟨hc.2, fun x hx => List.mem_takeWhile_imp hx⟩
            · rw [hc.1]
              have hsplit : cs = cs.takeWhile isNameChar ++ rbrace :: rest := by
                rw [← hd, List.takeWhile_append_dropWhile]
              refine ⟨rest, ?_⟩
              show lbrace :: ((c :: cs.takeWhile isNameChar) ++ [rbrace]) ++ rest = _
              conv_rhs => rw [hsplit]
              simp
          · cases h
        · cases h
      · cases h
  · rintro ⟨hv, x, hx⟩
    cases n with
    | nil => cases hv
    | cons c m =>
      simp only [validName, Bool.and_eq_true, List.all_eq_true] at hv
      have ht : t = lbrace :: c :: (m ++ rbrace :: x) := by
        rw [← hx]
        simp [ph]
      have hstop := takeWhile_stop (p := isNameChar) m rbrace x hv.2 (by decide)
      rw [ht]
      simp only [placeholderAt, hv.1, and_self, if_true, hstop.2, hstop.1]

theorem placeholderAt_head (c : Char) (cs : List Char) (h : c ≠ lbrace) :
    placeholderAt (c :: cs) = none := by
  cases cs with
  | nil => rfl
  | cons d ds => simp [placeholderAt, h]

theorem findAllAux_eq (t : List Char) : ∀ k, (∀ c ∈ t.take k, c ≠ lbrace) →
    findAllAux k t = namesByPosition t := by
  induction t with
  | nil => intro k _; cases k <;> rfl
  | cons c cs ih =>
    intro k hk
    cases k with
    | succ k' =>
      have hc : c ≠ lbrace := hk c (by simp)
      rw [findAllAux, namesByPosition, placeholderAt_head c cs hc]
      exact ih k' (fun d hd => hk d (by simp [hd]))
    | zero =>
      rw [findAllAux, namesByPosition]
      cases hp : placeholderAt (c :: cs) with
      | none => exact ih 0 (by simp)
      | some n =>
        simp only []
        congr 1
        apply ih
        obtain ⟨hv, x, hx⟩ := (placeholderAt_iff _ _).1 hp
        have hcs : cs = n ++ rbrace :: x := by
          simp only [ph, List.cons_append, List.append_assoc, List.cons.injEq] at hx
          rw [← hx.2]
          simp
        intro d hd
        rw [hcs] at hd
        have hd' : d ∈ n ++ [rbrace] := by
          have : (n ++ rbrace :: x).take (n.length + 1) = n ++ [rbrace] := by
            rw [List.take_append_eq_append_take]
            simp
          rw [this] at hd
          exact hd
        rcases List.mem_append.1 hd' with h | h
        · rintro rfl
          exact (validName_braceFree n hv).1 h
        · simp only [List.mem_singleton] at h
          rw [h]
          decide

theorem mem_namesByPosition (t n : List Char) :
    n ∈ namesByPosition t ↔ validName n = true ∧ ph n <:+: t := by
  induction t with
  | nil =>
    simp only [namesByPosition, List.not_mem_nil, List.infix_nil, false_iff, not_and]
    intro _ h
    cases h
  | cons c cs ih =>
    rw [namesByPosition, List.infix_cons_iff]
    cases hp : placeholderAt (c :: cs) with
    | none =>
      simp only []
      rw [ih]
      constructor
      · rintro ⟨h1, h2⟩
        exact ⟨h1, Or.inr h2⟩
      · rintro ⟨h1, h2 | h2⟩
        · have := (placeholderAt_iff _ _).2 ⟨h1, h2⟩
          rw [hp] at this
          cases this
        · exact ⟨h1, h2⟩
    | some m =>
      simp only [List.mem_cons]
      rw [ih]
      constructor
      · rintro (rfl | ⟨h1, h2⟩)
        · exact ⟨((placeholderAt_iff _ _).1 hp).1, Or.inl ((placeholderAt_iff _ _).1 hp).2⟩
        · exact ⟨h1, Or.inr h2⟩
      · rintro ⟨h1, h2 | h2⟩
        · have := (placeholderAt_iff _ _).2 ⟨h1, h2⟩
          rw [hp] at this
          cases this
          exact Or.inl rfl
        · exact Or.inr ⟨h1, h2⟩

theorem mem_dedupFirst (l : List String) (x : String) : x ∈ dedupFirst l ↔ x ∈ l := by
  induction l with
  | nil => simp [dedupFirst]
  | cons y ys ih =>
    simp only [dedupFirst, List.mem_cons, List.mem_filter, ih, decide_eq_true_eq]
    by_cases h : x = y
    · simp [h]
    · simp [h]

theorem nodup_dedupFirst (l : List String) : (dedupFirst l).Nodup := by
  induction l with
  | nil => simp [dedupFirst]
  | cons y ys ih =>
    rw [dedupFirst, List.nodup_cons]
    exact ⟨by simp, List.Nodup.filter _ ih⟩

theorem collect_fold (found : List (List Char)) :
    ∀ st : List String × List String, (∀ x, x ∈ st.1 ↔ x ∈ st.2) →
    (found.foldl
      (fun (st : List String × List String) name =>
        if String.mk name ∈ st.1 then st
        else (String.mk name :: st.1, st.2 ++ [String.mk name])) st).2
      = st.2 ++ (dedupFirst (found.map String.mk)).filter (fun y => decide (y ∉ st.2)) := by
  induction found with
  | nil => intro st _; simp [dedupFirst]
  | cons y ys ih =>
    intro st hst
    rw [List.foldl_cons]
    by_cases hy : String.mk y ∈ st.1
    · rw [if_pos hy, ih st hst]
      congr 1
      have hy2 : String.mk y ∈ st.2 := (hst _).1 hy
      simp only [List.map_cons, dedupFirst, List.filter_cons, hy2, not_true_eq_false,
        decide_False, Bool.false_eq_true, if_false, List.filter_filter]
      apply List.filter_congr
      intro x _
      by_cases hx : x ∈ st.2
      · simp [hx]
      · have : x ≠ String.mk y := fun h => hx (h ▸ hy2)
        simp [hx, this]
    · rw [if_neg hy, ih _ (by
        intro x
        simp only [List.mem_cons, List.mem_append, List.mem_singleton, hst x]
        tauto)]
      have hy2 : String.mk y ∉ st.2 := fun h => hy ((hst _).2 h)
      simp only [List.map_cons, dedupFirst, List.filter_cons, hy2, not_false_eq_true,
        decide_True, if_true, List.filter_filter, List.append_assoc, List.singleton_append]
      congr 2
      apply List.filter_congr
      intro x _
      by_cases hx : x ∈ st.2 <;> by_cases hxy : x = String.mk y <;> simp [hx, hxy]

theorem extractVariables_eq (command : String) :
    ExtractVariables command
      = dedupFirst ((namesByPosition command.data).map String.mk) := by
  unfold ExtractVariables collectNames
  rw [collect_fold _ ([], []) (by simp), findAllAux_eq command.data 0 (by simp)]
  simp

theorem placeholder_data (n : String) : (placeholder n).data = ph n.data := by
  simp only [placeholder, ph, String.data_append]
  rfl

theorem mem_extractVariables (command n : String) :
    n ∈ ExtractVariables command ↔
      validName n.data = true ∧ (placeholder n).data <:+: command.data := by
  rw [extractVariables_eq, mem_dedupFirst, placeholder_data, ← mem_namesByPosition,
    List.mem_map]
  constructor
  · rintro ⟨m, hm, rfl⟩
    exact hm
  · intro h
    exact ⟨n.data, h, rfl⟩

theorem firstOccurrence_cons_of_not (p : List Char) (c : Char) (cs : List Char)
    (h : ¬ p <+: c :: cs) : firstOccurrence p (c :: cs) = firstOccurrence p cs + 1 := by
  rw [firstOccurrence, if_neg (by rwa [List.isPrefixOf_iff_prefix])]

theorem firstOccurrence_cons_of_match (p : List Char) (c : Char) (cs : List Char)
    (h : p <+: c :: cs) : firstOccurrence p (c :: cs) = 0 := by
  rw [firstOccurrence, if_pos (by rwa [List.isPrefixOf_iff_prefix])]

theorem order_namesByPosition (t : List Char) :
    (dedupFirst ((namesByPosition t).map String.mk)).Pairwise
      (fun a b => firstOccurrence (ph a.data) t < firstOccurrence (ph b.data) t) := by
  induction t with
  | nil => simp [namesByPosition, dedupFirst]
  | cons c cs ih =>
    have hvalid : ∀ a, a ∈ dedupFirst ((namesByPosition cs).map String.mk) →
        validName a.data = true := by
      intro a ha
      rw [mem_dedupFirst, List.mem_map] at ha
      obtain ⟨m, hm, rfl⟩ := ha
      exact ((mem_namesByPosition cs m).1 hm).1
    rw [namesByPosition]
    cases hp : placeholderAt (c :: cs) with
    | none =>
      simp only []
      refine List.Pairwise.imp_of_mem ?_ ih
      intro a b ha hb hab
      have hna : ¬ ph a.data <+: c :: cs := by
        intro h
        have := (placeholderAt_iff _ _).2 ⟨hvalid a ha, h⟩
        rw [hp] at this
        cases this
      have hnb : ¬ ph b.data <+: c :: cs := by
        intro h
        have := (placeholderAt_iff _ _).2 ⟨hvalid b hb, h⟩
        rw [hp] at this
        cases this
      rw [firstOccurrence_cons_of_not _ _ _ hna, firstOccurrence_cons_of_not _ _ _ hnb]
      omega
    | some n =>
      simp only [List.map_cons, dedupFirst]
      have hn := (placeholderAt_iff _ _).1 hp
      have hother : ∀ b, b ∈ dedupFirst ((namesByPosition cs).map String.mk) →
          b ≠ String.mk n → ¬ ph b.data <+: c :: cs := by
        intro b hb hne h
        have := (placeholderAt_iff _ _).2 ⟨hvalid b hb, h⟩
        rw [hp] at this
        simp only [Option.some.injEq] at this
        exact hne (by rw [this])
      rw [List.pairwise_cons]
      constructor
      · intro b hb
        simp only [List.mem_filter, decide_eq_true_eq] at hb
        rw [firstOccurrence_cons_of_match _ _ _ hn.2,
          firstOccurrence_cons_of_not _ _ _ (hother b hb.1 hb.2)]
        omega
      · refine List.Pairwise.imp_of_mem ?_ (List.Pairwise.filter _ ih)
        intro a b ha hb hab
        simp only [List.mem_filter, decide_eq_true_eq] at ha hb
        rw [firstOccurrence_cons_of_not _ _ _ (hother a ha.1 ha.2),
          firstOccurrence_cons_of_not _ _ _ (hother b hb.1 hb.2)]
        omega

/-- C13: `ExtractVariables(command)` is the deduplication, in order of first appearance,
of the names matched at the successive positions of the command; it holds exactly the
names `N` matching `[A-Z_][A-Z0-9_]*` whose placeholder occurs in the command, each once,
ordered by the position of the first occurrence of the placeholder. On the documented
command the result is `[AMI_ID, INSTANCE_TYPE]`; lowercase names and empty braces yield
nothing. -/
theorem C13_extract_variables (command : String) :
    ExtractVariables command
      = dedupFirst ((namesByPosition command.data).map String.mk) ∧
    (∀ n, n ∈ ExtractVariables command ↔
      validName n.data = true ∧ (placeholder n).data <:+: command.data) ∧
    (ExtractVariables command).Nodup ∧
    (ExtractVariables command).Pairwise
      (fun a b => firstOccurrence (placeholder a).data command.data
        < firstOccurrence (placeholder b).data command.data) ∧
    ExtractVariables
      "aws ec2 run-instances --image-id \x7bAMI_ID\x7d --instance-type \x7bINSTANCE_TYPE\x7d"
      = ["AMI_ID", "INSTANCE_TYPE"] ∧
    ExtractVariables "echo \x7bfoo\x7d \x7bami_id\x7d \x7b\x7d \x7b1A\x7d" = [] ∧
    ExtractVariables "\x7bB\x7d \x7bA\x7d \x7bB\x7d \x7bA\x7bC_1\x7d" = ["B", "A", "C_1"] := by
  refine ⟨extractVariables_eq command, fun n => mem_extractVariables command n, ?_, ?_,
    by decide, by decide, by decide⟩
  · rw [extractVariables_eq]
    exact nodup_dedupFirst _
  · rw [extractVariables_eq]
    have := order_namesByPosition command.data
    refine List.Pairwise.imp ?_ this
    intro a b hab
    rw [placeholder_data, placeholder_data]
    exact hab

/-! ## One `strings.ReplaceAll` of a placeholder -/

theorem replaceAllAux_skip (old new p t : List Char) :
    replaceAllAux old new p.length (p ++ t) = replaceAllAux old new 0 t := by
  induction p with
  | nil => rfl
  | cons c cs ih => exact ih

theorem replaceAllAux_match (old new t : List Char) (h : old ≠ []) :
    replaceAllAux old new 0 (old ++ t) = new ++ replaceAllAux old new 0 t := by
  cases old with
  | nil => exact absurd rfl h
  | cons c cs =>
    rw [List.cons_append, replaceAllAux, if_pos (by simp)]
    congr 1
    exact replaceAllAux_skip (c :: cs) new cs t

theorem replaceAllAux_step (old new : List Char) (c : Char) (t : List Char)
    (h : ¬ old <+: c :: t) :
    replaceAllAux old new 0 (c :: t) = c :: replaceAllAux old new 0 t := by
  rw [replaceAllAux, if_neg (by rwa [List.isPrefixOf_iff_prefix])]

theorem ph_not_prefix_of_head (k : List Char) (c : Char) (t : List Char) (h : c ≠ lbrace) :
    ¬ ph k <+: c :: t := by
  intro hp
  rw [ph, List.cons_prefix_cons] at hp
  exact h hp.1.symm

theorem replaceAllAux_pass (k new p t : List Char) (hp : lbrace ∉ p) :
    replaceAllAux (ph k) new 0 (p ++ t) = p ++ replaceAllAux (ph k) new 0 t := by
  induction p with
  | nil => rfl
  | cons c cs ih =>
    simp only [List.mem_cons, not_or] at hp
    rw [List.cons_append, replaceAllAux_step _ _ _ _
      (ph_not_prefix_of_head k c _ (Ne.symm hp.1)), ih hp.2]
    rfl

theorem replaceAllAux_nil (old new : List Char) : replaceAllAux old new 0 [] = [] := rfl

theorem replaceAllAux_id (k new p : List Char) (hp : lbrace ∉ p) :
    replaceAllAux (ph k) new 0 p = p := by
  have := replaceAllAux_pass k new p [] hp
  simpa [replaceAllAux_nil] using this

/-- Case analysis along the scan of `ReplaceAll`: the text is empty, or starts with the
placeholder, or starts with a character at which the placeholder does not stand. -/
theorem scan_induction (k : List Char) (P : List Char → Prop)
    (hnil : P [])
    (hmatch : ∀ t, P t → P (ph k ++ t))
    (hstep : ∀ c t, ¬ ph k <+: c :: t → P t → P (c :: t)) :
    ∀ t, P t := by
  suffices h : ∀ n (t : List Char), t.length = n → P t from fun t => h t.length t rfl
  intro n
  induction n using Nat.strong_induction_on with
  | _ n ih =>
    intro t hlen
    cases t with
    | nil => exact hnil
    | cons c cs =>
      by_cases hp : ph k <+: c :: cs
      · obtain ⟨x, hx⟩ := hp
        rw [← hx]
        apply hmatch
        apply ih x.length _ x rfl
        rw [← hlen, ← hx]
        simp only [ph, List.cons_append, List.length_cons, List.length_append]
        omega
      · apply hstep c cs hp
        apply ih cs.length _ cs rfl
        rw [← hlen]
        simp

theorem name_close_leading (n u x : List Char) (hn : rbrace ∉ n) (hu : rbrace ∉ u) :
    n ++ [rbrace] <+: u ++ rbrace :: x ↔ n = u := by
  induction n generalizing u with
  | nil =>
    cases u with
    | nil => simp
    | cons d ds =>
      simp only [List.mem_cons, not_or] at hu
      simp only [List.nil_append, List.cons_append, List.cons_prefix_cons]
      constructor
      · rintro ⟨h, _⟩
        exact absurd h hu.1
      · intro h
        cases h
  | cons c cs ih =>
    simp only [List.mem_cons, not_or] at hn
    cases u with
    | nil =>
      simp only [List.cons_append, List.nil_append, List.cons_prefix_cons]
      constructor
      · rintro ⟨h, _⟩
        exact absurd h.symm hn.1
      · intro h
        cases h
    | cons d ds =>
      simp only [List.mem_cons, not_or] at hu
      simp only [List.cons_append, List.cons_prefix_cons, List.cons.injEq]
      rw [ih ds hn.2 hu.2]

theorem ph_prefix_iff (n k x : List Char) (hn : rbrace ∉ n) (hk : rbrace ∉ k) :
    ph n <+: ph k ++ x ↔ n = k := by
  rw [ph, ph, List.cons_append, List.cons_prefix_cons, List.append_assoc]
  simp only [true_and, List.singleton_append]
  exact name_close_leading n k x hn hk

theorem countOccurrences_append_ge (p a x : List Char) :
    countOccurrences p x ≤ countOccurrences p (a ++ x) := by
  induction a with
  | nil => exact le_refl _
  | cons c cs ih =>
    rw [List.cons_append, countOccurrences]
    omega

theorem countOccurrences_pass (n q x : List Char) (hq : lbrace ∉ q) :
    countOccurrences (ph n) (q ++ x) = countOccurrences (ph n) x := by
  induction q with
  | nil => rfl
  | cons c cs ih =>
    simp only [List.mem_cons, not_or] at hq
    rw [List.cons_append, countOccurrences, ih hq.2,
      if_neg (by
        rw [List.isPrefixOf_iff_prefix]
        exact ph_not_prefix_of_head n c _ (Ne.symm hq.1))]
    omega

theorem countOccurrences_pos_iff (p t : List Char) (hp : p ≠ []) :
    0 < countOccurrences p t ↔ p <:+: t := by
  induction t with
  | nil =>
    simp only [countOccurrences, List.infix_nil, Nat.lt_irrefl, false_iff]
    exact hp
  | cons c cs ih =>
    rw [countOccurrences, List.infix_cons_iff, ← ih, ← List.isPrefixOf_iff_prefix]
    by_cases h : p.isPrefixOf (c :: cs) = true
    · simp [h]
    · simp [h]

theorem replaceAll_placeholder (s k v : String) :
    (ReplaceAll s ("\x7b" ++ k ++ "\x7d") v).data
      = replaceAllAux (ph k.data) v.data 0 s.data := by
  have hd : ("\x7b" ++ k ++ "\x7d").data = ph k.data := placeholder_data k
  unfold ReplaceAll
  rw [hd, if_neg (by simp [ph])]

theorem substitute_data (vals : GoMap) (command : String) :
    (SubstituteVariables command vals).data = substituteChars vals command.data := by
  induction vals generalizing command with
  | nil => rfl
  | cons kv rest ih =>
    unfold SubstituteVariables substituteChars at ih ⊢
    rw [List.foldl_cons, List.foldl_cons, ih, replaceAll_placeholder]

theorem occurrences_kept_step (n k v : List Char) (hn : braceFree n) (hk : braceFree k)
    (hne : n ≠ k) (t : List Char) :
    countOccurrences (ph n) t ≤ countOccurrences (ph n) (replaceAllAux (ph k) v 0 t) := by
  refine scan_induction k
    (fun t => countOccurrences (ph n) t
      ≤ countOccurrences (ph n) (replaceAllAux (ph k) v 0 t)) ?_ ?_ ?_ t
  · exact le_refl _
  · intro t ih
    rw [replaceAllAux_match _ _ _ (by simp [ph])]
    have h1 : countOccurrences (ph n) (ph k ++ t) = countOccurrences (ph n) t := by
      have hnot : ¬ ph n <+: ph k ++ t := fun h => hne ((ph_prefix_iff n k t hn.2 hk.2).1 h)
      have hsplit : ph k ++ t = lbrace :: ((k ++ [rbrace]) ++ t) := by simp [ph]
      rw [hsplit, countOccurrences, ← hsplit,
        if_neg (by rwa [List.isPrefixOf_iff_prefix]),
        countOccurrences_pass n (k ++ [rbrace]) t (by
          simp only [List.mem_append, List.mem_singleton, not_or]
          exact ⟨hk.1, by decide⟩)]
      omega
    rw [h1]
    exact le_trans ih (countOccurrences_append_ge _ _ _)
  · intro c t hnot ih
    rw [replaceAllAux_step _ _ _ _ hnot, countOccurrences, countOccurrences]
    have himp : ph n <+: c :: t → ph n <+: c :: replaceAllAux (ph k) v 0 t := by
      intro hp
      obtain ⟨x, hx⟩ := hp
      have hc : c = lbrace ∧ t = (n ++ [rbrace]) ++ x := by
        simp only [ph, List.cons_append, List.cons.injEq] at hx
        exact ⟨hx.1.symm, by rw [← hx.2]⟩
      rw [hc.1, hc.2, replaceAllAux_pass k v (n ++ [rbrace]) x (by
        simp only [List.mem_append, List.mem_singleton, not_or]
        exact ⟨hn.1, by decide⟩)]
      exact ⟨replaceAllAux (ph k) v 0 x, by simp [ph]⟩
    by_cases hp : ph n <+: c :: t
    · rw [if_pos (by rwa [List.isPrefixOf_iff_prefix]),
        if_pos (by rw [List.isPrefixOf_iff_prefix]; exact himp hp)]
      omega
    · rw [if_neg (by rwa [List.isPrefixOf_iff_prefix])]
      omega

theorem lookup_none_not_key (vals : GoMap) (n : String) (h : lookup vals n = none) :
    ∀ kv ∈ vals, kv.1 ≠ n := by
  induction vals with
  | nil => simp
  | cons hd tl ih =>
    obtain ⟨k, v⟩ := hd
    by_cases hk : k = n
    · simp [lookup, hk] at h
    · simp only [lookup, hk, if_false] at h
      intro kv hkv
      rcases List.mem_cons.1 hkv with rfl | hkv
      · exact hk
      · exact ih h kv hkv

theorem occurrences_kept (n : List Char) (hn : braceFree n) (vals : GoMap)
    (hkeys : ∀ kv ∈ vals, braceFree kv.1.data) (hne : ∀ kv ∈ vals, kv.1.data ≠ n)
    (t : List Char) :
    countOccurrences (ph n) t ≤ countOccurrences (ph n) (substituteChars vals t) := by
  induction vals generalizing t with
  | nil => exact le_refl _
  | cons kv rest ih =>
    unfold substituteChars at ih ⊢
    rw [List.foldl_cons]
    refine le_trans (occurrences_kept_step n kv.1.data kv.2.data hn
      (hkeys kv (List.mem_cons_self _ _)) (fun h => hne kv (List.mem_cons_self _ _) h.symm) t)
      (ih (fun x hx => hkeys x (List.mem_cons_of_mem _ hx))
        (fun x hx => hne x (List.mem_cons_of_mem _ hx)) _)

/-- C16 (as stated, refuted): the command `{A}}` holds the placeholder of `A`, and `A`
is not a key of the map whose only key is `A}`; the substitution replaces the whole
command by `x`, so the placeholder of `A` does not survive. -/
theorem C16_brace_key_destroys_placeholder :
    "A" ∈ ExtractVariables "\x7bA\x7d\x7d" ∧
    lookup [("A\x7d", "x")] "A" = none ∧
    SubstituteVariables "\x7bA\x7d\x7d" [("A\x7d", "x")] = "x" ∧
    "A" ∉ ExtractVariables (SubstituteVariables "\x7bA\x7d\x7d" [("A\x7d", "x")]) ∧
    countOccurrences (placeholder "A").data
      (SubstituteVariables "\x7bA\x7d\x7d" [("A\x7d", "x")]).data = 0 :=
  ⟨by decide, by decide, by decide, by decide, by decide⟩

/-- C16 (amended): for every command, every values map whose keys hold no brace, and
every name of `ExtractVariables(command)` that is not a key, the placeholder of the name
occurs in the substituted command at least as often as in the command, so the name is
in `ExtractVariables` of the result; the function is total, no error is raised. -/
theorem C16_unresolved_placeholders_survive (command : String) (vals : GoMap) (n : String)
    (hkeys : ∀ kv ∈ vals, braceFree kv.1.data)
    (hn : n ∈ ExtractVariables command) (hnot : lookup vals n = none) :
    1 ≤ countOccurrences (placeholder n).data command.data ∧
    countOccurrences (placeholder n).data command.data
      ≤ countOccurrences (placeholder n).data (SubstituteVariables command vals).data ∧
    n ∈ ExtractVariables (SubstituteVariables command vals) := by
  obtain ⟨hv, hocc⟩ := (mem_extractVariables command n).1 hn
  have hbf := validName_braceFree n.data hv
  have hne : ∀ kv ∈ vals, kv.1.data ≠ n.data := by
    intro kv hkv h
    apply lookup_none_not_key vals n hnot kv hkv
    cases hk : kv.1
    cases hn' : n
    rw [hk, hn'] at h
    simp only at h
    rw [h]
  have hge := occurrences_kept n.data hbf vals hkeys hne command.data
  rw [placeholder_data] at hocc ⊢
  rw [substitute_data]
  have hpos := (countOccurrences_pos_iff (ph n.data) command.data (by simp [ph])).2 hocc
  refine ⟨hpos, hge, ?_⟩
  rw [mem_extractVariables, placeholder_data, substitute_data]
  exact ⟨hv, (countOccurrences_pos_iff _ _ (by simp [ph])).1 (lt_of_lt_of_le hpos hge)⟩

/-- Witness of C16 (amended): `ZONE` has no value in the map that resolves `REGION`. -/
theorem C16_unresolved_witness :
    "ZONE" ∈ ExtractVariables
      (SubstituteVariables "deploy \x7bREGION\x7d \x7bZONE\x7d" [("REGION", "us-east-1")]) :=
  (C16_unresolved_placeholders_survive "deploy \x7bREGION\x7d \x7bZONE\x7d"
    [("REGION", "us-east-1")] "ZONE" (by decide) (by decide) (by decide)).2.2

/-! ## Commands whose braces are not nested -/

theorem flat_weaken (x : List Char) (h : flatFrom true x = true) :
    flatFrom false x = true := by
  induction x with
  | nil => rfl
  | cons c cs ih =>
    rw [flatFrom] at h ⊢
    by_cases hl : c = lbrace
    · rw [if_pos hl] at h
      simp at h
    · rw [if_neg hl] at h ⊢
      by_cases hr : c = rbrace
      · rw [if_pos hr] at h ⊢
        exact h
      · rw [if_neg hr] at h ⊢
        exact ih h

theorem flat_tail (b : Bool) (c : Char) (x : List Char) (h : flatFrom b (c :: x) = true) :
    flatFrom false x = true := by
  rw [flatFrom] at h
  by_cases hl : c = lbrace
  · rw [if_pos hl] at h
    simp only [Bool.and_eq_true] at h
    exact flat_weaken x h.2
  · rw [if_neg hl] at h
    by_cases hr : c = rbrace
    · rw [if_pos hr] at h
      exact h
    · rw [if_neg hr] at h
      cases b
      · exact h
      · exact flat_weaken x h

theorem flat_suffix (p x : List Char) (b : Bool) (h : flatFrom b (p ++ x) = true) :
    flatFrom false x = true := by
  induction p generalizing b with
  | nil =>
    cases b
    · exact h
    · exact flat_weaken x h
  | cons c cs ih => exact ih false (flat_tail b c _ h)

theorem flat_pass (v x : List Char) (b : Bool) (hv : braceFree v) :
    flatFrom b (v ++ x) = flatFrom b x := by
  induction v with
  | nil => rfl
  | cons c cs ih =>
    have hl : c ≠ lbrace := fun h => hv.1 (by simp [h])
    have hr : c ≠ rbrace := fun h => hv.2 (by simp [h])
    rw [List.cons_append, flatFrom, if_neg hl, if_neg hr]
    exact ih ⟨fun h => hv.1 (List.mem_cons_of_mem _ h), fun h => hv.2 (List.mem_cons_of_mem _ h)⟩

theorem flat_open (b : Bool) (t : List Char) (h : flatFrom b (lbrace :: t) = true) :
    b = false ∧ flatFrom true t = true := by
  rw [flatFrom, if_pos rfl] at h
  simp only [Bool.and_eq_true, Bool.not_eq_true'] at h
  exact h

theorem flat_decomp (t : List Char) (h : flatFrom true t = true) :
    braceFree t ∨ ∃ u x, t = u ++ rbrace :: x ∧ braceFree u := by
  induction t with
  | nil => exact Or.inl ⟨by simp, by simp⟩
  | cons c cs ih =>
    rw [flatFrom] at h
    by_cases hl : c = lbrace
    · rw [if_pos hl] at h
      simp at h
    · rw [if_neg hl] at h
      by_cases hr : c = rbrace
      · exact Or.inr ⟨[], cs, by rw [hr]; rfl, by simp, by simp⟩
      · rw [if_neg hr] at h
        rcases ih h with hbf | ⟨u, x, hux, hu⟩
        · left
          exact ⟨by simp [Ne.symm hl, hbf.1], by simp [Ne.symm hr, hbf.2]⟩
        · right
          refine ⟨c :: u, x, by rw [hux]; rfl, ?_, ?_⟩
          · simp [Ne.symm hl, hu.1]
          · simp [Ne.symm hr, hu.2]

theorem flat_replace (k v : List Char) (hv : braceFree v) (t : List Char) :
    ∀ b, flatFrom b t = true → flatFrom b (replaceAllAux (ph k) v 0 t) = true := by
  refine scan_induction k
    (fun t => ∀ b, flatFrom b t = true → flatFrom b (replaceAllAux (ph k) v 0 t) = true)
    ?_ ?_ ?_ t
  · intro b _
    rfl
  · intro t ih b hb
    rw [replaceAllAux_match _ _ _ (by simp [ph]), flat_pass v _ b hv]
    have hopen := flat_open b ((k ++ [rbrace]) ++ t) (by simpa [ph] using hb)
    rw [hopen.1]
    exact ih false (flat_suffix (ph k) t b hb)
  · intro c t hnot ih b hb
    rw [replaceAllAux_step _ _ _ _ hnot]
    rw [flatFrom] at hb ⊢
    by_cases hl : c = lbrace
    · rw [if_pos hl] at hb ⊢
      simp only [Bool.and_eq_true] at hb ⊢
      exact ⟨hb.1, ih true hb.2⟩
    · rw [if_neg hl] at hb ⊢
      by_cases hr : c = rbrace
      · rw [if_pos hr] at hb ⊢
        exact ih false hb
      · rw [if_neg hr] at hb ⊢
        exact ih b hb

theorem infix_pass (n v x : List Char) (hv : lbrace ∉ v) (h : ph n <:+: v ++ x) :
    ph n <:+: x := by
  induction v with
  | nil => exact h
  | cons c cs ih =>
    simp only [List.mem_cons, not_or] at hv
    rw [List.cons_append, List.infix_cons_iff] at h
    rcases h with h | h
    · exact absurd h (ph_not_prefix_of_head n c _ (Ne.symm hv.1))
    · exact ih hv.2 h

theorem infix_append_left (p l t : List Char) (h : l <:+: t) : l <:+: p ++ t := by
  obtain ⟨a, b, hab⟩ := h
  exact ⟨p ++ a, b, by rw [← hab]; simp⟩

theorem no_new_placeholder_step (n k v : List Char) (hn : braceFree n) (hv : braceFree v)
    (t : List Char) :
    ∀ b, flatFrom b t = true → ph n <:+: replaceAllAux (ph k) v 0 t →
      ph n <:+: t ∧ n ≠ k := by
  refine scan_induction k
    (fun t => ∀ b, flatFrom b t = true → ph n <:+: replaceAllAux (ph k) v 0 t →
      ph n <:+: t ∧ n ≠ k) ?_ ?_ ?_ t
  · intro b _ h
    rw [replaceAllAux_nil, List.infix_nil] at h
    simp [ph] at h
  · intro t ih b hb h
    rw [replaceAllAux_match _ _ _ (by simp [ph])] at h
    obtain ⟨h1, h2⟩ := ih false (flat_suffix (ph k) t b hb) (infix_pass n v _ hv.1 h)
    exact ⟨infix_append_left _ _ _ h1, h2⟩
  · intro c t hnot ih b hb h
    rw [replaceAllAux_step _ _ _ _ hnot, List.infix_cons_iff] at h
    rcases h with h | h
    · have hc : c = lbrace := by
        by_contra hc
        exact ph_not_prefix_of_head n c _ hc h
      subst hc
      have hpre : n ++ [rbrace] <+: replaceAllAux (ph k) v 0 t := by
        rw [ph, List.cons_prefix_cons] at h
        exact h.2
      rcases flat_decomp t (flat_open b t hb).2 with hbf | ⟨u, x, hux, hu⟩
      · rw [replaceAllAux_id k v t hbf.1] at hpre
        obtain ⟨y, hy⟩ := hpre
        exact absurd (by rw [← hy]; simp) hbf.2
      · have hR : replaceAllAux (ph k) v 0 t = u ++ rbrace :: replaceAllAux (ph k) v 0 x := by
          rw [hux]
          have := replaceAllAux_pass k v (u ++ [rbrace]) x (by
            simp only [List.mem_append, List.mem_singleton, not_or]
            exact ⟨hu.1, by decide⟩)
          simpa using this
        rw [hR] at hpre
        have hnu : n = u := (name_close_leading n u _ hn.2 hu.2).1 hpre
        have hpt : ph n <+: lbrace :: t := ⟨x, by rw [hux, hnu]; simp [ph]⟩
        refine ⟨List.infix_cons_iff.2 (Or.inl hpt), ?_⟩
        rintro rfl
        exact hnot hpt
    · obtain ⟨h1, h2⟩ := ih false (flat_tail b c t hb) h
      exact ⟨List.infix_cons_iff.2 (Or.inr h1), h2⟩

theorem flat_substitute (vals : GoMap) (hvals : ∀ kv ∈ vals, braceFree kv.2.data)
    (t : List Char) (b : Bool) (hb : flatFrom b t = true) :
    flatFrom b (substituteChars vals t) = true := by
  induction vals generalizing t with
  | nil => exact hb
  | cons kv rest ih =>
    unfold substituteChars at ih ⊢
    rw [List.foldl_cons]
    exact ih (fun x hx => hvals x (List.mem_cons_of_mem _ hx)) _
      (flat_replace kv.1.data kv.2.data (hvals kv (List.mem_cons_self _ _)) t b hb)

theorem no_new_placeholder (n : List Char) (hn : braceFree n) (vals : GoMap)
    (hvals : ∀ kv ∈ vals, braceFree kv.2.data) (t : List Char) (b : Bool)
    (hb : flatFrom b t = true) (h : ph n <:+: substituteChars vals t) :
    ph n <:+: t ∧ ∀ kv ∈ vals, kv.1.data ≠ n := by
  induction vals generalizing t with
  | nil => exact ⟨h, by simp⟩
  | cons kv rest ih =>
    unfold substituteChars at ih h
    rw [List.foldl_cons] at h
    have hv := hvals kv (List.mem_cons_self _ _)
    obtain ⟨h1, h2⟩ := ih (fun x hx => hvals x (List.mem_cons_of_mem _ hx)) _
      (flat_replace kv.1.data kv.2.data hv t b hb) h
    obtain ⟨h3, h4⟩ := no_new_placeholder_step n kv.1.data kv.2.data hn hv t b hb h1
    refine ⟨h3, ?_⟩
    intro x hx
    rcases List.mem_cons.1 hx with rfl | hx
    · exact fun h => h4 h.symm
    · exact h2 x hx

theorem lookup_some_key (vals : GoMap) (n : String) (h : lookup vals n ≠ none) :
    ∃ kv ∈ vals, kv.1 = n := by
  induction vals with
  | nil => exact absurd rfl h
  | cons hd tl ih =>
    obtain ⟨k, v⟩ := hd
    by_cases hk : k = n
    · exact ⟨(k, v), List.mem_cons_self _ _, hk⟩
    · simp only [lookup, hk, if_false] at h
      obtain ⟨kv, hkv, hkn⟩ := ih h
      exact ⟨kv, List.mem_cons_of_mem _ hkv, hkn⟩

/-- C15 (as stated, refuted): in both cases every extracted name is a key of the map
(`ValidateCommand` is empty), and the substituted command still holds a placeholder. In
the first the value of `A` is itself a placeholder; in the second the value holds no
brace, and the braces around the placeholder of `A` close around it. -/
theorem C15_round_trip_leaves_placeholder :
    (ExtractVariables "\x7bA\x7d" = ["A"] ∧
      ValidateCommand "\x7bA\x7d" [("A", "\x7bB\x7d")] = [] ∧
      ExtractVariables (SubstituteVariables "\x7bA\x7d" [("A", "\x7bB\x7d")]) = ["B"]) ∧
    (ExtractVariables "\x7b\x7bA\x7d\x7d" = ["A"] ∧
      ValidateCommand "\x7b\x7bA\x7d\x7d" [("A", "B")] = [] ∧
      SubstituteVariables "\x7b\x7bA\x7d\x7d" [("A", "B")] = "\x7bB\x7d" ∧
      ExtractVariables (SubstituteVariables "\x7b\x7bA\x7d\x7d" [("A", "B")]) = ["B"]) :=
  ⟨⟨by decide, by decide, by decide⟩, by decide, by decide, by decide, by decide⟩

/-- C15 (amended): for every command whose braces are not nested (no opening brace is
followed by another opening brace before the next closing brace) and every values map
whose values hold no brace, if every name of `ExtractVariables(command)` is a key of the
map, then `ExtractVariables` of the substituted command is empty; the condition on the
names is the same as `ValidateCommand(command, values)` being empty. -/
theorem C15_round_trip_no_placeholder_left (command : String) (vals : GoMap)
    (hflat : flatBraces command = true)
    (hvals : ∀ kv ∈ vals, braceFree kv.2.data)
    (hall : ∀ n ∈ ExtractVariables command, lookup vals n ≠ none) :
    ExtractVariables (SubstituteVariables command vals) = [] ∧
    (ValidateCommand command vals = [] ↔
      ∀ n ∈ ExtractVariables command, lookup vals n ≠ none) := by
  constructor
  · rw [List.eq_nil_iff_forall_not_mem]
    intro n hn
    rw [mem_extractVariables, placeholder_data, substitute_data] at hn
    obtain ⟨h1, h2⟩ := no_new_placeholder n.data (validName_braceFree _ hn.1) vals hvals
      command.data false hflat hn.2
    have hin : n ∈ ExtractVariables command := by
      rw [mem_extractVariables, placeholder_data]
      exact ⟨hn.1, h1⟩
    obtain ⟨kv, hkv, hkn⟩ := lookup_some_key vals n (hall n hin)
    exact h2 kv hkv (by rw [hkn])
  · unfold ValidateCommand
    rw [List.filter_eq_nil_iff]
    constructor
    · intro h n hn hnone
      exact h n hn (by rw [hnone]; rfl)
    · intro h n hn hnone
      apply h n hn
      cases hl : lookup vals n with
      | none => rfl
      | some x => rw [hl] at hnone; cases hnone

/-- Witness of C15 (amended): both placeholders of the command have a value. -/
theorem C15_round_trip_witness :
    ExtractVariables (SubstituteVariables "deploy \x7bREGION\x7d \x7bZONE\x7d"
      [("REGION", "us-east-1"), ("ZONE", "a")]) = [] :=
  (C15_round_trip_no_placeholder_left "deploy \x7bREGION\x7d \x7bZONE\x7d"
    [("REGION", "us-east-1"), ("ZONE", "a")] (by decide) (by decide) (by decide)).1

/-! ## Sequential and simultaneous substitution -/

theorem simultaneousAux_skip (vals : GoMap) (p t : List Char) :
    simultaneousAux vals p.length (p ++ t) = simultaneousAux vals 0 t := by
  induction p with
  | nil => rfl
  | cons c cs ih => exact ih

theorem simultaneousAux_match (vals : GoMap) (kv : String × String) (x : List Char)
    (h : matchingEntry vals (ph kv.1.data ++ x) = some kv) :
    simultaneousAux vals 0 (ph kv.1.data ++ x)
      = kv.2.data ++ simultaneousAux vals 0 x := by
  have hsplit : ph kv.1.data ++ x = lbrace :: ((kv.1.data ++ [rbrace]) ++ x) := by simp [ph]
  rw [hsplit] at h ⊢
  rw [simultaneousAux, h]
  simp only []
  congr 1
  have := simultaneousAux_skip vals (kv.1.data ++ [rbrace]) x
  simpa using this

theorem simultaneousAux_step (vals : GoMap) (c : Char) (t : List Char)
    (h : matchingEntry vals (c :: t) = none) :
    simultaneousAux vals 0 (c :: t) = c :: simultaneousAux vals 0 t := by
  rw [simultaneousAux, h]

theorem matchingEntry_head (vals : GoMap) (c : Char) (t : List Char) (h : c ≠ lbrace) :
    matchingEntry vals (c :: t) = none := by
  unfold matchingEntry
  rw [List.find?_eq_none]
  intro kv _ hp
  rw [List.isPrefixOf_iff_prefix] at hp
  exact ph_not_prefix_of_head _ c t h hp

theorem matchingEntry_open (vals : GoMap) (t : List Char) (h : rbrace ∉ t) :
    matchingEntry vals (lbrace :: t) = none := by
  unfold matchingEntry
  rw [List.find?_eq_none]
  intro kv _ hp
  rw [List.isPrefixOf_iff_prefix] at hp
  obtain ⟨y, hy⟩ := hp
  apply h
  simp only [ph, List.cons_append, List.cons.injEq, true_and] at hy
  rw [← hy]
  simp

theorem matchingEntry_ph (vals : GoMap) (u y : List Char)
    (hkeys : ∀ kv ∈ vals, rbrace ∉ kv.1.data) (hu : rbrace ∉ u) :
    matchingEntry vals (ph u ++ y) = vals.find? (fun kv => decide (kv.1.data = u)) := by
  unfold matchingEntry
  induction vals with
  | nil => rfl
  | cons kv rest ih =>
    have hiff := ph_prefix_iff kv.1.data u y (hkeys kv (List.mem_cons_self _ _)) hu
    rw [List.find?_cons, List.find?_cons]
    by_cases hk : kv.1.data = u
    · rw [(List.isPrefixOf_iff_prefix).2 (hiff.2 hk)]
      simp [hk]
    · have : (ph kv.1.data).isPrefixOf (ph u ++ y) = false := by
        rw [Bool.eq_false_iff]
        intro h
        exact hk (hiff.1 ((List.isPrefixOf_iff_prefix).1 h))
      rw [this]
      simp only [hk, decide_False]
      exact ih (fun x hx => hkeys x (List.mem_cons_of_mem _ hx))

theorem simultaneousAux_pass (vals : GoMap) (p y : List Char) (hp : lbrace ∉ p) :
    simultaneousAux vals 0 (p ++ y) = p ++ simultaneousAux vals 0 y := by
  induction p with
  | nil => rfl
  | cons c cs ih =>
    simp only [List.mem_cons, not_or] at hp
    rw [List.cons_append, simultaneousAux_step vals c _
      (matchingEntry_head vals c _ (Ne.symm hp.1)), ih hp.2]
    rfl

theorem sequential_step (K V : String) (rest : GoMap)
    (hk : braceFree K.data) (hv : braceFree V.data)
    (hrest : ∀ kv ∈ rest, braceFree kv.1.data) :
    ∀ (n : Nat) (t : List Char), t.length = n → ∀ b, flatFrom b t = true →
      simultaneousAux ((K, V) :: rest) 0 t
        = simultaneousAux rest 0 (replaceAllAux (ph K.data) V.data 0 t) := by
  have hall : ∀ kv ∈ (K, V) :: rest, rbrace ∉ kv.1.data := by
    intro kv hkv
    rcases List.mem_cons.1 hkv with rfl | hkv
    · exact hk.2
    · exact (hrest kv hkv).2
  have hrest' : ∀ kv ∈ rest, rbrace ∉ kv.1.data := fun kv hkv => (hrest kv hkv).2
  intro n
  induction n using Nat.strong_induction_on with
  | _ n ih =>
    intro t hlen b hb
    cases t with
    | nil => rfl
    | cons c t =>
      have iht : ∀ b', flatFrom b' t = true → simultaneousAux ((K, V) :: rest) 0 t
          = simultaneousAux rest 0 (replaceAllAux (ph K.data) V.data 0 t) :=
        fun b' hb' => ih t.length (by rw [← hlen]; simp) t rfl b' hb'
      by_cases hc : c = lbrace
      · subst hc
        have hopen := flat_open b t hb
        rcases flat_decomp t hopen.2 with hbf | ⟨u, x, hux, hu⟩
        · have hnot : ¬ ph K.data <+: lbrace :: t := by
            rintro ⟨y, hy⟩
            apply hbf.2
            simp only [ph, List.cons_append, List.cons.injEq, true_and] at hy
            rw [← hy]
            simp
          rw [replaceAllAux_step _ _ _ _ hnot, replaceAllAux_id _ _ t hbf.1,
            simultaneousAux_step _ _ _ (matchingEntry_open _ t hbf.2),
            simultaneousAux_step _ _ _ (matchingEntry_open _ t hbf.2),
            iht true hopen.2, replaceAllAux_id _ _ t hbf.1]
        · have htx : lbrace :: t = ph u ++ x := by rw [hux]; simp [ph]
          have ihx : simultaneousAux ((K, V) :: rest) 0 x
              = simultaneousAux rest 0 (replaceAllAux (ph K.data) V.data 0 x) := by
            refine ih x.length ?_ x rfl false (flat_suffix (ph u) x b (by rw [← htx]; exact hb))
            rw [← hlen, hux]
            simp only [List.length_cons, List.length_append]
            omega
          by_cases huk : K.data = u
          · rw [htx, ← huk, replaceAllAux_match _ _ _ (by simp [ph]),
              simultaneousAux_pass rest _ _ hv.1, ← ihx]
            have hm : matchingEntry ((K, V) :: rest) (ph (K, V).1.data ++ x) = some (K, V) := by
              rw [matchingEntry_ph _ _ _ hall hk.2]
              simp
            exact simultaneousAux_match _ (K, V) x hm
          · have hnot : ¬ ph K.data <+: lbrace :: t := by
              rw [htx]
              intro h
              exact huk ((ph_prefix_iff _ _ _ hk.2 hu.2).1 h)
            have hR : replaceAllAux (ph K.data) V.data 0 t
                = u ++ rbrace :: replaceAllAux (ph K.data) V.data 0 x := by
              rw [hux]
              have := replaceAllAux_pass K.data V.data (u ++ [rbrace]) x (by
                simp only [List.mem_append, List.mem_singleton, not_or]
                exact ⟨hu.1, by decide⟩)
              simpa using this
            have hRx : lbrace :: replaceAllAux (ph K.data) V.data 0 t
                = ph u ++ replaceAllAux (ph K.data) V.data 0 x := by
              rw [hR]; simp [ph]
            have hfind : matchingEntry ((K, V) :: rest) (ph u ++ x)
                = matchingEntry rest (ph u ++ replaceAllAux (ph K.data) V.data 0 x) := by
              rw [matchingEntry_ph _ _ _ hall hu.2, matchingEntry_ph _ _ _ hrest' hu.2,
                List.find?_cons_of_neg _ (by simpa using huk)]
            rw [replaceAllAux_step _ _ _ _ hnot]
            cases hm : matchingEntry rest (ph u ++ replaceAllAux (ph K.data) V.data 0 x) with
            | none =>
              rw [hm, ← htx] at hfind
              rw [← hRx] at hm
              rw [simultaneousAux_step _ _ _ hfind, simultaneousAux_step _ _ _ hm,
                iht true hopen.2]
            | some kv =>
              rw [hm] at hfind
              have hkey : kv.1.data = u := by
                rw [matchingEntry_ph _ _ _ hrest' hu.2] at hm
                simpa using List.find?_some hm
              rw [htx, hRx]
              rw [← hkey] at hfind hm ⊢
              rw [simultaneousAux_match _ kv _ hfind, simultaneousAux_match _ kv _ hm, ihx]
      · have hnot : ¬ ph K.data <+: c :: t := ph_not_prefix_of_head _ c t hc
        rw [replaceAllAux_step _ _ _ _ hnot,
          simultaneousAux_step _ _ _ (matchingEntry_head _ c _ hc),
          simultaneousAux_step _ _ _ (matchingEntry_head _ c _ hc),
          iht false (flat_tail b c t hb)]

theorem sequential_eq_simultaneous (vals : GoMap)
    (hkv : ∀ kv ∈ vals, braceFree kv.1.data ∧ braceFree kv.2.data)
    (t : List Char) (b : Bool) (hb : flatFrom b t = true) :
    substituteChars vals t = simultaneousAux vals 0 t := by
  induction vals generalizing t with
  | nil =>
    show t = simultaneousAux [] 0 t
    clear hb
    induction t with
    | nil => rfl
    | cons c cs ih => rw [simultaneousAux_step [] c cs rfl, ← ih]
  | cons kv rest ih =>
    have hrest : ∀ x ∈ rest, braceFree x.1.data ∧ braceFree x.2.data :=
      fun x hx => hkv x (List.mem_cons_of_mem _ hx)
    have hhead := hkv kv (List.mem_cons_self _ _)
    have hstep := sequential_step kv.1 kv.2 rest hhead.1 hhead.2
      (fun x hx => (hrest x hx).1) t.length t rfl b hb
    unfold substituteChars at ih ⊢
    rw [List.foldl_cons, ih hrest _ (flat_replace kv.1.data kv.2.data hhead.2 t b hb)]
    exact hstep.symm

/-- C14 (as stated, refuted): for the command `{A}{B}` and the map `A ↦ {B}`,
`B ↦ {A}`, the simultaneous substitution of the original command is `{B}{A}`; the code
gives `{A}{A}` when the map is iterated in the order `A`, `B` and `{B}{B}` in the order
`B`, `A`: the text introduced by the first replacement is substituted again by the
second. -/
theorem C14_replacement_is_substituted_again :
    simultaneousSubstitution "\x7bA\x7d\x7bB\x7d" [("A", "\x7bB\x7d"), ("B", "\x7bA\x7d")]
      = "\x7bB\x7d\x7bA\x7d" ∧
    simultaneousSubstitution "\x7bA\x7d\x7bB\x7d" [("B", "\x7bA\x7d"), ("A", "\x7bB\x7d")]
      = "\x7bB\x7d\x7bA\x7d" ∧
    SubstituteVariables "\x7bA\x7d\x7bB\x7d" [("A", "\x7bB\x7d"), ("B", "\x7bA\x7d")]
      = "\x7bA\x7d\x7bA\x7d" ∧
    SubstituteVariables "\x7bA\x7d\x7bB\x7d" [("B", "\x7bA\x7d"), ("A", "\x7bB\x7d")]
      = "\x7bB\x7d\x7bB\x7d" ∧
    SubstituteVariables "\x7bA\x7d\x7bB\x7d" [("A", "\x7bB\x7d"), ("B", "\x7bA\x7d")]
      ≠ simultaneousSubstitution "\x7bA\x7d\x7bB\x7d"
          [("A", "\x7bB\x7d"), ("B", "\x7bA\x7d")] ∧
    SubstituteVariables "\x7bA\x7d\x7bB\x7d" [("B", "\x7bA\x7d"), ("A", "\x7bB\x7d")]
      ≠ simultaneousSubstitution "\x7bA\x7d\x7bB\x7d"
          [("B", "\x7bA\x7d"), ("A", "\x7bB\x7d")] :=
  ⟨by decide, by decide, by decide, by decide, by decide, by decide⟩

/-- C14 (amended): for every command whose braces are not nested (no opening brace is
followed by another opening brace before the next closing brace) and every values map
whose keys and values hold no brace, `SubstituteVariables(command, values)` is the
simultaneous substitution of the original command: every occurrence of the placeholder
of a key is replaced by the value of the key, all other text is kept, and replaced text
is not substituted again. -/
theorem C14_substitute_is_simultaneous (command : String) (vals : GoMap)
    (hflat : flatBraces command = true)
    (hkv : ∀ kv ∈ vals, braceFree kv.1.data ∧ braceFree kv.2.data) :
    SubstituteVariables command vals = simultaneousSubstitution command vals := by
  apply String.ext
  rw [substitute_data]
  exact sequential_eq_simultaneous vals hkv command.data false hflat

/-- Witness of C14 (amended): `REGION` is resolved, `ZONE` is not a key and stays. -/
theorem C14_substitute_witness :
    SubstituteVariables "deploy \x7bREGION\x7d \x7bZONE\x7d"
      [("REGION", "us-east-1"), ("TIER", "gold")] = "deploy us-east-1 \x7bZONE\x7d" :=
  (C14_substitute_is_simultaneous "deploy \x7bREGION\x7d \x7bZONE\x7d"
    [("REGION", "us-east-1"), ("TIER", "gold")] (by decide) (by decide)).trans (by decide)

/-! ## Cancellation at the loop head -/

/-- C25: the cancellation signal is polled once, at the start of an iteration that has
a step to run. When it has fired at that point, the step at the cursor is not run: the
iteration consists of the log entry "Execution cancelled" carrying the id of that step,
the status cancelled with the end time read from the clock, and the return of the
goroutine (the sink is closed); no command is started, no step is counted as executed,
the cursor and the scope are unchanged, and the run is over after this one iteration.
When the cursor is past the last step the signal is not polled at all and the run ends
completed, whatever the signal says. -/
theorem C25_cancellation_at_loop_head (env : Env) (wf : Workflow) (s : LoopState)
    (hr : s.returned = false) (hx : env.cancelled s.polls = true) :
    (∀ (i : Nat) (step : Step), s.currentStepIndex = (i : Int) → wf.Steps[i]? = some step →
      iteration env wf s =
        goReturn (setTerminal env
          (logInfo env { s with polls := s.polls + 1 } step.ID "Execution cancelled")
          "cancelled") ∧
      (iteration env wf s).returned = true ∧
      (iteration env wf s).panicked = s.panicked ∧
      (iteration env wf s).execution.Status = "cancelled" ∧
      (iteration env wf s).execution.EndTime = env.now (s.clock + 1) ∧
      (iteration env wf s).execution.Logs = s.execution.Logs ++
        [ExecutionLog.mk (env.now s.clock) step.ID "info" "Execution cancelled" ""] ∧
      (iteration env wf s).sink =
        s.sink ++ [SinkEvent.send "Execution cancelled", SinkEvent.close] ∧
      (iteration env wf s).commands = s.commands ∧
      (iteration env wf s).executed = s.executed ∧
      (iteration env wf s).polls = s.polls + 1 ∧
      (iteration env wf s).currentStepIndex = s.currentStepIndex ∧
      (iteration env wf s).execution.Variables = s.execution.Variables ∧
      ∀ fuel, 1 ≤ fuel → runLoop env wf fuel s = some (iteration env wf s)) ∧
    ((wf.Steps.length : Int) ≤ s.currentStepIndex →
      (iteration env wf s).returned = true ∧
      (iteration env wf s).execution.Status = "completed" ∧
      (iteration env wf s).polls = s.polls ∧
      (iteration env wf s).commands = s.commands ∧
      (iteration env wf s).executed = s.executed ∧
      ∀ fuel, 1 ≤ fuel → runLoop env wf fuel s = some (iteration env wf s)) := by
  refine ⟨fun i step hc hs => ?_, fun hc => ?_⟩
  · have hit := iteration_cancelled env wf s i step hr hc hs hx
    have hret : (iteration env wf s).returned = true := by rw [hit]; rfl
    refine ⟨hit, hret, ?_, ?_, ?_, ?_, ?_, ?_, ?_, ?_, ?_, ?_,
      fun fuel hf => runLoop_of_iterate env wf 1 s hret fuel hf⟩
    all_goals rw [hit]
    all_goals first
      | rfl
      | simp [goReturn, setTerminal, logInfo, logAt]
  · have hit := iteration_exit env wf s hr hc
    have hret : (iteration env wf s).returned = true := by rw [hit]; rfl
    refine ⟨hret, ?_, ?_, ?_, ?_, fun fuel hf => runLoop_of_iterate env wf 1 s hret fuel hf⟩
    all_goals rw [hit]
    all_goals rfl

/-- Witness of C25: under `cancelEnv` the signal has fired when the second iteration of
`wfPlain` begins, so step `B` is not run and the run ends cancelled; when the signal
fires only once all three steps have run (the failing one continues), the run ends
completed. -/
theorem C25_cancellation_witness :
    (iterate cancelEnv wfPlain 2 (initialState cancelEnv wfPlain "plain" [])).execution.Status
      = "cancelled" ∧
    (iterate cancelEnv wfPlain 2 (initialState cancelEnv wfPlain "plain" [])).executed = [0] ∧
    (iterate lateCancelEnv wfStopOnFailure 3
      (initialState lateCancelEnv wfStopOnFailure "deploy" [])).execution.Status
      = "completed" :=
  ⟨((C25_cancellation_at_loop_head cancelEnv wfPlain
      (iteration cancelEnv wfPlain (initialState cancelEnv wfPlain "plain" []))
      (by decide) (by decide)).1 1 { ID := "B", Content := "exit 1" }
      (by decide) (by decide)).2.2.2.1,
   (((C25_cancellation_at_loop_head cancelEnv wfPlain
      (iteration cancelEnv wfPlain (initialState cancelEnv wfPlain "plain" []))
      (by decide) (by decide)).1 1 { ID := "B", Content := "exit 1" }
      (by decide) (by decide)).2.2.2.2.2.2.2.2.1).trans (by decide),
   ((C25_cancellation_at_loop_head lateCancelEnv wfStopOnFailure
      (iterate lateCancelEnv wfStopOnFailure 2
        (initialState lateCancelEnv wfStopOnFailure "deploy" []))
      (by decide) (by decide)).2 (by decide)).2.1⟩

/-! ## Conditions of the steps that are not commands -/

theorem stepResult_other (env : Env) (wf : Workflow) (s : LoopState) (i : Nat)
    (step : Step) (hty : step.Type_ ≠ "command") :
    (stepResult env wf s i step).output = "" ∧ (stepResult env wf s i step).exitCode = 0 ∧
    (step.Type_ ≠ "workflow_ref" →
      (stepResult env wf s i step).err = some ("unknown step type: " ++ step.Type_)) ∧
    (step.Type_ = "workflow_ref" → ∀ e, env.storeGet step.Content = Except.error e →
      (stepResult env wf s i step).err = some e) := by
  by_cases hw : step.Type_ = "workflow_ref"
  · have h := stepResult_workflow_ref env wf s i step hw
    exact ⟨h.1, h.2.1, fun hn => absurd hw hn, fun _ => h.2.2.2⟩
  · unfold stepResult runStep
    rw [if_neg hty, if_neg hw]
    exact ⟨rfl, rfl, fun _ => rfl, fun h => absurd h hw⟩

theorem conditionMatches_exit_zero (env : Env) (c : Condition)
    (hty : c.Type_ = "exit_code") (hv : c.Value = "0") :
    conditionMatches env c "" 0 = true := by
  unfold conditionMatches
  rw [hty, hv, if_neg (by decide), if_neg (by decide), if_neg (by decide), if_neg (by decide),
    if_neg (by decide), if_pos rfl]
  decide

/-- C29: for a step at the cursor whose type is not `command` (a `workflow_ref` or an
unknown type), the switch leaves the output empty and the exit code 0 whatever error
the step returns (the error of the repository lookup, or "unknown step type"), and
these are the values `evaluateConditions` sees. A condition `exit_code` with value "0"
therefore matches, also on a failed step. The action of the first matching condition is
applied before the error is looked at: with `stop` the run returns with status
completed (never failed) in this iteration; with any other action the failure handling
follows on the state the action left. -/
theorem C29_non_command_conditions (env : Env) (wf : Workflow) (s : LoopState) (i : Nat)
    (step : Step)
    (hr : s.returned = false) (hc : s.currentStepIndex = (i : Int))
    (hs : wf.Steps[i]? = some step) (hx : env.cancelled s.polls = false)
    (hty : step.Type_ ≠ "command") :
    (stepResult env wf s i step).output = "" ∧
    (stepResult env wf s i step).exitCode = 0 ∧
    (step.Type_ ≠ "workflow_ref" →
      (stepResult env wf s i step).err = some ("unknown step type: " ++ step.Type_)) ∧
    (step.Type_ = "workflow_ref" → ∀ e, env.storeGet step.Content = Except.error e →
      (stepResult env wf s i step).err = some e) ∧
    afterConditions env wf s i step =
      conditionPhase env wf (runStep env (enterStep env wf s i step) step).1 step
        { output := "", exitCode := 0, err := (stepResult env wf s i step).err } ∧
    (∀ c rest, step.Conditions = c :: rest → c.Type_ = "exit_code" → c.Value = "0" →
      evaluateConditions env step.Conditions "" 0 = some c.Action) ∧
    (∀ a, evaluateConditions env step.Conditions "" 0 = some a → a.Type_ = "stop" →
      (iteration env wf s).returned = true ∧
      (iteration env wf s).execution.Status = "completed" ∧
      (iteration env wf s).execution.Status ≠ "failed" ∧
      (iteration env wf s).executed = s.executed ++ [i] ∧
      ∀ fuel, 1 ≤ fuel → runLoop env wf fuel s = some (iteration env wf s)) ∧
    (∀ a, evaluateConditions env step.Conditions "" 0 = some a → a.Type_ ≠ "stop" →
      iteration env wf s = resultPhase env wf (afterConditions env wf s i step) step
        (stepResult env wf s i step)) := by
  have hres := stepResult_other env wf s i step hty
  have hres_eq : stepResult env wf s i step =
      { output := "", exitCode := 0, err := (stepResult env wf s i step).err } := by
    have h1 := hres.1
    have h2 := hres.2.1
    revert h1 h2
    cases stepResult env wf s i step with
    | mk o c e =>
      intro h1 h2
      simp only at h1 h2
      subst h1 h2
      rfl
  refine ⟨hres.1, hres.2.1, hres.2.2.1, hres.2.2.2, ?_, ?_, ?_, ?_⟩
  · unfold afterConditions
    rw [← hres_eq]
  · intro c rest hcs hct hcv
    rw [hcs]
    unfold evaluateConditions
    rw [if_pos (conditionMatches_exit_zero env c hct hcv)]
  · intro a ha hstop
    have h := iteration_condition_stop env wf s i step hr hc hs hx
      ⟨a, by rw [hres.1, hres.2.1]; exact ha, hstop⟩
    refine ⟨h.1, h.2.1, ?_, h.2.2, fun fuel hf => runLoop_of_iterate env wf 1 s h.1 fuel hf⟩
    rw [h.2.1]
    decide
  · intro a ha hns
    refine (iteration_no_stop env wf s i step hr hc hs hx ?_).1
    intro b hb
    rw [hres.1, hres.2.1, ha] at hb
    cases hb
    exact hns

/-- Witness of C29: the only step of `wfMissingRefStop` is a `workflow_ref` to a
workflow the repository does not hold; its condition `exit_code = 0` with action stop
matches and the run ends completed. -/
theorem C29_non_command_witness :
    (stepResult demoEnv wfMissingRefStop (initialState demoEnv wfMissingRefStop "parent" []) 0
      { ID := "A", Type_ := "workflow_ref", Content := "missing",
        Conditions := [{ Type_ := "exit_code", Value := "0",
                         Action := { Type_ := "stop" } }] }).err
      = some "workflow not found" ∧
    (iteration demoEnv wfMissingRefStop
      (initialState demoEnv wfMissingRefStop "parent" [])).execution.Status = "completed" :=
  ⟨(C29_non_command_conditions demoEnv wfMissingRefStop
      (initialState demoEnv wfMissingRefStop "parent" []) 0
      { ID := "A", Type_ := "workflow_ref", Content := "missing",
        Conditions := [{ Type_ := "exit_code", Value := "0",
                         Action := { Type_ := "stop" } }] }
      rfl rfl rfl rfl (by decide)).2.2.2.1 rfl "workflow not found" rfl,
   ((C29_non_command_conditions demoEnv wfMissingRefStop
      (initialState demoEnv wfMissingRefStop "parent" []) 0
      { ID := "A", Type_ := "workflow_ref", Content := "missing",
        Conditions := [{ Type_ := "exit_code", Value := "0",
                         Action := { Type_ := "stop" } }] }
      rfl rfl rfl rfl (by decide)).2.2.2.2.2.2.1 { Type_ := "stop" } rfl rfl).2.1⟩

/-! ## Condition action, then hook, then increment -/

/-- C23: when the first matching condition of the step at the cursor has an action
other than `stop`, the loop body is the condition block followed by the result block:
the run has not returned after the condition action, and the hook handling works on the
cursor the condition action left. After an error without `onFailure` the run ends failed
in this iteration; after an error with `onFailure`, or a success with `onSuccess`, the
cursor becomes the hook's value for the cursor left by the condition action, plus one;
after a success without `onSuccess` it is that cursor plus one. In a workflow with unique
ids a `jump_to` condition leaves the cursor at the index `t` of its target, so a failure
without `onFailure` still ends the run failed, and a success whose `onSuccess` is `stop`
ends the run completed with no step executed after this one. -/
theorem C23_condition_then_hook (env : Env) (wf : Workflow) (s : LoopState) (i : Nat)
    (step : Step) (a : StepAction)
    (hr : s.returned = false) (hc : s.currentStepIndex = (i : Int))
    (hs : wf.Steps[i]? = some step) (hx : env.cancelled s.polls = false)
    (hcond : evaluateConditions env step.Conditions (stepResult env wf s i step).output
      (stepResult env wf s i step).exitCode = some a)
    (hns : a.Type_ ≠ "stop") :
    iteration env wf s = resultPhase env wf (afterConditions env wf s i step) step
      (stepResult env wf s i step) ∧
    (afterConditions env wf s i step).returned = false ∧
    (afterConditions env wf s i step).execution.Status = s.execution.Status ∧
    (∀ e, (stepResult env wf s i step).err = some e → step.OnFailure = none →
      (iteration env wf s).returned = true ∧
      (iteration env wf s).execution.Status = "failed" ∧
      (iteration env wf s).executed = s.executed ++ [i] ∧
      ∀ fuel, 1 ≤ fuel → runLoop env wf fuel s = some (iteration env wf s)) ∧
    (∀ e h, (stepResult env wf s i step).err = some e → step.OnFailure = some h →
      (iteration env wf s).returned = false ∧
      (iteration env wf s).currentStepIndex =
        handleStepAction h wf.Steps (afterConditions env wf s i step).currentStepIndex + 1) ∧
    (∀ h, (stepResult env wf s i step).err = none → step.OnSuccess = some h →
      (iteration env wf s).returned = false ∧
      (iteration env wf s).currentStepIndex =
        handleStepAction h wf.Steps (afterConditions env wf s i step).currentStepIndex + 1) ∧
    ((stepResult env wf s i step).err = none → step.OnSuccess = none →
      (iteration env wf s).returned = false ∧
      (iteration env wf s).currentStepIndex =
        (afterConditions env wf s i step).currentStepIndex + 1) ∧
    (∀ (t : Nat) (tgt : Step), a.Type_ = "jump_to" → (wf.Steps.map (·.ID)).Nodup →
      wf.Steps[t]? = some tgt → a.Target = tgt.ID →
      (afterConditions env wf s i step).currentStepIndex = (t : Int)) ∧
    (∀ h, (stepResult env wf s i step).err = none → step.OnSuccess = some h →
      h.Type_ = "stop" →
      ∀ fuel, 2 ≤ fuel → ∃ final, runLoop env wf fuel s = some final ∧
        final.execution.Status = "completed" ∧ final.executed = s.executed ++ [i]) := by
  have hno : ∀ b, evaluateConditions env step.Conditions (stepResult env wf s i step).output
      (stepResult env wf s i step).exitCode = some b → b.Type_ ≠ "stop" := by
    intro b hb
    rw [hcond] at hb
    cases hb
    exact hns
  have h := iteration_no_stop env wf s i step hr hc hs hx hno
  have hfacts := iteration_live_facts env wf s i step hr hc hs hx
  have hfail : ∀ e, (stepResult env wf s i step).err = some e → step.OnFailure = none →
      iteration env wf s = goReturn (setTerminal env
        (logError env (afterConditions env wf s i step) step.ID ("Step failed: " ++ e))
        "failed") := by
    intro e he hof
    rw [h.1]
    unfold resultPhase
    rw [he, hof]
  have hhookF : ∀ e k, (stepResult env wf s i step).err = some e → step.OnFailure = some k →
      iteration env wf s = advance
        { logError env (afterConditions env wf s i step) step.ID ("Step failed: " ++ e) with
          currentStepIndex := handleStepAction k wf.Steps
            (afterConditions env wf s i step).currentStepIndex } := by
    intro e k he hof
    rw [h.1]
    unfold resultPhase
    rw [he, hof]
    rfl
  have hhookS : ∀ k, (stepResult env wf s i step).err = none → step.OnSuccess = some k →
      iteration env wf s = advance
        { afterConditions env wf s i step with
          currentStepIndex := handleStepAction k wf.Steps
            (afterConditions env wf s i step).currentStepIndex } := by
    intro k he hos
    rw [h.1]
    unfold resultPhase
    rw [he, hos]
  have hplain : (stepResult env wf s i step).err = none → step.OnSuccess = none →
      iteration env wf s = advance (afterConditions env wf s i step) := by
    intro he hos
    rw [h.1]
    unfold resultPhase
    rw [he, hos]
  refine ⟨h.1, h.2.1, h.2.2.1, ?_, ?_, ?_, ?_, ?_, ?_⟩
  · intro e he hof
    have hret : (iteration env wf s).returned = true := by rw [hfail e he hof]; rfl
    exact ⟨hret, by rw [hfail e he hof]; rfl, hfacts.1,
      fun fuel hf => runLoop_of_iterate env wf 1 s hret fuel hf⟩
  · intro e k he hof
    rw [hhookF e k he hof]
    exact ⟨h.2.1, rfl⟩
  · intro k he hos
    rw [hhookS k he hos]
    exact ⟨h.2.1, rfl⟩
  · intro he hos
    rw [hplain he hos]
    exact ⟨h.2.1, rfl⟩
  · intro t tgt hty hids ht htg
    unfold afterConditions
    rw [conditionPhase_some _ _ _ _ _ _ hcond, if_neg hns, if_pos hty, htg,
      jumpScan_unique _ _ _ _ _ t tgt hids ht]
    simp
  · intro k he hos hstop fuel hfuel
    have hit := hhookS k he hos
    rw [handleStepAction_stop k _ _ hstop] at hit
    have h1 : (iteration env wf s).returned = false := by rw [hit]; exact h.2.1
    have h2 : (iteration env wf s).currentStepIndex = (wf.Steps.length : Int) + 1 := by
      rw [hit]; rfl
    have hex := iteration_exit env wf (iteration env wf s) h1 (by rw [h2]; omega)
    refine ⟨iterate env wf 2 s, runLoop_of_iterate env wf 2 s ?_ fuel hfuel, ?_, ?_⟩
    · show (iteration env wf (iteration env wf s)).returned = true
      rw [hex]; rfl
    · show (iteration env wf (iteration env wf s)).execution.Status = "completed"
      rw [hex]; rfl
    · show (iteration env wf (iteration env wf s)).executed = _
      rw [hex]
      exact hfacts.1

/-- Witness of C23: in `wfJumpThenFail` the first step exits with status 1, its
condition `exit_code = 1` jumps to `C`, and it has no failure hook: the run ends failed
after this step. In `wfJumpThenStop` the first step succeeds, its condition jumps to `C`
and its success hook is `stop`: the run ends completed and only the first step ran. -/
theorem C23_condition_then_hook_witness :
    (iteration demoEnv wfJumpThenFail
      (initialState demoEnv wfJumpThenFail "jump-fail" [])).execution.Status = "failed" ∧
    (∃ final, runLoop demoEnv wfJumpThenStop 2
        (initialState demoEnv wfJumpThenStop "jump-stop" []) = some final ∧
      final.execution.Status = "completed" ∧ final.executed = [0]) :=
  ⟨((C23_condition_then_hook demoEnv wfJumpThenFail
      (initialState demoEnv wfJumpThenFail "jump-fail" []) 0
      { ID := "A", Content := "exit 1",
        Conditions := [{ Type_ := "exit_code", Value := "1",
                         Action := { Type_ := "jump_to", Target := "C" } }] }
      { Type_ := "jump_to", Target := "C" }
      rfl rfl rfl rfl (by decide) (by decide)).2.2.2.1 "exit status 1" (by decide) rfl).2.1,
   (C23_condition_then_hook demoEnv wfJumpThenStop
      (initialState demoEnv wfJumpThenStop "jump-stop" []) 0
      { ID := "A", Content := "echo hi",
        Conditions := [{ Type_ := "contains", Value := "hi",
                         Action := { Type_ := "jump_to", Target := "C" } }],
        OnSuccess := some { Type_ := "stop" } }
      { Type_ := "jump_to", Target := "C" }
      rfl rfl rfl rfl (by decide) (by decide)).2.2.2.2.2.2.2.2
      { Type_ := "stop" } (by decide) rfl rfl 2 (le_refl 2)⟩

/-! ## The action `execute_step` -/

theorem executeCommandStep_congr (env : Env) (x : LoopState) (tgt other : Step) (vars : GoMap)
    (hid : other.ID = tgt.ID) (hcontent : other.Content = tgt.Content)
    (hvars : other.Variables = tgt.Variables) :
    executeCommandStep env x other vars = executeCommandStep env x tgt vars := by
  unfold executeCommandStep commandText
  rw [hid, hcontent, hvars]

/-- C24: when the first matching condition of the step at index `i` has the action
`execute_step` and `tgt` is the first step of the workflow with the target id, the
condition block logs the match and the target, and runs `executeCommandStep` on `tgt`
once: exactly one more shell command is started, the content of `tgt` after
substitution. Only the id, name, content and mappings of `tgt` are read (neither its
conditions nor its hooks, nor its type), `tgt` is not counted as executed by the main
loop, and whatever the inline command prints or returns, the status, the cursor and
the scope are as before the condition block. The result block then handles the result
of the step at `i` itself: after a success without hook or with a `continue` hook, and
after an error with a `continue` failure hook, the cursor is `i + 1` and the next step
the main loop executes is the one at index `i + 1`. -/
theorem C24_execute_step_inline (env : Env) (wf : Workflow) (s : LoopState) (i : Nat)
    (step tgt : Step) (a : StepAction)
    (hr : s.returned = false) (hc : s.currentStepIndex = (i : Int))
    (hs : wf.Steps[i]? = some step) (hx : env.cancelled s.polls = false)
    (hcond : evaluateConditions env step.Conditions (stepResult env wf s i step).output
      (stepResult env wf s i step).exitCode = some a)
    (hty : a.Type_ = "execute_step")
    (htgt : wf.Steps.find? (fun st => decide (st.ID = a.Target)) = some tgt) :
    afterConditions env wf s i step =
      (executeCommandStep env
        (logInfo env
          (logInfo env (runStep env (enterStep env wf s i step) step).1 step.ID
            ("Condition matched: " ++ a.Type_))
          step.ID ("Executing step: " ++ tgt.Name))
        tgt s.execution.Variables).1 ∧
    (afterConditions env wf s i step).commands =
      (runStep env (enterStep env wf s i step) step).1.commands ++
        [commandText tgt s.execution.Variables] ∧
    (step.Type_ = "command" → (iteration env wf s).commands =
      s.commands ++ [commandText step s.execution.Variables,
        commandText tgt s.execution.Variables]) ∧
    (step.Type_ ≠ "command" → (iteration env wf s).commands =
      s.commands ++ [commandText tgt s.execution.Variables]) ∧
    (∀ (other : Step) (x : LoopState) (vars : GoMap), other.ID = tgt.ID →
      other.Content = tgt.Content → other.Variables = tgt.Variables →
      executeCommandStep env x other vars = executeCommandStep env x tgt vars) ∧
    (afterConditions env wf s i step).executed = s.executed ++ [i] ∧
    (afterConditions env wf s i step).returned = false ∧
    (afterConditions env wf s i step).execution.Status = s.execution.Status ∧
    (afterConditions env wf s i step).execution.Variables = s.execution.Variables ∧
    (afterConditions env wf s i step).currentStepIndex = (i : Int) ∧
    iteration env wf s = resultPhase env wf (afterConditions env wf s i step) step
      (stepResult env wf s i step) ∧
    ((((stepResult env wf s i step).err = none ∧
        (step.OnSuccess = none ∨ ∃ h, step.OnSuccess = some h ∧ h.Type_ = "continue")) ∨
      ((stepResult env wf s i step).err ≠ none ∧
        ∃ h, step.OnFailure = some h ∧ h.Type_ = "continue")) →
      (iteration env wf s).returned = false ∧
      (iteration env wf s).execution.Status = s.execution.Status ∧
      (iteration env wf s).currentStepIndex = (i : Int) + 1 ∧
      (iteration env wf s).executed = s.executed ++ [i] ∧
      (i + 1 < wf.Steps.length → env.cancelled (s.polls + 1) = false →
        (iterate env wf 2 s).executed = s.executed ++ [i, i + 1])) := by
  have hns : a.Type_ ≠ "stop" := by rw [hty]; decide
  have hno : ∀ b, evaluateConditions env step.Conditions (stepResult env wf s i step).output
      (stepResult env wf s i step).exitCode = some b → b.Type_ ≠ "stop" := by
    intro b hb
    rw [hcond] at hb
    cases hb
    exact hns
  have h := iteration_no_stop env wf s i step hr hc hs hx hno
  have he := entered_facts env wf s i step
  simp only [] at he
  have hfacts := iteration_live_facts env wf s i step hr hc hs hx
  have hac : afterConditions env wf s i step =
      (executeCommandStep env
        (logInfo env
          (logInfo env (runStep env (enterStep env wf s i step) step).1 step.ID
            ("Condition matched: " ++ a.Type_))
          step.ID ("Executing step: " ++ tgt.Name))
        tgt s.execution.Variables).1 := by
    unfold afterConditions
    rw [conditionPhase_some _ _ _ _ _ _ hcond, if_neg hns, if_neg (by rw [hty]; decide),
      if_pos hty]
    unfold executeInline
    rw [htgt]
    show (executeCommandStep env _ tgt
      (runStep env (enterStep env wf s i step) step).1.execution.Variables).1 = _
    rw [he.2.2.2.2.2.2.1]
  have hcmd : (afterConditions env wf s i step).commands =
      (runStep env (enterStep env wf s i step) step).1.commands ++
        [commandText tgt s.execution.Variables] := by
    rw [hac, (executeCommandStep_commands _ _ _ _).1]
    rfl
  have hcur : (afterConditions env wf s i step).currentStepIndex = (i : Int) := by
    rw [hac, (executeCommandStep_commands _ _ _ _).2]
    show (runStep env (enterStep env wf s i step) step).1.currentStepIndex = _
    rw [he.2.2.2.2.2.2.2.1, hc]
  have hitc : (iteration env wf s).commands = (afterConditions env wf s i step).commands := by
    rw [h.1]
    exact (resultPhase_facts _ _ _ _ _).2.2.2.2
  have hac_facts := afterConditions_facts env wf s i step
  refine ⟨hac, hcmd, ?_, ?_, ?_, hac_facts.1, h.2.1, h.2.2.1, hac_facts.2.2, hcur, h.1, ?_⟩
  · intro hcmdty
    rw [hitc, hcmd]
    unfold runStep
    rw [if_pos hcmdty, (executeCommandStep_commands _ _ _ _).1]
    simp [enterStep, logInfo, logAt]
  · intro hcmdty
    rw [hitc, hcmd]
    unfold runStep
    rw [if_neg hcmdty]
    split
    · rw [(frame_executeWorkflowStep _ _ _).2.2]
      rfl
    · rfl
  · intro other x vars hid hcontent hvars
    exact executeCommandStep_congr env x tgt other vars hid hcontent hvars
  · intro hhook
    have hit : iteration env wf s = advance (afterConditions env wf s i step) ∨
        ∃ e, iteration env wf s = advance
          (logError env (afterConditions env wf s i step) step.ID ("Step failed: " ++ e)) := by
      rw [h.1]
      unfold resultPhase
      rcases hhook with ⟨herr, hk⟩ | ⟨herr, k, hk1, hk2⟩
      · left
        rw [herr]
        rcases hk with hk | ⟨k, hk1, hk2⟩
        · rw [hk]
        · rw [hk1]
          simp only []
          rw [handleStepAction_continue k _ _ hk2]
      · right
        cases hres : (stepResult env wf s i step).err with
        | none => exact absurd hres herr
        | some e =>
          refine ⟨e, ?_⟩
          simp only []
          rw [hk1]
          simp only []
          rw [handleStepAction_continue k _ _ hk2]
    have h1 : (iteration env wf s).returned = false := by
      rcases hit with hit | ⟨e, hit⟩ <;> rw [hit] <;> exact h.2.1
    have h2 : (iteration env wf s).currentStepIndex = (i : Int) + 1 := by
      rcases hit with hit | ⟨e, hit⟩ <;> rw [hit] <;>
        show (afterConditions env wf s i step).currentStepIndex + 1 = _ <;> rw [hcur]
    have h3 : (iteration env wf s).execution.Status = s.execution.Status := by
      rcases hit with hit | ⟨e, hit⟩ <;> rw [hit] <;> exact h.2.2.1
    have hpolls : (iteration env wf s).polls = s.polls + 1 := by
      rw [h.1, (resultPhase_facts _ _ _ _ _).2.1]
      exact h.2.2.2.2.1
    refine ⟨h1, h3, h2, hfacts.1, fun hlt hx2 => ?_⟩
    obtain ⟨nxt, hn⟩ : ∃ nxt, wf.Steps[i + 1]? = some nxt :=
      ⟨wf.Steps[i + 1], List.getElem?_eq_getElem hlt⟩
    have := iteration_live_facts env wf (iteration env wf s) (i + 1) nxt h1
      (by rw [h2]; simp) hn (by rw [hpolls]; exact hx2)
    show (iteration env wf (iteration env wf s)).executed = _
    rw [this.1, hfacts.1]
    simp

/-- Witness of C24: in `wfInline` the condition of the first step runs `C` inline; the
commands started in the first iteration are those of `A` and of `C`, and the step the
main loop executes next is `B`. -/
theorem C24_execute_step_witness :
    (iteration demoEnv wfInline (initialState demoEnv wfInline "inline" [])).commands
      = ["echo hi", "echo c"] ∧
    (iterate demoEnv wfInline 2 (initialState demoEnv wfInline "inline" [])).executed
      = [0, 1] :=
  ⟨((C24_execute_step_inline demoEnv wfInline (initialState demoEnv wfInline "inline" []) 0
      { ID := "A", Content := "echo hi",
        Conditions := [{ Type_ := "contains", Value := "hi",
                         Action := { Type_ := "execute_step", Target := "C" } }] }
      { ID := "C", Content := "echo c" }
      { Type_ := "execute_step", Target := "C" }
      rfl rfl rfl rfl (by decide) rfl (by decide)).2.2.1 rfl).trans (by decide),
   (((C24_execute_step_inline demoEnv wfInline (initialState demoEnv wfInline "inline" []) 0
      { ID := "A", Content := "echo hi",
        Conditions := [{ Type_ := "contains", Value := "hi",
                         Action := { Type_ := "execute_step", Target := "C" } }] }
      { ID := "C", Content := "echo c" }
      { Type_ := "execute_step", Target := "C" }
      rfl rfl rfl rfl (by decide) rfl (by decide)).2.2.2.2.2.2.2.2.2.2.2
      (Or.inl ⟨by decide, Or.inl rfl⟩)).2.2.2.2 (by decide) rfl).trans (by decide)⟩

/-! ## Termination of workflows without jumps -/

theorem conditionPhase_polls (env : Env) (wf : Workflow) (s : LoopState) (step : Step)
    (res : StepResult) : (conditionPhase env wf s step res).polls = s.polls := by
  rcases conditionPhase_cases env wf s step res with h | h
  · obtain ⟨a, ha, hty⟩ := h.2.1
    rw [conditionPhase_some _ _ _ _ _ _ ha, if_pos hty]
    rfl
  · exact h.2.1.polls

theorem conditionPhase_no_jump (env : Env) (wf : Workflow) (s : LoopState) (step : Step)
    (res : StepResult)
    (hnj : ∀ a, evaluateConditions env step.Conditions res.output res.exitCode = some a →
      a.Type_ ≠ "jump_to") :
    (conditionPhase env wf s step res).currentStepIndex = s.currentStepIndex := by
  cases h : evaluateConditions env step.Conditions res.output res.exitCode with
  | none => rw [conditionPhase_none _ _ _ _ _ h]
  | some a =>
    rw [conditionPhase_some _ _ _ _ _ _ h, if_neg (hnj a h)]
    split
    · rfl
    · split
      · rw [(frame_executeInline _ _ _ _ _).2]
        rfl
      · rfl

theorem handleStepAction_no_jump (a : StepAction) (steps : List Step) (c : Int)
    (h : a.Type_ ≠ "jump_to") :
    handleStepAction a steps c = c ∨ handleStepAction a steps c = (steps.length : Int) := by
  unfold handleStepAction
  split
  · exact Or.inl rfl
  · split
    · exact Or.inr rfl
    · exact Or.inl rfl

theorem iteration_polls (env : Env) (wf : Workflow) (s : LoopState) (i : Nat) (step : Step)
    (hr : s.returned = false) (hc : s.currentStepIndex = (i : Int))
    (hs : wf.Steps[i]? = some step) (hx : env.cancelled s.polls = false) :
    (iteration env wf s).polls = s.polls + 1 := by
  have he := entered_facts env wf s i step
  simp only [] at he
  have hp : (afterConditions env wf s i step).polls = s.polls + 1 := by
    unfold afterConditions
    rw [conditionPhase_polls, he.2.2.1]
  rw [iteration_live env wf s i step hr hc hs hx]
  split
  · exact hp
  · rw [(resultPhase_facts _ _ _ _ _).2.1, hp]

/-- One pass through the body of a workflow without jumps: the step at the cursor is
executed, and either the goroutine returns or the cursor moves forward. -/
theorem jumpFree_iteration (env : Env) (wf : Workflow) (s : LoopState) (i : Nat) (step : Step)
    (hjf : jumpFree wf)
    (hr : s.returned = false) (hc : s.currentStepIndex = (i : Int))
    (hs : wf.Steps[i]? = some step) (hx : env.cancelled s.polls = false) :
    (iteration env wf s).returned = true ∨
    ((iteration env wf s).returned = false ∧
      ((iteration env wf s).currentStepIndex = (i : Int) + 1 ∨
        (iteration env wf s).currentStepIndex = (wf.Steps.length : Int) + 1)) := by
  have hmem : step ∈ wf.Steps := List.getElem?_mem hs
  obtain ⟨hconds, hsucc, hfail⟩ := hjf step hmem
  have he := entered_facts env wf s i step
  simp only [] at he
  have hnj : ∀ a, evaluateConditions env step.Conditions (stepResult env wf s i step).output
      (stepResult env wf s i step).exitCode = some a → a.Type_ ≠ "jump_to" := by
    intro a ha
    obtain ⟨pre, c, rest, h1, _, _, h4⟩ := evaluateConditions_some _ _ _ _ _ ha
    rw [h4]
    exact hconds c (by rw [h1]; simp)
  have hcur : (afterConditions env wf s i step).currentStepIndex = (i : Int) := by
    unfold afterConditions
    rw [conditionPhase_no_jump _ _ _ _ _ hnj, he.2.2.2.2.2.2.2.1, hc]
  rcases conditionPhase_cases env wf (runStep env (enterStep env wf s i step) step).1 step
    (stepResult env wf s i step) with h | h
  · left
    have hret : (afterConditions env wf s i step).returned = true := h.1
    rw [iteration_live env wf s i step hr hc hs hx, if_pos hret]
    exact hret
  · have hns := iteration_no_stop env wf s i step hr hc hs hx h.1
    rw [hns.1]
    unfold resultPhase
    split
    · split
      · rename_i act hact
        right
        refine ⟨hns.2.1, ?_⟩
        have hty : act.Type_ ≠ "jump_to" := by
          intro hj
          apply hfail
          rw [hact]
          simp [hj]
        rcases handleStepAction_no_jump act wf.Steps
          (afterConditions env wf s i step).currentStepIndex hty with h1 | h1
        · left
          show handleStepAction act wf.Steps
            (afterConditions env wf s i step).currentStepIndex + 1 = _
          rw [h1, hcur]
        · right
          show handleStepAction act wf.Steps
            (afterConditions env wf s i step).currentStepIndex + 1 = _
          rw [h1]
      · left; rfl
    · split
      · rename_i act hact
        right
        refine ⟨hns.2.1, ?_⟩
        have hty : act.Type_ ≠ "jump_to" := by
          intro hj
          apply hsucc
          rw [hact]
          simp [hj]
        rcases handleStepAction_no_jump act wf.Steps
          (afterConditions env wf s i step).currentStepIndex hty with h1 | h1
        · left
          show handleStepAction act wf.Steps
            (afterConditions env wf s i step).currentStepIndex + 1 = _
          rw [h1, hcur]
        · right
          show handleStepAction act wf.Steps
            (afterConditions env wf s i step).currentStepIndex + 1 = _
          rw [h1]
      · right
        refine ⟨hns.2.1, Or.inl ?_⟩
        show (afterConditions env wf s i step).currentStepIndex + 1 = _
        rw [hcur]

/-- A workflow without jumps, entered with the cursor at most `m` steps before the
end, returns within `m + 1` evaluations of the loop guard; the steps it executes on the
way have strictly increasing indices between the cursor and the last index. -/
theorem jumpFree_run (env : Env) (wf : Workflow) (hjf : jumpFree wf) :
    ∀ (m : Nat) (s : LoopState), s.returned = false → 0 ≤ s.currentStepIndex →
      (wf.Steps.length : Int) ≤ s.currentStepIndex + (m : Int) →
      ∃ final extra, runLoop env wf (m + 1) s = some final ∧
        final.executed = s.executed ++ extra ∧
        extra.Pairwise (· < ·) ∧
        (∀ j ∈ extra, s.currentStepIndex ≤ (j : Int) ∧ j < wf.Steps.length) ∧
        final.polls ≤ s.polls + m ∧
        s.polls + extra.length ≤ final.polls ∧
        final.panicked = s.panicked := by
  intro m
  induction m with
  | zero =>
    intro s hr h0 hlen
    have hex := iteration_exit env wf s hr (by omega)
    refine ⟨iteration env wf s, [], ?_, ?_, List.Pairwise.nil, by simp, ?_, ?_, ?_⟩
    · exact runLoop_of_iterate env wf 1 s (by rw [iterate, iterate, hex]; rfl) 1 (le_refl 1)
    · rw [hex]; simp [goReturn, logInfo, logAt, setTerminal]
    · rw [hex]; simp [goReturn, logInfo, logAt, setTerminal]
    · rw [hex]; simp [goReturn, logInfo, logAt, setTerminal]
    · rw [hex]; rfl
  | succ m ih =>
    intro s hr h0 hlen
    by_cases hlt : s.currentStepIndex < (wf.Steps.length : Int)
    · obtain ⟨i, hi⟩ : ∃ i : Nat, s.currentStepIndex = (i : Int) :=
        ⟨s.currentStepIndex.toNat, (Int.toNat_of_nonneg h0).symm⟩
      have hil : i < wf.Steps.length := by omega
      have hs : wf.Steps[i]? = some wf.Steps[i] := List.getElem?_eq_getElem hil
      by_cases hx : env.cancelled s.polls = true
      · have hit := iteration_cancelled env wf s i _ hr hi hs hx
        refine ⟨iteration env wf s, [], ?_, ?_, List.Pairwise.nil, by simp, ?_, ?_, ?_⟩
        · exact runLoop_of_iterate env wf 1 s (by rw [iterate, iterate, hit]; rfl) _
            (by omega)
        · rw [hit]; simp [goReturn, logInfo, logAt, setTerminal]
        · rw [hit]; simp [goReturn, logInfo, logAt, setTerminal]
        · rw [hit]; simp [goReturn, logInfo, logAt, setTerminal]
        · rw [hit]; rfl
      · have hx' : env.cancelled s.polls = false := by simpa using hx
        have hfacts := iteration_live_facts env wf s i _ hr hi hs hx'
        have hpolls := iteration_polls env wf s i _ hr hi hs hx'
        rcases jumpFree_iteration env wf s i _ hjf hr hi hs hx' with hret | ⟨hret, hcur⟩
        · refine ⟨iteration env wf s, [i], ?_, hfacts.1, List.pairwise_singleton _ _, ?_, ?_,
            ?_, hfacts.2.1⟩
          · exact runLoop_of_iterate env wf 1 s (by rw [iterate, iterate]; exact hret) _
              (by omega)
          · intro j hj
            rw [List.mem_singleton] at hj
            subst hj
            exact ⟨by omega, hil⟩
          · rw [hpolls]; omega
          · rw [hpolls]; simp
        · have h0' : 0 ≤ (iteration env wf s).currentStepIndex := by
            rcases hcur with h | h <;> rw [h] <;> omega
          have hlen' : (wf.Steps.length : Int) ≤
              (iteration env wf s).currentStepIndex + (m : Int) := by
            rcases hcur with h | h <;> rw [h] <;> push_cast at hlen <;> omega
          obtain ⟨final, extra, h1, h2, h3, h4, h5, h6, h7⟩ :=
            ih (iteration env wf s) hret h0' hlen'
          refine ⟨final, i :: extra, ?_, ?_, ?_, ?_, ?_, ?_, ?_⟩
          · rw [runLoop, if_neg (by simp [hr])]
            exact h1
          · rw [h2, hfacts.1]; simp
          · refine List.Pairwise.cons ?_ h3
            intro j hj
            have := (h4 j hj).1
            rcases hcur with h | h <;> rw [h] at this <;> omega
          · intro j hj
            rcases List.mem_cons.1 hj with rfl | hj
            · exact ⟨by omega, hil⟩
            · refine ⟨?_, (h4 j hj).2⟩
              have := (h4 j hj).1
              rcases hcur with h | h <;> rw [h] at this <;> omega
          · rw [hpolls] at h5; omega
          · rw [hpolls] at h6
            simp only [List.length_cons]
            omega
          · rw [h7, hfacts.2.1]
    · have hex := iteration_exit env wf s hr (by omega)
      refine ⟨iteration env wf s, [], ?_, ?_, List.Pairwise.nil, by simp, ?_, ?_, ?_⟩
      · exact runLoop_of_iterate env wf 1 s (by rw [iterate, iterate, hex]; rfl) _ (by omega)
      · rw [hex]; simp [goReturn, logInfo, logAt, setTerminal]
      · rw [hex]; simp [goReturn, logInfo, logAt, setTerminal]
      · rw [hex]; simp [goReturn, logInfo, logAt, setTerminal]
      · rw [hex]; rfl

/-- C28: a workflow in which no condition action and no hook is a `jump_to` always
returns: started by `Execute`, the goroutine returns within `len(steps) + 1` evaluations
of the loop guard, of which at most `len(steps)` enter the loop body (one poll of the
cancellation signal each). The indices of the steps the main loop executed are strictly
increasing, so no step is executed twice; each is a valid index of `steps`, and the
goroutine never indexes `steps` out of range. -/
theorem C28_termination_without_jumps (env : Env) (wf : Workflow) (workflowID : String)
    (inputs : GoMap) (hjf : jumpFree wf) :
    ∃ final, runLoop env wf (wf.Steps.length + 1) (initialState env wf workflowID inputs)
        = some final ∧
      final.returned = true ∧
      final.polls ≤ wf.Steps.length ∧
      final.executed.length ≤ final.polls ∧
      final.executed.Pairwise (· < ·) ∧
      final.executed.Nodup ∧
      (∀ j ∈ final.executed, j < wf.Steps.length) ∧
      final.panicked = false := by
  obtain ⟨final, extra, h1, h2, h3, h4, h5, h6, h7⟩ :=
    jumpFree_run env wf hjf wf.Steps.length (initialState env wf workflowID inputs) rfl
      (le_refl _) (by show (wf.Steps.length : Int) ≤ 0 + _; omega)
  have hex : final.executed = extra := by rw [h2]; rfl
  have hp : (initialState env wf workflowID inputs).polls = 0 := rfl
  rw [hp] at h5 h6
  refine ⟨final, h1, (runLoop_some env wf _ _ _ h1).1, by omega, by rw [hex]; omega, ?_, ?_,
    ?_, h7⟩
  · rw [hex]; exact h3
  · rw [hex]; exact h3.imp (fun h => Nat.ne_of_lt h)
  · intro j hj
    rw [hex] at hj
    exact (h4 j hj).2

/-- Witness of C28: `wfStopOnFailure` has no jump; its two steps run in order and the
run is over within three evaluations of the loop guard. -/
theorem C28_termination_witness :
    ∃ final, runLoop demoEnv wfStopOnFailure 3 (initialState demoEnv wfStopOnFailure "deploy" [])
        = some final ∧ final.returned = true ∧ final.polls ≤ 2 :=
  (C28_termination_without_jumps demoEnv wfStopOnFailure "deploy" [] (by decide)).imp
    (fun _ h => ⟨h.1, h.2.1, h.2.2.1⟩)

/-! ## The cache and the file of the variable store -/

theorem write_through_consistent (vs : VariableService) :
    cacheMatchesDisk (vs.saveCache none).1 = true := by
  simp [cacheMatchesDisk, VariableService.saveCache, VariableService.List]

/-! ## The lock of the variable store -/

/-- C27 (the code at the failing input): on an unlocked store, whatever its contents,
the variable and the outcome of the write, `Set` acquires the write lock, stores the
stamped record in the cache and calls `saveCache`, whose `RLock` blocks because the write
lock is held by the caller itself: the call never returns, the file is not written, and
the write lock stays held, so that every later `Get`, `Set` and `Delete` blocks too.
`Delete` of a stored name blocks the same way; only `Delete` of an absent name, which
does not reach `saveCache`, returns (with the not-found error) and leaves the store
unlocked. -/
theorem C27_set_blocks_on_own_lock :
    (∀ (vs : VariableService) (v : GlobalVariable) (now : Nat) (w : Option String),
      LockedStore.Set { store := vs, mu := {} } v now w =
        CallOutcome.blocked
          { store := { vs with cache := (vs.Set v now none).1.cache },
            mu := { readers := 0, writer := true } }) ∧
    (∀ (vs : VariableService) (name : String) (w : Option String),
      LockedStore.Delete { store := vs, mu := {} } name w =
        match cacheLookup vs.cache name with
        | none => CallOutcome.returned { store := vs, mu := {} }
            (some (StoreError.notFound name))
        | some _ => CallOutcome.blocked
            { store := { vs with cache := cacheDelete vs.cache name },
              mu := { readers := 0, writer := true } }) ∧
    LockedStore.Set { store := demoVariables, mu := {} } { Name := "ZONE", Value := "b" } 9 none
      = CallOutcome.blocked
        { store := { demoVariables with
            cache := demoVariables.cache ++
              [("ZONE", { Name := "ZONE", Value := "b", CreatedAt := 9, UpdatedAt := 9 })] },
          mu := { readers := 0, writer := true } } ∧
    LockedStore.Delete { store := demoVariables, mu := {} } "REGION" none
      = CallOutcome.blocked
        { store := { demoVariables with cache := [] },
          mu := { readers := 0, writer := true } } ∧
    (∀ (vs : VariableService) (name : String),
      LockedStore.Get { store := vs, mu := { readers := 0, writer := true } } name = none) ∧
    (∀ (vs : VariableService) (v : GlobalVariable) (now : Nat) (w : Option String),
      LockedStore.Set { store := vs, mu := { readers := 0, writer := true } } v now w =
        CallOutcome.blocked { store := vs, mu := { readers := 0, writer := true } }) ∧
    (∀ (vs : VariableService) (name : String) (w : Option String),
      LockedStore.Delete { store := vs, mu := { readers := 0, writer := true } } name w =
        CallOutcome.blocked { store := vs, mu := { readers := 0, writer := true } }) ∧
    (∀ (vs : VariableService) (w : Option String),
      LockedStore.saveCache { store := vs, mu := {} } w =
        CallOutcome.returned { store := (vs.saveCache w).1, mu := {} } (vs.saveCache w).2) :=
  ⟨fun _ _ _ _ => rfl,
   fun vs name w => by
    unfold LockedStore.Delete
    cases cacheLookup vs.cache name <;> rfl,
   by decide, by decide, fun _ _ => rfl, fun _ _ _ _ => rfl, fun _ _ _ => rfl,
   fun _ _ => rfl⟩

/-! ## The workflow store -/

theorem readFile_writeFile (files : List (String × Workflow)) (id : String) (w : Workflow) :
    readFile (writeFile files id w) id = some w := by
  induction files with
  | nil => simp [writeFile, readFile]
  | cons kv rest ih =>
    obtain ⟨k, w'⟩ := kv
    unfold writeFile
    by_cases h : k = id
    · rw [if_pos h]
      simp [readFile, h]
    · rw [if_neg h]
      simp [readFile, h, ih]

/-- C22 (the code at the failing input): `Save` writes the record it is given, with the
time stamps it is given: it never reads the clock. The workflow `nightly`, decoded from
a body without time stamps and saved to an empty store, is returned by `Get` with
`UpdatedAt` and `CreatedAt` both the zero time, not the time of the save; a second `Save`
of the same id with other stamps replaces both, the creation stamp included. For every
store and workflow, the record `Get` returns after a successful `Save` is the record
that was passed in (with the fresh id when it had none). -/
theorem C22_save_does_not_stamp :
    (({} : WorkflowStore).Save wfNightly "fresh-uuid" none).2 = none ∧
    ((({} : WorkflowStore).Save wfNightly "fresh-uuid" none).1.Get "nightly")
      = Except.ok wfNightly ∧
    wfNightly.UpdatedAt = 0 ∧ wfNightly.CreatedAt = 0 ∧
    (((({} : WorkflowStore).Save wfNightly "fresh-uuid" none).1.Save
        { wfNightly with CreatedAt := 7, UpdatedAt := 3 } "fresh-uuid" none).1.Get "nightly")
      = Except.ok { wfNightly with CreatedAt := 7, UpdatedAt := 3 } ∧
    (∀ (s : WorkflowStore) (wf : Workflow) (uuid : String),
      (s.Save wf uuid none).1.Get (if wf.ID = "" then uuid else wf.ID) =
        Except.ok (if wf.ID = "" then { wf with ID := uuid } else wf)) := by
  refine ⟨rfl, rfl, rfl, rfl, rfl, fun s wf uuid => ?_⟩
  unfold WorkflowStore.Save WorkflowStore.Get
  simp only []
  by_cases h : wf.ID = ""
  · rw [if_pos h, if_pos h, readFile_writeFile]
  · rw [if_neg h, if_neg h, readFile_writeFile]

/-! ## The iteration order of the values map -/

theorem wellFormed_entry (vals : GoMap) (h : WellFormed vals) (a b : String × String)
    (ha : a ∈ vals) (hb : b ∈ vals) (hk : a.1 = b.1) : a = b := by
  induction vals with
  | nil => cases ha
  | cons x rest ih =>
    unfold WellFormed at h ih
    simp only [List.map_cons, List.nodup_cons] at h
    rcases List.mem_cons.1 ha with ha1 | ha1 <;> rcases List.mem_cons.1 hb with hb1 | hb1
    · rw [ha1, hb1]
    · have hm : a.1 ∈ rest.map Prod.fst := List.mem_map.2 ⟨b, hb1, hk.symm⟩
      rw [ha1] at hm
      exact absurd hm h.1
    · have hm : b.1 ∈ rest.map Prod.fst := List.mem_map.2 ⟨a, ha1, hk⟩
      rw [hb1] at hm
      exact absurd hm h.1
    · exact ih h.2 ha1 hb1

theorem find_perm {α : Type} (p : α → Bool) {l l' : List α} (h : l.Perm l')
    (huniq : ∀ a ∈ l, ∀ b ∈ l, p a = true → p b = true → a = b) :
    l.find? p = l'.find? p := by
  induction h with
  | nil => rfl
  | cons x _ ih =>
    rw [List.find?_cons, List.find?_cons]
    cases hx : p x with
    | true => rfl
    | false =>
      exact ih (fun a ha b hb => huniq a (List.mem_cons_of_mem _ ha) b
        (List.mem_cons_of_mem _ hb))
  | swap x y l =>
    rw [List.find?_cons, List.find?_cons, List.find?_cons, List.find?_cons]
    cases hx : p x with
    | true =>
      cases hy : p y with
      | true =>
        have : y = x := huniq y (List.mem_cons_self _ _) x
          (List.mem_cons_of_mem _ (List.mem_cons_self _ _)) hy hx
        simp [this]
      | false => rfl
    | false => rfl
  | trans h₁ _ ih₁ ih₂ =>
    rw [ih₁ huniq]
    exact ih₂ (fun a ha b hb => huniq a (h₁.mem_iff.2 ha) b (h₁.mem_iff.2 hb))

theorem matchingEntry_perm (vals vals' : GoMap) (hperm : vals.Perm vals')
    (hwf : WellFormed vals) (hkeys : ∀ kv ∈ vals, braceFree kv.1.data) (text : List Char) :
    matchingEntry vals text = matchingEntry vals' text := by
  unfold matchingEntry
  refine find_perm _ hperm ?_
  intro a ha b hb hpa hpb
  rw [List.isPrefixOf_iff_prefix] at hpa hpb
  obtain ⟨y, hy⟩ := hpa
  rw [← hy] at hpb
  have hdata : b.1.data = a.1.data :=
    (ph_prefix_iff b.1.data a.1.data y (hkeys b hb).2 (hkeys a ha).2).1 hpb
  exact wellFormed_entry vals hwf a b ha hb (String.ext hdata.symm)

theorem simultaneousAux_congr (vals vals' : GoMap)
    (h : ∀ text, matchingEntry vals text = matchingEntry vals' text) (t : List Char) :
    ∀ skip, simultaneousAux vals skip t = simultaneousAux vals' skip t := by
  induction t with
  | nil =>
    intro skip
    cases skip <;> rfl
  | cons c cs ih =>
    intro skip
    cases skip with
    | succ k => exact ih k
    | zero =>
      rw [simultaneousAux, simultaneousAux, h (c :: cs)]
      cases matchingEntry vals' (c :: cs) with
      | none => simp only []; rw [ih 0]
      | some kv => simp only []; rw [ih _]

/-- C26 (as stated, refuted): the two orders of the same pairs give different results.
For the command `{{A}}` with `A ↦ B`, `B ↦ x` the order `A`, `B` gives `x` and the order
`B`, `A` gives `{B}`. Nested braces are not needed when a value holds braces (`{A}` with
`A ↦ {B}`, `B ↦ x` gives `x` or `{B}`), nor when a key does (`{A}}` with `A ↦ x`,
`A} ↦ y` gives `x}` or `y`). -/
theorem C26_order_changes_result :
    List.Perm [("A", "B"), ("B", "x")] [("B", "x"), ("A", "B")] ∧
    WellFormed [("A", "B"), ("B", "x")] ∧
    SubstituteVariables "\x7b\x7bA\x7d\x7d" [("A", "B"), ("B", "x")] = "x" ∧
    SubstituteVariables "\x7b\x7bA\x7d\x7d" [("B", "x"), ("A", "B")] = "\x7bB\x7d" ∧
    SubstituteVariables "\x7bA\x7d" [("A", "\x7bB\x7d"), ("B", "x")] = "x" ∧
    SubstituteVariables "\x7bA\x7d" [("B", "x"), ("A", "\x7bB\x7d")] = "\x7bB\x7d" ∧
    flatBraces "\x7bA\x7d\x7d" = true ∧
    SubstituteVariables "\x7bA\x7d\x7d" [("A", "x"), ("A\x7d", "y")] = "x\x7d" ∧
    SubstituteVariables "\x7bA\x7d\x7d" [("A\x7d", "y"), ("A", "x")] = "y" :=
  ⟨List.Perm.swap _ _ _, by decide, by decide, by decide, by decide, by decide, by decide,
    by decide, by decide⟩

/-- C26 (amended): for every command whose braces are not nested and every values map
with one entry per key whose keys and values hold no brace, processing the pairs in any
two orders gives the same result (the simultaneous substitution of the command). -/
theorem C26_order_independent (command : String) (vals vals' : GoMap)
    (hperm : vals.Perm vals') (hwf : WellFormed vals)
    (hflat : flatBraces command = true)
    (hkv : ∀ kv ∈ vals, braceFree kv.1.data ∧ braceFree kv.2.data) :
    SubstituteVariables command vals = SubstituteVariables command vals' ∧
    SubstituteVariables command vals = simultaneousSubstitution command vals := by
  have hkv' : ∀ kv ∈ vals', braceFree kv.1.data ∧ braceFree kv.2.data :=
    fun kv h => hkv kv (hperm.mem_iff.2 h)
  have h1 : (SubstituteVariables command vals).data = simultaneousAux vals 0 command.data := by
    rw [substitute_data]
    exact sequential_eq_simultaneous vals hkv command.data false hflat
  have h2 : (SubstituteVariables command vals').data
      = simultaneousAux vals' 0 command.data := by
    rw [substitute_data]
    exact sequential_eq_simultaneous vals' hkv' command.data false hflat
  refine ⟨String.ext ?_, String.ext h1⟩
  rw [h1, h2]
  exact simultaneousAux_congr vals vals'
    (matchingEntry_perm vals vals' hperm hwf (fun kv h => (hkv kv h).1)) command.data 0

/-- Witness of C26 (amended): both orders of `REGION` and `TIER` give the same command. -/
theorem C26_order_witness :
    SubstituteVariables "deploy \x7bREGION\x7d \x7bTIER\x7d"
        [("REGION", "us-east-1"), ("TIER", "gold")]
      = SubstituteVariables "deploy \x7bREGION\x7d \x7bTIER\x7d"
        [("TIER", "gold"), ("REGION", "us-east-1")] :=
  (C26_order_independent "deploy \x7bREGION\x7d \x7bTIER\x7d"
    [("REGION", "us-east-1"), ("TIER", "gold")] [("TIER", "gold"), ("REGION", "us-east-1")]
    (List.Perm.swap _ _ _) (by decide) (by decide) (by decide)).1

/-! ## The scope and the step-local mappings -/

theorem remap_data (stepVars vars : GoMap) (command : String) :
    (remapVariables command stepVars vars).data
      = substituteChars (remapEntries stepVars vars) command.data := by
  induction stepVars generalizing command with
  | nil => rfl
  | cons kv rest ih =>
    unfold remapVariables remapEntries substituteChars at ih ⊢
    rw [List.foldl_cons, List.filterMap_cons]
    cases h : lookup vars kv.2 with
    | none =>
      simp only [Option.map_none']
      exact ih command
    | some val =>
      simp only [Option.map_some', List.foldl_cons]
      rw [ih, replaceAll_placeholder]

theorem commandText_data (step : Step) (vars : GoMap) :
    (commandText step vars).data
      = substituteChars (effectiveScope step vars) step.Content.data := by
  unfold commandText effectiveScope
  rw [remap_data, substitute_data]
  unfold substituteChars
  rw [List.foldl_append]

theorem lookup_append (a b : GoMap) (n : String) :
    lookup (a ++ b) n = match lookup a n with
      | some v => some v
      | none => lookup b n := by
  induction a with
  | nil => rfl
  | cons kv rest ih =>
    obtain ⟨k, v⟩ := kv
    rw [List.cons_append, lookup, lookup]
    by_cases hk : k = n
    · rw [if_pos hk, if_pos hk]
    · rw [if_neg hk, if_neg hk, ih]

theorem lookup_remap_absent (stepVars vars : GoMap) (K : String)
    (h : ∀ kv ∈ stepVars, kv.1 ≠ K) : lookup (remapEntries stepVars vars) K = none := by
  induction stepVars with
  | nil => rfl
  | cons kv rest ih =>
    have hrest := ih (fun x hx => h x (List.mem_cons_of_mem _ hx))
    unfold remapEntries at hrest ⊢
    rw [List.filterMap_cons]
    cases hl : lookup vars kv.2 with
    | none => simpa using hrest
    | some val =>
      simp only [Option.map_some']
      rw [lookup, if_neg (h kv (List.mem_cons_self _ _))]
      exact hrest

theorem lookup_remap (stepVars vars : GoMap) (K V : String) (hwf : WellFormed stepVars)
    (hKV : (K, V) ∈ stepVars) : lookup (remapEntries stepVars vars) K = lookup vars V := by
  induction stepVars with
  | nil => cases hKV
  | cons kv rest ih =>
    have hwf' : WellFormed rest := by
      unfold WellFormed at hwf ⊢
      exact (List.nodup_cons.1 hwf).2
    by_cases hk : kv.1 = K
    · have hkv : kv = (K, V) :=
        wellFormed_entry (kv :: rest) hwf kv (K, V) (List.mem_cons_self _ _) hKV hk
      have habs : ∀ x ∈ rest, x.1 ≠ K := by
        intro x hx hxK
        unfold WellFormed at hwf
        rw [List.map_cons, List.nodup_cons] at hwf
        apply hwf.1
        rw [hk, ← hxK]
        exact List.mem_map.2 ⟨x, hx, rfl⟩
      have hrest := lookup_remap_absent rest vars K habs
      unfold remapEntries at hrest ⊢
      rw [List.filterMap_cons, hkv]
      cases hl : lookup vars V with
      | none => simpa using hrest
      | some val =>
        simp only [Option.map_some']
        rw [lookup, if_pos rfl]
    · have hmem : (K, V) ∈ rest := by
        rcases List.mem_cons.1 hKV with h | h
        · exact absurd (by rw [← h]) hk
        · exact h
      have hrest := ih hwf' hmem
      unfold remapEntries at hrest ⊢
      rw [List.filterMap_cons]
      cases hl : lookup vars kv.2 with
      | none => simpa using hrest
      | some val =>
        simp only [Option.map_some']
        rw [lookup, if_neg hk]
        exact hrest

theorem lookup_mem (vals : GoMap) (n v : String) (h : lookup vals n = some v) :
    (n, v) ∈ vals := by
  induction vals with
  | nil => cases h
  | cons kv rest ih =>
    obtain ⟨k, w⟩ := kv
    rw [lookup] at h
    by_cases hk : k = n
    · rw [if_pos hk, Option.some.injEq] at h
      rw [hk, h]
      exact List.mem_cons_self _ _
    · rw [if_neg hk] at h
      exact List.mem_cons_of_mem _ (ih h)

theorem find_key_of_lookup (vals : GoMap) (K : String) :
    vals.find? (fun kv => decide (kv.1.data = K.data)) =
      (lookup vals K).map (fun val => (K, val)) := by
  induction vals with
  | nil => rfl
  | cons kv rest ih =>
    obtain ⟨k, v⟩ := kv
    rw [List.find?_cons, lookup]
    by_cases hk : k = K
    · subst hk
      simp
    · have hd : ¬ k.data = K.data := fun h => hk (String.ext h)
      simp only [hd, decide_False, hk, if_false]
      exact ih

theorem matchingEntry_cut (vals : GoMap) (hkeys : ∀ kv ∈ vals, lbrace ∉ kv.1.data)
    (c : Char) (cs R : List Char) :
    matchingEntry vals (c :: cs ++ lbrace :: R) = matchingEntry vals (c :: cs) := by
  unfold matchingEntry
  induction vals with
  | nil => rfl
  | cons kv rest ih =>
    have hpred : (ph kv.1.data).isPrefixOf (c :: cs ++ lbrace :: R)
        = (ph kv.1.data).isPrefixOf (c :: cs) := by
      rw [Bool.eq_iff_iff, List.isPrefixOf_iff_prefix, List.isPrefixOf_iff_prefix]
      constructor
      · rintro ⟨Y, hY⟩
        simp only [ph, List.cons_append, List.cons.injEq] at hY
        obtain ⟨hc, hY⟩ := hY
        rw [← hc]
        rw [ph, List.cons_prefix_cons]
        refine ⟨rfl, ?_⟩
        rcases List.append_eq_append_iff.1 hY with ⟨a', h1, _⟩ | ⟨c', h1, h2⟩
        · exact ⟨a', h1.symm⟩
        · cases c' with
          | nil =>
            rw [List.append_nil] at h1
            exact ⟨[], by rw [List.append_nil, h1]⟩
          | cons x c'' =>
            exfalso
            simp only [List.cons_append, List.cons.injEq] at h2
            have hmem : lbrace ∈ kv.1.data ++ [rbrace] := by
              rw [h1, ← h2.1]
              simp
            rcases List.mem_append.1 hmem with hm | hm
            · exact hkeys kv (List.mem_cons_self _ _) hm
            · rw [List.mem_singleton] at hm
              exact absurd hm (by decide)
      · intro h
        exact h.trans (List.prefix_append _ _)
    rw [List.find?_cons, List.find?_cons, hpred]
    cases (ph kv.1.data).isPrefixOf (c :: cs) with
    | true => rfl
    | false => exact ih (fun x hx => hkeys x (List.mem_cons_of_mem _ hx))

/-- The scan of the text before an opening brace does not depend on what follows it. -/
theorem simultaneousAux_split (vals : GoMap) (hkeys : ∀ kv ∈ vals, lbrace ∉ kv.1.data)
    (R : List Char) :
    ∀ (n : Nat) (pre : List Char), pre.length = n →
      simultaneousAux vals 0 (pre ++ lbrace :: R)
        = simultaneousAux vals 0 pre ++ simultaneousAux vals 0 (lbrace :: R) := by
  intro n
  induction n using Nat.strong_induction_on with
  | _ n ih =>
    intro pre hlen
    cases pre with
    | nil =>
      have : simultaneousAux vals 0 [] = [] := rfl
      rw [this]
      rfl
    | cons c cs =>
      have hcut := matchingEntry_cut vals hkeys c cs R
      cases hm : matchingEntry vals (c :: cs) with
      | none =>
        rw [hm] at hcut
        have hcut' : matchingEntry vals (c :: (cs ++ lbrace :: R)) = none := hcut
        rw [List.cons_append, simultaneousAux_step vals c _ hcut',
          simultaneousAux_step vals c cs hm,
          ih cs.length (by rw [← hlen]; simp) cs rfl]
        rfl
      | some kv =>
        rw [hm] at hcut
        have hp : ph kv.1.data <+: c :: cs := by
          have := List.find?_some hm
          exact List.isPrefixOf_iff_prefix.1 this
        obtain ⟨x, hx⟩ := hp
        rw [← hx] at hm hcut hlen ⊢
        rw [List.append_assoc] at hcut ⊢
        have hlt : x.length < n := by
          rw [← hlen]
          simp only [List.length_append, ph, List.length_cons, List.length_nil]
          omega
        rw [simultaneousAux_match vals kv _ hcut, simultaneousAux_match vals kv _ hm,
          ih x.length hlt x rfl]
        exact (List.append_assoc _ _ _).symm

theorem simultaneousAux_at (vals : GoMap) (hkeys : ∀ kv ∈ vals, braceFree kv.1.data)
    (K : String) (hK : braceFree K.data) (pre post : List Char) :
    simultaneousAux vals 0 (pre ++ ph K.data ++ post) =
      simultaneousAux vals 0 pre ++
        (match lookup vals K with
          | some val => val.data
          | none => ph K.data) ++
        simultaneousAux vals 0 post := by
  have hsplit := simultaneousAux_split vals (fun kv h => (hkeys kv h).1)
    (K.data ++ [rbrace] ++ post) pre.length pre rfl
  have hform : pre ++ ph K.data ++ post = pre ++ lbrace :: (K.data ++ [rbrace] ++ post) := by
    simp [ph]
  have hform2 : lbrace :: (K.data ++ [rbrace] ++ post) = ph K.data ++ post := by
    simp [ph]
  rw [hform, hsplit, hform2, List.append_assoc]
  congr 1
  have hme := matchingEntry_ph vals K.data post (fun kv h => (hkeys kv h).2) hK.2
  rw [find_key_of_lookup] at hme
  cases hl : lookup vals K with
  | some val =>
    rw [hl] at hme
    exact simultaneousAux_match vals (K, val) post hme
  | none =>
    rw [hl] at hme
    simp only []
    have h1 : ph K.data ++ post = lbrace :: (K.data ++ rbrace :: post) := by simp [ph]
    rw [h1] at hme ⊢
    rw [simultaneousAux_step vals _ _ hme, simultaneousAux_pass vals K.data _ hK.1,
      simultaneousAux_step vals rbrace post
        (matchingEntry_head vals rbrace post (by decide))]
    simp [ph]

/-- C30 (as stated, refuted): the values of the scope hold no brace in either case. In
the first, the content is `{K}}`, the step maps `K` to `V`, and neither is a key of the
scope, whose only key is `K}`: the placeholder of `K` is not left in the command, which
is `x`. In the second, `K` is a key of the scope with value `J`, the content is
`{{K}}`, and with the scope iterated in the order `K`, `J` the command is `x`: the text
put in place of the placeholder of `K` has been replaced again together with the braces
around it. -/
theorem C30_remap_precedence_fails :
    lookup [("K\x7d", "x")] "K" = none ∧ lookup [("K\x7d", "x")] "V" = none ∧
    commandText { ID := "A", Content := "\x7bK\x7d\x7d", Variables := [("K", "V")] } [("K\x7d", "x")]
      = "x" ∧
    Contains (commandText { ID := "A", Content := "\x7bK\x7d\x7d", Variables := [("K", "V")] }
      [("K\x7d", "x")]) "\x7bK\x7d" = false ∧
    lookup [("K", "J"), ("J", "x")] "K" = some "J" ∧
    commandText { ID := "A", Content := "\x7b\x7bK\x7d\x7d", Variables := [("K", "V")] }
      [("K", "J"), ("J", "x")] = "x" ∧
    Contains (commandText { ID := "A", Content := "\x7b\x7bK\x7d\x7d", Variables := [("K", "V")] }
      [("K", "J"), ("J", "x")]) "J" = false :=
  ⟨by decide, by decide, by decide, by decide, by decide, by decide, by decide⟩

/-- C30 (amended): for a step whose content has no nested braces, a scope whose keys
and values hold no brace, and step-local mappings whose keys hold no brace, the command
handed to the shell is the simultaneous substitution of the content under the scope
followed by the replacements of the mappings. For a mapping entry `K -> V` and every
occurrence of the placeholder of `K` in the content: when `K` is a key of the scope the
occurrence is replaced by `scope[K]`; when `K` is not a key of the scope and `V` is, it
is replaced by `scope[V]`; when neither is a key it is left as it is. The text before
and after the occurrence is substituted independently of it. -/
theorem C30_scope_before_remap (step : Step) (vars : GoMap) (K V : String)
    (hflat : flatBraces step.Content = true)
    (hscope : ∀ kv ∈ vars, braceFree kv.1.data ∧ braceFree kv.2.data)
    (hmap : ∀ kv ∈ step.Variables, braceFree kv.1.data)
    (hwf : WellFormed step.Variables)
    (hKV : (K, V) ∈ step.Variables) :
    commandText step vars
      = simultaneousSubstitution step.Content (effectiveScope step vars) ∧
    (∀ val, lookup vars K = some val → ∀ pre post,
      step.Content.data = pre ++ ph K.data ++ post →
      (commandText step vars).data =
        simultaneousAux (effectiveScope step vars) 0 pre ++ val.data ++
          simultaneousAux (effectiveScope step vars) 0 post) ∧
    (lookup vars K = none → ∀ val, lookup vars V = some val → ∀ pre post,
      step.Content.data = pre ++ ph K.data ++ post →
      (commandText step vars).data =
        simultaneousAux (effectiveScope step vars) 0 pre ++ val.data ++
          simultaneousAux (effectiveScope step vars) 0 post) ∧
    (lookup vars K = none → lookup vars V = none → ∀ pre post,
      step.Content.data = pre ++ ph K.data ++ post →
      (commandText step vars).data =
        simultaneousAux (effectiveScope step vars) 0 pre ++ ph K.data ++
          simultaneousAux (effectiveScope step vars) 0 post) := by
  have hK : braceFree K.data := hmap (K, V) hKV
  have hremap : ∀ kv ∈ remapEntries step.Variables vars,
      braceFree kv.1.data ∧ braceFree kv.2.data := by
    intro kv hkv
    unfold remapEntries at hkv
    obtain ⟨e, he, hval⟩ := List.mem_filterMap.1 hkv
    cases hl : lookup vars e.2 with
    | none => rw [hl] at hval; cases hval
    | some val =>
      rw [hl] at hval
      simp only [Option.map_some', Option.some.injEq] at hval
      rw [← hval]
      exact ⟨hmap e he, (hscope _ (lookup_mem vars e.2 val hl)).2⟩
  have hall : ∀ kv ∈ effectiveScope step vars,
      braceFree kv.1.data ∧ braceFree kv.2.data := by
    intro kv hkv
    unfold effectiveScope at hkv
    rcases List.mem_append.1 hkv with h | h
    · exact hscope kv h
    · exact hremap kv h
  have hdata : (commandText step vars).data
      = simultaneousAux (effectiveScope step vars) 0 step.Content.data := by
    rw [commandText_data]
    exact sequential_eq_simultaneous _ hall step.Content.data false hflat
  have hlook : lookup (effectiveScope step vars) K = match lookup vars K with
      | some v => some v
      | none => lookup vars V := by
    unfold effectiveScope
    rw [lookup_append, lookup_remap step.Variables vars K V hwf hKV]
  have hat := simultaneousAux_at (effectiveScope step vars) (fun kv h => (hall kv h).1) K hK
  refine ⟨String.ext hdata, ?_, ?_, ?_⟩
  · intro val hval pre post hc
    rw [hval] at hlook
    rw [hdata, hc, hat pre post, hlook]
  · intro hnone val hval pre post hc
    rw [hnone, hval] at hlook
    rw [hdata, hc, hat pre post, hlook]
  · intro hnone hnoneV pre post hc
    rw [hnone, hnoneV] at hlook
    rw [hdata, hc, hat pre post, hlook]

/-- Witness of C30 (amended): the step maps `TARGET` to `REGION` and `ZONE` to `AREA`;
the scope holds `REGION` and `TARGET`. The placeholder of `TARGET` gets the scope's own
value of `TARGET`, not the one of `REGION`. -/
theorem C30_scope_before_remap_witness :
    (commandText remapStep [("REGION", "us-east-1"), ("TARGET", "prod")]).data
      = "deploy ".data ++ "prod".data ++ " \x7bZONE\x7d".data :=
  (C30_scope_before_remap remapStep [("REGION", "us-east-1"), ("TARGET", "prod")]
    "TARGET" "REGION" (by decide) (by decide) (by decide) (by decide) (by decide)).2.1
    "prod" (by decide) "deploy ".data " \x7bZONE\x7d".data (by decide)

/-! ## The relay goroutine of a sub-run -/

/-- C8 (the code at the failing input): `wfParentRef` has one `workflow_ref` step whose
target `child` exists. `Execute` succeeds; the goroutine of the parent starts the
sub-run, does not wait for it, and returns after two evaluations of the loop guard
with status completed, its own last event being the close of the channel. The
goroutine of the sub-run sends two messages on its own channel, and the relay
goroutine sends both, indented, on the channel of the parent. When the relay gets to
send only after the parent has returned, the history of the channel of the parent
holds the close followed by the sends of the relay: the close is not the last event and
a message is sent after it. The same holds when only the second message of the relay
comes after the close; no message follows the close only when the relay has sent both
before the parent sends its last message. -/
theorem C8_relay_sends_after_close :
    Execute relayEnv "parent-ref" []
      = Except.ok (wfParentRef, initialState relayEnv wfParentRef "parent-ref" []) ∧
    ∃ final, runLoop relayEnv wfParentRef 2 (initialState relayEnv wfParentRef "parent-ref" [])
        = some final ∧
      final.execution.Status = "completed" ∧
      final.sink =
        [SinkEvent.send "Starting workflow: parent-ref", SinkEvent.send "Step 1/1: call",
         SinkEvent.send "Executing sub-workflow: child",
         SinkEvent.send "Workflow completed successfully", SinkEvent.close] ∧
      final.subRuns =
        [{ stepID := "A", workflowID := "child", workflow := wfChild, inputs := [] }] ∧
      subRunEvents relayEnv
          { stepID := "A", workflowID := "child", workflow := wfChild, inputs := [] } 1
        = some [SinkEvent.send "Starting workflow: child",
                SinkEvent.send "Workflow completed successfully", SinkEvent.close] ∧
      relaySends ["Starting workflow: child", "Workflow completed successfully"]
        = [SinkEvent.send "  Starting workflow: child",
           SinkEvent.send "  Workflow completed successfully"] ∧
      channelHistory [] final.sink
          (relaySends ["Starting workflow: child", "Workflow completed successfully"])
        = [SinkEvent.send "Starting workflow: parent-ref", SinkEvent.send "Step 1/1: call",
           SinkEvent.send "Executing sub-workflow: child",
           SinkEvent.send "Workflow completed successfully", SinkEvent.close,
           SinkEvent.send "  Starting workflow: child",
           SinkEvent.send "  Workflow completed successfully"] ∧
      (channelHistory [] final.sink
          (relaySends ["Starting workflow: child", "Workflow completed successfully"])).getLast?
        ≠ some SinkEvent.close ∧
      sendAfterClose (channelHistory [] final.sink
          (relaySends ["Starting workflow: child", "Workflow completed successfully"]))
        = true ∧
      sendAfterClose (channelHistory [true, true, true, false] final.sink
          (relaySends ["Starting workflow: child", "Workflow completed successfully"]))
        = true ∧
      sendAfterClose (channelHistory [true, true, true, false, false] final.sink
          (relaySends ["Starting workflow: child", "Workflow completed successfully"]))
        = false ∧
      sendAfterClose final.sink = false :=
  ⟨rfl, _, rfl, by decide, by decide, by decide, by decide, by decide, by decide, by decide,
    by decide, by decide, by decide, by decide⟩

/-! ## The variable store with its lock -/

theorem locked_set (vs : VariableService) (v : GlobalVariable) (now : Nat)
    (w : Option String) :
    LockedStore.Set { store := vs, mu := {} } v now w =
      CallOutcome.blocked
        { store := { vs with cache := (vs.Set v now none).1.cache },
          mu := { readers := 0, writer := true } } := rfl

/-- C19 (the code at the failing input): no `Set` is ever successful. On an unlocked
store, whatever it holds, and whether or not the write would succeed, `Set(v)` takes
the write lock, stores the stamped record under `v.Name` in the cache (with the value
`v.Value`), and blocks in `saveCache`, before the file is written: the call does not
return, with or without an error. The write lock stays held, so a `Get(v.Name)`, or any
other `Get`, and `GetAll()` issued afterwards block as well instead of returning the
value. On the store holding `REGION`: `Set` of `ZONE` blocks, and `Get("ZONE")` and
`GetAll()` after it block, whereas `Get("REGION")` before it returns the record. -/
theorem C19_no_set_returns :
    (∀ (vs : VariableService) (v : GlobalVariable) (now : Nat) (w : Option String),
      ∃ st, LockedStore.Set { store := vs, mu := {} } v now w = CallOutcome.blocked st ∧
        st.mu = { readers := 0, writer := true } ∧
        st.store.disk = vs.disk ∧
        (∃ r, cacheLookup st.store.cache v.Name = some r ∧ r.Value = v.Value) ∧
        (∀ name, LockedStore.Get st name = none) ∧
        LockedStore.GetAll st = none) ∧
    (∀ (vs : VariableService) (v : GlobalVariable) (now : Nat) (w : Option String)
      (st : LockedStore) (err : Option StoreError),
      LockedStore.Set { store := vs, mu := {} } v now w ≠ CallOutcome.returned st err) ∧
    LockedStore.Get { store := demoVariables, mu := {} } "REGION"
      = some ({ store := demoVariables, mu := {} },
          Except.ok { Name := "REGION", Value := "us-east-1", CreatedAt := 5, UpdatedAt := 5 }) ∧
    LockedStore.Set { store := demoVariables, mu := {} } { Name := "ZONE", Value := "b" } 9 none
      = CallOutcome.blocked
        { store := { demoVariables with
            cache := demoVariables.cache ++
              [("ZONE", { Name := "ZONE", Value := "b", CreatedAt := 9, UpdatedAt := 9 })] },
          mu := { readers := 0, writer := true } } ∧
    LockedStore.Get
      (LockedStore.Set { store := demoVariables, mu := {} } { Name := "ZONE", Value := "b" } 9
        none).state "ZONE" = none ∧
    LockedStore.GetAll
      (LockedStore.Set { store := demoVariables, mu := {} } { Name := "ZONE", Value := "b" } 9
        none).state = none := by
  refine ⟨fun vs v now w => ⟨_, locked_set vs v now w, rfl, rfl, ?_, fun _ => rfl, rfl⟩,
    fun vs v now w st err h => ?_, rfl, by decide, rfl, rfl⟩
  · obtain ⟨r, hr, _, hval, _⟩ := set_stamps vs v now none
    exact ⟨r, hr, hval⟩
  · rw [locked_set] at h
    cases h

end DevopsTools
